import Mathlib

/-!
Verification development for the auction-radar normalize / keyword-match / rank
core (src/auction_radar/normalize.py, keywords.py, ranker.py).

Strings are modelled as `List Char`; Python values appearing in raw scraper
dictionaries as the closed universe `Value` (absent key, None, str, int);
fallible Python code as `Except PyErr`.  Regular expressions are embedded as
executable matchers over `List Char` with explicit word-boundary handling,
mirroring each pattern of the source.  Floats are modelled as `ℚ`.
-/

deriving instance DecidableEq for Except

namespace AuctionRadar

abbrev Str := List Char

/-- Python `str.isspace` / regex `\s`, restricted to the ASCII whitespace the
scraped text contains. -/
def isWS (c : Char) : Bool := c.isWhitespace

/-- Word character for regex `\b`: `[A-Za-z0-9_]`. -/
def isWordChar (c : Char) : Bool := c.isAlphanum || c = '_'

def lowerStr (s : Str) : Str := s.map Char.toLower

def upperStr (s : Str) : Str := s.map Char.toUpper

/-- Python `str.strip()`: drop leading and trailing whitespace. -/
def stripWS (s : Str) : Str := ((s.dropWhile isWS).reverse.dropWhile isWS).reverse

/-- Helper for `re.sub(r'\s+', ' ', s)`: each maximal whitespace run becomes a
single space.  `inWS` records whether the previous character was whitespace. -/
def collapseAux (inWS : Bool) : Str → Str
  | [] => []
  | c :: cs =>
    if isWS c then (if inWS then [] else [' ']) ++ collapseAux true cs
    else c :: collapseAux false cs

def collapseWS (s : Str) : Str := collapseAux false s

/-- Python `str.title()`: an alphabetic character is uppercased when the
previous character is not alphabetic, lowercased otherwise.  `prevAl` records
whether the previous character was alphabetic (cased). -/
def titleAux (prevAl : Bool) : Str → Str
  | [] => []
  | c :: cs =>
    (if c.isAlpha then (if prevAl then c.toLower else c.toUpper) else c) ::
      titleAux c.isAlpha cs

def titleStr (s : Str) : Str := titleAux false s

/-- Python `int()` on a non-empty digit string. -/
def digitsToInt (ds : Str) : Int :=
  ds.foldl (fun acc c => acc * 10 + ((c.toNat : Int) - 48)) 0

/-- The first element of Python `s.split()` (whitespace split, empty pieces
dropped): `none` when the string contains no non-whitespace character, in
which case `s.split()[0]` raises `IndexError`. -/
def firstWord (s : Str) : Option Str :=
  let t := (s.dropWhile isWS).takeWhile (fun c => !isWS c)
  if t = [] then none else some t

/-- A Python value as it occurs in a raw scraper dictionary.  `vAbsent` marks a
key that is missing from the dictionary (so `dict.get` returns its default),
`vNone` a key that is present with value `None`. -/
inductive Value where
  | vAbsent : Value
  | vNone : Value
  | vStr : Str → Value
  | vInt : Int → Value
deriving DecidableEq

open Value

/-- `raw.get(key, default)`: the default replaces only an absent key. -/
def getD (v : Value) (d : Value) : Value :=
  match v with
  | vAbsent => d
  | _ => v

/-- Python truthiness of a value (absent keys behave like `None`). -/
def pyTruthy (v : Value) : Bool :=
  match v with
  | vAbsent => false
  | vNone => false
  | vStr s => s ≠ []
  | vInt n => n ≠ 0

/-- Python `str(v)` for the values of our universe. -/
def pyStr (v : Value) : Str :=
  match v with
  | vAbsent => []
  | vNone => "None".toList
  | vStr s => s
  | vInt n => (toString n).toList

/-- Exceptions the normalizer can actually raise. -/
inductive PyErr where
  | attributeError : PyErr
  | indexError : PyErr
deriving DecidableEq

/-- `value.strip()`: only a string has the method; anything else raises
`AttributeError`. -/
def pyStrip (v : Value) : Except PyErr Str :=
  match v with
  | vStr s => .ok (stripWS s)
  | _ => .error .attributeError

/-- `raw.get(key, '').strip()`, the access pattern used for the plain string
fields of `normalize_lot`. -/
def getS (v : Value) : Except PyErr Str := pyStrip (getD v (vStr []))

/-!
A small embedding of the regular-expression fragment the source uses.  A
pattern is an alternation of branches; each branch is a sequence of elements.
Every branch of every pattern in the source begins and ends with a word
character, so the surrounding `\b` anchors amount to: the character before the
match (if any) is not a word character, and the character after the match (if
any) is not a word character.  Matching is existential over backtracking
choices, which coincides with Python's backtracking search semantics for the
question "does the pattern match here".
-/

/-- One element of a regex branch: a case-insensitive literal, `\s*`,
`[\s\-]*`, `\d+`, or `.*` (any character except newline). -/
inductive RE where
  | lit : Str → RE
  | ws : RE
  | wsh : RE
  | digits : RE
  | dot : RE
deriving DecidableEq

/-- All remainders obtained by removing a (possibly empty) prefix of
characters satisfying `p`: models greedy-with-backtracking `X*`. -/
def starRems (p : Char → Bool) : Str → List Str
  | [] => [[]]
  | c :: cs => (c :: cs) :: (if p c then starRems p cs else [])

/-- Case-insensitive literal prefix: the remainder, when `l` is a prefix of
`cs` up to `Char.toLower`. -/
def ciPref (l cs : Str) : Option Str :=
  match l, cs with
  | [], rest => some rest
  | _ :: _, [] => none
  | a :: l2, c :: cs2 => if a.toLower = c.toLower then ciPref l2 cs2 else none

/-- The possible remainders after matching one regex element at the front. -/
def elemRems (e : RE) (cs : Str) : List Str :=
  match e with
  | .lit l => match ciPref l cs with | some r => [r] | none => []
  | .ws => starRems isWS cs
  | .wsh => starRems (fun c => isWS c || c = '-') cs
  | .dot => starRems (fun c => c ≠ '\n') cs
  | .digits =>
    match cs with
    | [] => []
    | c :: cs2 => if c.isDigit then starRems Char.isDigit cs2 else []

/-- The possible remainders after matching a branch (element sequence) at the
front. -/
def seqRems : List RE → Str → List Str
  | [], cs => [cs]
  | e :: es, cs => (elemRems e cs).flatMap (seqRems es)

/-- Does some branch of `alts` match at the front of `cs`?  Used for the body
of a negative lookahead. -/
def altsMatchHere (alts : List (List RE)) (cs : Str) : Bool :=
  alts.any (fun br => seqRems br cs ≠ [])

/-- A compiled category pattern: the branches of the outer alternation and an
optional negative-lookahead body applied after each branch, with implicit `\b`
anchors on both sides. -/
structure CatPat where
  branches : List (List RE)
  negLook : List (List RE)
deriving DecidableEq

/-- `\b` after the match: the next character, if any, is not a word
character. -/
def boundaryAfter (cs : Str) : Bool :=
  match cs with
  | [] => true
  | c :: _ => !isWordChar c

/-- Does `p` match starting exactly here (given that the previous character is
not a word character)? -/
def catHere (p : CatPat) (cs : Str) : Bool :=
  p.branches.any (fun br =>
    (seqRems br cs).any (fun rem =>
      boundaryAfter rem && !(altsMatchHere p.negLook rem)))

/-- `pattern.search(text)`: scan all start positions; `prevW` tells whether
the previous character is a word character (for the leading `\b`). -/
def catSearchAux (p : CatPat) (prevW : Bool) : Str → Bool
  | [] => false
  | c :: cs =>
    (!prevW && catHere p (c :: cs)) || catSearchAux p (isWordChar c) cs

def catSearch (p : CatPat) (s : Str) : Bool := catSearchAux p false s

/-!  The four title-status patterns of `LotNormalizer.title_patterns`. -/

/-- `\b(?:clean|clear|good)\b` (IGNORECASE). -/
def cleanPat : CatPat :=
  { branches := [[.lit ("clean".toList)], [.lit ("clear".toList)], [.lit ("good".toList)]],
    negLook := [] }

/-- `\b(?:rebuilt|reconstructed|repaired)\b` (IGNORECASE). -/
def rebuiltPat : CatPat :=
  { branches := [[.lit ("rebuilt".toList)], [.lit ("reconstructed".toList)],
      [.lit ("repaired".toList)]],
    negLook := [] }

/-- `\b(?:salvage|salvaged|total|totaled)\b` (IGNORECASE). -/
def salvagePat : CatPat :=
  { branches := [[.lit ("salvage".toList)], [.lit ("salvaged".toList)],
      [.lit ("total".toList)], [.lit ("totaled".toList)]],
    negLook := [] }

/-- `\b(?:parts\s*only|scrap|junk|non\s*runner)\b` (IGNORECASE). -/
def partsOnlyPat : CatPat :=
  { branches := [[.lit ("parts".toList), .ws, .lit ("only".toList)],
      [.lit ("scrap".toList)], [.lit ("junk".toList)],
      [.lit ("non".toList), .ws, .lit ("runner".toList)]],
    negLook := [] }

/-!  The six target-category patterns of `KeywordMatcher.patterns`, with the
inner alternations expanded into branch lists. -/

/-- `\b(?:(?:lexus|toyota).*(?:land\s*cruiser|landcruiser)|land\s*cruiser|landcruiser|lx\s*\d+|lx570|lx470|lx450|lc\s*\d+|lc200|lc100|lc80)\b` -/
def landCruiserPat : CatPat :=
  { branches := [
      [.lit ("lexus".toList), .dot, .lit ("land".toList), .ws, .lit ("cruiser".toList)],
      [.lit ("lexus".toList), .dot, .lit ("landcruiser".toList)],
      [.lit ("toyota".toList), .dot, .lit ("land".toList), .ws, .lit ("cruiser".toList)],
      [.lit ("toyota".toList), .dot, .lit ("landcruiser".toList)],
      [.lit ("land".toList), .ws, .lit ("cruiser".toList)],
      [.lit ("landcruiser".toList)],
      [.lit ("lx".toList), .ws, .digits],
      [.lit ("lx570".toList)], [.lit ("lx470".toList)], [.lit ("lx450".toList)],
      [.lit ("lc".toList), .ws, .digits],
      [.lit ("lc200".toList)], [.lit ("lc100".toList)], [.lit ("lc80".toList)]],
    negLook := [] }

/-- `\b(?:4[\s\-]*runner|four[\s\-]*runner)\b` -/
def fourrunnerPat : CatPat :=
  { branches := [
      [.lit ("4".toList), .wsh, .lit ("runner".toList)],
      [.lit ("four".toList), .wsh, .lit ("runner".toList)]],
    negLook := [] }

/-- `\b(?:toyota.*(?:tacoma|tundra|t100|pickup)|(?:tacoma|tundra|t100))\b` -/
def toyotaTrucksPat : CatPat :=
  { branches := [
      [.lit ("toyota".toList), .dot, .lit ("tacoma".toList)],
      [.lit ("toyota".toList), .dot, .lit ("tundra".toList)],
      [.lit ("toyota".toList), .dot, .lit ("t100".toList)],
      [.lit ("toyota".toList), .dot, .lit ("pickup".toList)],
      [.lit ("tacoma".toList)], [.lit ("tundra".toList)], [.lit ("t100".toList)]],
    negLook := [] }

/-- `\b(?:nissan.*(?:frontier|titan|navara|hardbody|pickup)|(?:frontier|titan|navara|hardbody))\b` -/
def nissanTrucksPat : CatPat :=
  { branches := [
      [.lit ("nissan".toList), .dot, .lit ("frontier".toList)],
      [.lit ("nissan".toList), .dot, .lit ("titan".toList)],
      [.lit ("nissan".toList), .dot, .lit ("navara".toList)],
      [.lit ("nissan".toList), .dot, .lit ("hardbody".toList)],
      [.lit ("nissan".toList), .dot, .lit ("pickup".toList)],
      [.lit ("frontier".toList)], [.lit ("titan".toList)],
      [.lit ("navara".toList)], [.lit ("hardbody".toList)]],
    negLook := [] }

/-- The shared negative lookahead `(?!\s*(?:expand|slide|out))` of the two
camper patterns. -/
def camperLook : List (List RE) :=
  [[.ws, .lit ("expand".toList)], [.ws, .lit ("slide".toList)], [.ws, .lit ("out".toList)]]

/-- `\b(?:(?:class\s*b|mini\s*motor\s*home|small\s*rv|conversion\s*van|roadtrek|pleasure\s*way|leisure\s*travel\s*van|great\s*west\s*van)(?!\s*(?:expand|slide|out)))\b` -/
def miniCampersMotorPat : CatPat :=
  { branches := [
      [.lit ("class".toList), .ws, .lit ("b".toList)],
      [.lit ("mini".toList), .ws, .lit ("motor".toList), .ws, .lit ("home".toList)],
      [.lit ("small".toList), .ws, .lit ("rv".toList)],
      [.lit ("conversion".toList), .ws, .lit ("van".toList)],
      [.lit ("roadtrek".toList)],
      [.lit ("pleasure".toList), .ws, .lit ("way".toList)],
      [.lit ("leisure".toList), .ws, .lit ("travel".toList), .ws, .lit ("van".toList)],
      [.lit ("great".toList), .ws, .lit ("west".toList), .ws, .lit ("van".toList)]],
    negLook := camperLook }

/-- `\b(?:(?:teardrop|small\s*travel\s*trailer|mini\s*trailer|compact\s*trailer|pop\s*up|casita|scamp|t@b|tab|little\s*guy|rpod|r\s*pod)(?!\s*(?:expand|slide|out)))\b` -/
def miniCampersTowPat : CatPat :=
  { branches := [
      [.lit ("teardrop".toList)],
      [.lit ("small".toList), .ws, .lit ("travel".toList), .ws, .lit ("trailer".toList)],
      [.lit ("mini".toList), .ws, .lit ("trailer".toList)],
      [.lit ("compact".toList), .ws, .lit ("trailer".toList)],
      [.lit ("pop".toList), .ws, .lit ("up".toList)],
      [.lit ("casita".toList)], [.lit ("scamp".toList)],
      [.lit ("t@b".toList)], [.lit ("tab".toList)],
      [.lit ("little".toList), .ws, .lit ("guy".toList)],
      [.lit ("rpod".toList)],
      [.lit ("r".toList), .ws, .lit ("pod".toList)]],
    negLook := camperLook }

/-!  The VIN pattern, the year pattern, and the make/model extraction
patterns of the normalizer. -/

/-- The 33-character VIN alphabet `[A-HJ-NPR-Z0-9]` (uppercase view). -/
def isVinUpper (c : Char) : Bool :=
  ('A' ≤ c && c ≤ 'H') || ('J' ≤ c && c ≤ 'N') || c = 'P' || ('R' ≤ c && c ≤ 'Z') ||
    ('0' ≤ c && c ≤ '9')

/-- The VIN alphabet up to case (the pattern carries `re.IGNORECASE`). -/
def isVinCI (c : Char) : Bool := isVinUpper c.toUpper

/-- Does `\b[A-HJ-NPR-Z0-9]{17}\b` (IGNORECASE) match at the front of `cs`? -/
def vinHere (cs : Str) : Bool :=
  (cs.take 17).length = 17 && (cs.take 17).all isVinCI && boundaryAfter (cs.drop 17)

/-- `vin_pattern.search(raw_text)`: the first matched 17-character substring,
exactly as it appears in the text (`match.group()` is not case-normalized). -/
def vinSearchAux (prevW : Bool) : Str → Option Str
  | [] => none
  | c :: cs =>
    if !prevW && vinHere (c :: cs) then some ((c :: cs).take 17)
    else vinSearchAux (isWordChar c) cs

def vinSearch (s : Str) : Option Str := vinSearchAux false s

/-- `year_pattern.findall(raw_text)` for `\b(19|20)\d{2}\b`: Python's
`findall` returns, for each non-overlapping match, the text of the single
capture group — that is, `"19"` or `"20"`, never the full four-digit year. -/
def yearFindAux (prevW : Bool) : Str → List Str
  | c1 :: c2 :: c3 :: c4 :: rest =>
    if !prevW && ((c1 = '1' && c2 = '9') || (c1 = '2' && c2 = '0')) &&
        c3.isDigit && c4.isDigit && boundaryAfter rest then
      [c1, c2] :: yearFindAux true rest
    else
      yearFindAux (isWordChar c1) (c2 :: c3 :: c4 :: rest)
  | c :: cs => yearFindAux (isWordChar c) cs
  | [] => []

def yearFindall (s : Str) : List Str := yearFindAux false s

/-- Python `str.isdigit()` (ASCII digits). -/
def pyIsdigit (s : Str) : Bool := s ≠ [] && s.all Char.isDigit

/-- The make-alias table `LotNormalizer.make_mappings`. -/
def make_mappings : List (Str × Str) :=
  [("toyota".toList, "Toyota".toList),
   ("lexus".toList, "Lexus".toList),
   ("nissan".toList, "Nissan".toList),
   ("ford".toList, "Ford".toList),
   ("chevrolet".toList, "Chevrolet".toList),
   ("chevy".toList, "Chevrolet".toList),
   ("gmc".toList, "GMC".toList),
   ("honda".toList, "Honda".toList),
   ("acura".toList, "Acura".toList)]

/-- `LotNormalizer._normalize_make`. -/
def normalize_make (make : Str) : Str :=
  if make = [] then []
  else
    match List.lookup (stripWS (lowerStr make)) make_mappings with
    | some v => v
    | none => titleStr make

/-- `LotNormalizer._normalize_model`. -/
def normalize_model (model : Str) : Str :=
  if model = [] then [] else titleStr (collapseWS (stripWS model))

/-- `LotNormalizer._normalize_vin`. -/
def normalize_vin (vin : Str) : Str :=
  if vin = [] then []
  else
    let v := (upperStr vin).filter isVinUpper
    if v.length = 17 then v else []

/-- `LotNormalizer._normalize_year`.  The string branch models
`int(re.sub(r'[^\d]', '', year))`, whose only failure (caught by the bare
`except`) is an empty digit string. -/
def normalize_year (year : Value) : Option Int :=
  match year with
  | Value.vInt n => if 1900 ≤ n && n ≤ 2030 then some n else none
  | Value.vStr s =>
    let ds := s.filter Char.isDigit
    if ds = [] then none
    else if 1900 ≤ digitsToInt ds && digitsToInt ds ≤ 2030 then some (digitsToInt ds)
    else none
  | _ => none

/-- The first maximal digit run of a string: `re.findall(r'\d+', s)[0]` when
it exists. -/
def firstDigitRun (s : Str) : Option Str :=
  let t := (s.dropWhile (fun c => !c.isDigit)).takeWhile Char.isDigit
  if t = [] then none else some t

/-- `LotNormalizer._normalize_odometer`. -/
def normalize_odometer (odo : Value) : Option Int :=
  match odo with
  | Value.vInt n => if 0 ≤ n && n ≤ 1000000 then some n else none
  | Value.vStr s =>
    match firstDigitRun s with
    | none => none
    | some ds => if 0 ≤ digitsToInt ds && digitsToInt ds ≤ 1000000 then some (digitsToInt ds) else none
  | _ => none

/-- `LotNormalizer._normalize_datetime`.  `parseDT` models the composition
`dateutil.parser.parse(s).isoformat()` of the external dateutil collaborator,
returning `none` exactly when parsing raises.  `datetime` instances do not
occur in our value universe; every other non-string value falls through to
`None` as in the source. -/
def normalize_datetime (parseDT : Str → Option Str) (v : Value) : Option Str :=
  match v with
  | Value.vStr s => if s = [] then none else parseDT s
  | _ => none

/-- `LotNormalizer._normalize_title_status`, applied to the two values the
caller fetched with `raw_lot.get(..., '')`: the f-string stringifies them,
the concatenation is lowercased, and the four patterns are tried in
declaration order. -/
def titleSearchStr (ts rt : Value) : Str := lowerStr (pyStr ts ++ [' '] ++ pyStr rt)

def normalize_title_status (ts rt : Value) : Str :=
  if catSearch cleanPat (titleSearchStr ts rt) then ("clean".toList)
  else if catSearch rebuiltPat (titleSearchStr ts rt) then ("rebuilt".toList)
  else if catSearch salvagePat (titleSearchStr ts rt) then ("salvage".toList)
  else if catSearch partsOnlyPat (titleSearchStr ts rt) then ("parts_only".toList)
  else ("unknown".toList)

/-!  `LotNormalizer._extract_make_model`: the two patterns
`\b(toyota|lexus|nissan|ford|chevrolet|chevy|gmc|honda|acura)\s+([a-z0-9\-\s]+)`
and `\b(\d{4})\s+(same makes)\s+([a-z0-9\-\s]+)` are searched over the
lowercased text.  The matcher below reproduces the regex engine's
leftmost-match, alternation-in-order, greedy-with-backtracking behaviour:
after the make word, `\s+` takes the whole whitespace run when a
`[a-z0-9\-\s]` character follows it (the model group is then the maximal
class run from there); otherwise `\s+` backtracks by one, leaving a model
group of exactly one whitespace character — possible only when the run has
length at least two. -/

/-- The character class `[a-z0-9\-\s]` of the model group. -/
def mmClass (c : Char) : Bool := ('a' ≤ c && c ≤ 'z') || c.isDigit || c = '-' || isWS c

/-- The make alternation, in source order. -/
def mmMakes : List Str :=
  [("toyota".toList), ("lexus".toList), ("nissan".toList), ("ford".toList),
   ("chevrolet".toList), ("chevy".toList), ("gmc".toList), ("honda".toList),
   ("acura".toList)]

/-- `\s+([a-z0-9\-\s]+)` after the make word: the model group, or `none` when
this position cannot complete a match. -/
def mmAfterMake (rem : Str) : Option Str :=
  let wsRun := rem.takeWhile isWS
  if wsRun = [] then none
  else
    let run := (rem.drop wsRun.length).takeWhile mmClass
    if run ≠ [] then some run
    else if 2 ≤ wsRun.length then some ((rem.drop (wsRun.length - 1)).take 1)
    else none

/-- Try the first pattern's alternation at this position. -/
def mmTryHere (cs : Str) : Option (Str × Str) :=
  List.findSome?
    (fun alt =>
      if alt.isPrefixOf cs then (mmAfterMake (cs.drop alt.length)).map (fun g => (alt, g))
      else none)
    mmMakes

/-- Leftmost search for the first make/model pattern. -/
def mmSearch1Aux (prevW : Bool) : Str → Option (Str × Str)
  | [] => none
  | c :: cs =>
    match (if prevW then none else mmTryHere (c :: cs)) with
    | some r => some r
    | none => mmSearch1Aux (isWordChar c) cs

/-- Try the second pattern (`\d{4}` then make then model) at this position. -/
def mmTry2Here (cs : Str) : Option (Str × Str × Str) :=
  if (cs.take 4).length = 4 && (cs.take 4).all Char.isDigit then
    let rem := cs.drop 4
    let wsRun := rem.takeWhile isWS
    if wsRun = [] then none
    else
      List.findSome?
        (fun alt =>
          if alt.isPrefixOf (rem.drop wsRun.length) then
            (mmAfterMake ((rem.drop wsRun.length).drop alt.length)).map (fun g => ((cs.take 4), alt, g))
          else none)
        mmMakes
  else none

/-- Leftmost search for the second make/model pattern. -/
def mmSearch2Aux (prevW : Bool) : Str → Option (Str × Str × Str)
  | [] => none
  | c :: cs =>
    match (if prevW then none else mmTry2Here (c :: cs)) with
    | some r => some r
    | none => mmSearch2Aux (isWordChar c) cs

/-- The shared post-processing of the matched groups: `groups[0].isdigit()`
dispatch, `_normalize_make` on a truthy make, `model.split()[0].title()` on a
truthy model (raising `IndexError` when the model group is pure
whitespace). -/
def mmProcess (g0 g1 : Str) (g2 : Option Str) : Except PyErr (Option Str × Option Str) :=
  let mk : Option Str := if pyIsdigit g0 then some g1 else some g0
  let md : Option Str := if pyIsdigit g0 then g2 else some g1
  let mk2 : Option Str :=
    match mk with
    | some m => if m ≠ [] then some (normalize_make m) else some m
    | none => none
  match md with
  | some m =>
    if m ≠ [] then
      match firstWord m with
      | some w => .ok (mk2, some (titleStr w))
      | none => .error .indexError
    else .ok (mk2, some m)
  | none => .ok (mk2, none)

/-- `LotNormalizer._extract_make_model`. -/
def extract_make_model (text : Str) : Except PyErr (Option Str × Option Str) :=
  let tl := lowerStr text
  match mmSearch1Aux false tl with
  | some (m, g) => mmProcess m g none
  | none =>
    match mmSearch2Aux false tl with
    | some (d, m, g) => mmProcess d m (some g)
    | none => .ok (none, none)

/-!  The lot records. -/

/-- A raw scraper dictionary, restricted to the keys `normalize_lot` reads.
`vAbsent` marks a missing key. -/
structure RawLot where
  source : Value := Value.vAbsent
  source_lot_id : Value := Value.vAbsent
  lot_url : Value := Value.vAbsent
  sale_date_utc : Value := Value.vAbsent
  sale_local_time : Value := Value.vAbsent
  tz_name : Value := Value.vAbsent
  location_name : Value := Value.vAbsent
  location_city : Value := Value.vAbsent
  location_state : Value := Value.vAbsent
  vin : Value := Value.vAbsent
  year : Value := Value.vAbsent
  make : Value := Value.vAbsent
  model : Value := Value.vAbsent
  trim : Value := Value.vAbsent
  drivetrain : Value := Value.vAbsent
  odometer : Value := Value.vAbsent
  title_status : Value := Value.vAbsent
  condition_notes : Value := Value.vAbsent
  raw_text : Value := Value.vAbsent
deriving DecidableEq

/-- The normalized lot dictionary built by `normalize_lot` (`tz_name` is
passed through unchanged, so it keeps its raw value type). -/
structure NormalizedLot where
  source : Str
  source_lot_id : Str
  lot_url : Str
  sale_date_utc : Option Str
  sale_local_time : Str
  tz_name : Value
  location_name : Str
  location_city : Str
  location_state : Str
  vin : Str
  year : Option Int
  make : Str
  model : Str
  trim : Str
  drivetrain : Str
  odometer : Option Int
  title_status : Str
  condition_notes : Str
  raw_text : Str
deriving DecidableEq

/-- The vin block of `_extract_from_raw_text`: fill a falsy vin from the
first VIN-pattern match. -/
def extractVin (lot : NormalizedLot) (raw_text : Str) : NormalizedLot :=
  if lot.vin = [] then
    match vinSearch raw_text with
    | some v => { lot with vin := v }
    | none => lot
  else lot

/-- The year block of `_extract_from_raw_text`: fill a falsy year (`None` or
`0`) from the last `findall` capture group. -/
def extractYear (lot : NormalizedLot) (raw_text : Str) : NormalizedLot :=
  if (match lot.year with | none => true | some n => n = 0) then
    match (yearFindall raw_text).getLast? with
    | some g => { lot with year := some (digitsToInt g) }
    | none => lot
  else lot

/-- The make/model block of `_extract_from_raw_text`. -/
def extractMM (lot : NormalizedLot) (raw_text : Str) : Except PyErr NormalizedLot :=
  if lot.make = [] || lot.model = [] then do
    let mm ← extract_make_model raw_text
    let lot3 :=
      match mm.1 with
      | some m => if m ≠ [] && lot.make = [] then { lot with make := m } else lot
      | none => lot
    let lot4 :=
      match mm.2 with
      | some m => if m ≠ [] && lot3.model = [] then { lot3 with model := m } else lot3
      | none => lot3
    .ok lot4
  else .ok lot

/-- `LotNormalizer._extract_from_raw_text`: fill missing vin / year /
make+model from the raw text, never overwriting a truthy value. -/
def extract_from_raw_text (lot : NormalizedLot) (raw_text : Str) :
    Except PyErr NormalizedLot :=
  extractMM (extractYear (extractVin lot raw_text) raw_text) raw_text

/-- `LotNormalizer.normalize_lot`.  The field computations run in the
evaluation order of the source's dictionary literal, so the first failing
field determines the exception; `.strip()` on a present non-string value
raises `AttributeError`. -/
def normalize_lot (parseDT : Str → Option Str) (raw : RawLot) :
    Except PyErr NormalizedLot := do
  let source ← getS raw.source
  let source_lot_id := stripWS (pyStr (getD raw.source_lot_id (Value.vStr [])))
  let lot_url ← getS raw.lot_url
  let sale_date_utc := normalize_datetime parseDT (getD raw.sale_date_utc Value.vNone)
  let sale_local_time ← getS raw.sale_local_time
  let tz_name := getD raw.tz_name (Value.vStr ("America/New_York".toList))
  let location_name ← getS raw.location_name
  let location_city ← getS raw.location_city
  let location_state ← getS raw.location_state
  let vin0 ← getS raw.vin
  let make0 ← getS raw.make
  let model0 ← getS raw.model
  let trim ← getS raw.trim
  let drivetrain ← getS raw.drivetrain
  let condition_notes ← getS raw.condition_notes
  let raw_text ← getS raw.raw_text
  let n : NormalizedLot :=
    { source := source
      source_lot_id := source_lot_id
      lot_url := lot_url
      sale_date_utc := sale_date_utc
      sale_local_time := sale_local_time
      tz_name := tz_name
      location_name := location_name
      location_city := location_city
      location_state := location_state
      vin := normalize_vin vin0
      year := normalize_year (getD raw.year Value.vNone)
      make := normalize_make make0
      model := normalize_model model0
      trim := trim
      drivetrain := drivetrain
      odometer := normalize_odometer (getD raw.odometer Value.vNone)
      title_status := normalize_title_status (getD raw.title_status (Value.vStr []))
        (getD raw.raw_text (Value.vStr []))
      condition_notes := condition_notes
      raw_text := raw_text }
  if pyTruthy raw.raw_text then
    match raw.raw_text with
    | Value.vStr rt => extract_from_raw_text n rt
    | _ => .ok n
  else .ok n

/-!  `KeywordMatcher` (src/auction_radar/keywords.py). -/

/-- One entry of `KeywordMatcher.patterns`: category name, compiled regex,
fixed score, display keywords. -/
structure Category where
  name : Str
  pat : CatPat
  score : ℚ
  keywords : List Str
deriving DecidableEq

/-- `KeywordMatcher.patterns`, in declaration order. -/
def categories : List Category :=
  [{ name := ("land_cruiser".toList), pat := landCruiserPat, score := 1,
     keywords := [("land cruiser".toList), ("landcruiser".toList), ("lexus lx".toList),
       ("lx570".toList), ("lx470".toList), ("lc200".toList), ("lc100".toList),
       ("lc80".toList)] },
   { name := ("fourrunner".toList), pat := fourrunnerPat, score := 19/20,
     keywords := [("4runner".toList), ("four runner".toList), ("4 runner".toList),
       ("4-runner".toList)] },
   { name := ("toyota_trucks".toList), pat := toyotaTrucksPat, score := 9/10,
     keywords := [("tacoma".toList), ("tundra".toList), ("toyota pickup".toList),
       ("t100".toList)] },
   { name := ("nissan_trucks".toList), pat := nissanTrucksPat, score := 17/20,
     keywords := [("frontier".toList), ("titan".toList), ("nissan pickup".toList),
       ("navara".toList), ("hardbody".toList)] },
   { name := ("mini_campers_motor".toList), pat := miniCampersMotorPat, score := 4/5,
     keywords := [("class b".toList), ("mini motorhome".toList), ("conversion van".toList),
       ("roadtrek".toList), ("pleasure way".toList)] },
   { name := ("mini_campers_tow".toList), pat := miniCampersTowPat, score := 3/4,
     keywords := [("teardrop".toList), ("small travel trailer".toList), ("pop up".toList),
       ("casita".toList), ("scamp".toList), ("little guy".toList), ("rpod".toList)] }]

structure TargetMatch where
  category : Str
  keywords : List Str
  score : ℚ
deriving DecidableEq

/-- The `TargetMatch` emitted for a matching category: the display keywords
literally contained in the lowercased text, or `[category]` when none are. -/
def mkTargetMatch (text : Str) (c : Category) : TargetMatch :=
  let mks := c.keywords.filter (fun k => decide (List.IsInfix (lowerStr k) (lowerStr text)))
  { category := c.name, keywords := if mks = [] then [c.name] else mks, score := c.score }

/-- The loop body of `KeywordMatcher.find_matches`. -/
def findMatchesAux (text : Str) : List Category → List TargetMatch
  | [] => []
  | c :: cs =>
    if catSearch c.pat text then mkTargetMatch text c :: findMatchesAux text cs
    else findMatchesAux text cs

/-- `KeywordMatcher.find_matches`. -/
def find_matches (text : Str) : List TargetMatch := findMatchesAux text categories

/-- `KeywordMatcher.get_best_match`: Python `max(matches, key=...)`, which
keeps the first element among equal keys. -/
def get_best_match (text : Str) : Option TargetMatch :=
  match find_matches text with
  | [] => none
  | m :: ms => some (ms.foldl (fun b x => if b.score < x.score then x else b) m)

/-!  `LotRanker` (src/auction_radar/ranker.py).  Scores are floats in the
source, modelled as `ℚ`; `datetime.now().year` is passed explicitly as
`currentYear`. -/

/-- Python `min(a, b)` (returns the first argument on ties). -/
def pyMin (a b : ℚ) : ℚ := if a ≤ b then a else b

/-- Python `max(a, b)` (returns the first argument on ties). -/
def pyMax (a b : ℚ) : ℚ := if b ≤ a then a else b

/-- The fields of a normalized-lot dictionary that the ranker reads. -/
structure RLot where
  vin : Str := []
  year : Option Int := none
  make : Str := []
  model : Str := []
  raw_text : Str := []
  title_status : Str := []
deriving DecidableEq

instance : Inhabited RLot := ⟨{}⟩

/-- `LotRanker.title_penalties`. -/
def title_penalties : List (Str × ℚ) :=
  [(("clean".toList), 0), (("rebuilt".toList), 1/20), (("salvage".toList), 1/5),
   (("parts_only".toList), 3/5), (("unknown".toList), 1/10)]

/-- `LotRanker._get_title_penalty`: table lookup with default `0.1`. -/
def get_title_penalty (ts : Str) : ℚ := (List.lookup ts title_penalties).getD (1/10)

/-- `LotRanker._get_age_penalty`.  Python's `if not year` treats both `None`
and `0` as unknown. -/
def get_age_penalty (currentYear : Int) (year : Option Int) : ℚ :=
  match year with
  | none => 1/10
  | some y =>
    if y = 0 then 1/10
    else if currentYear - y ≤ 0 then 0
    else pyMin (((currentYear - y : Int) : ℚ) * (1/100)) (3/10)

/-- The search text `f"{make} {model} {raw_text}"` of
`LotRanker._get_keyword_score`. -/
def searchText (lot : RLot) : Str := lot.make ++ [' '] ++ lot.model ++ [' '] ++ lot.raw_text

/-- `LotRanker._get_keyword_score`. -/
def get_keyword_score (lot : RLot) : ℚ :=
  match get_best_match (searchText lot) with
  | some m => m.score
  | none => 0

/-- `LotRanker.score_lot`. -/
def score_lot (currentYear : Int) (lot : RLot) : ℚ :=
  let base := get_keyword_score lot
  if base = 0 then 0
  else
    pyMax 0 (pyMin 1 (base * (1 - get_title_penalty lot.title_status) *
      (1 - get_age_penalty currentYear lot.year)))

/-- A scored copy: the input dictionary plus its `'score'` key. -/
structure SLot where
  lot : RLot
  score : ℚ
deriving DecidableEq

/-- Update the value stored at a key of an association list, in place (Python
`dict[key] = v` for an existing key keeps the insertion position). -/
def setAssoc {α : Type} : List (Str × α) → Str → α → List (Str × α)
  | [], _, _ => []
  | (k, v) :: rest, key, x =>
    if k = key then (k, x) :: rest else (k, v) :: setAssoc rest key x

/-- The loop body of `_deduplicate_by_vin`: `vin_to_lot` as an insertion-order
association list, mirroring a Python dict. -/
def dedupStep (m : List (Str × SLot)) (sl : SLot) : List (Str × SLot) :=
  if sl.lot.vin = [] then m
  else
    match List.lookup sl.lot.vin m with
    | none => m ++ [(sl.lot.vin, sl)]
    | some ex => if ex.score < sl.score then setAssoc m sl.lot.vin sl else m

/-- `LotRanker._deduplicate_by_vin`. -/
def deduplicate_by_vin (lots : List SLot) : List SLot :=
  ((lots.foldl dedupStep []).map Prod.snd) ++ lots.filter (fun sl => sl.lot.vin = [])

/-- The scoring loop of `rank_lots`: each lot with a positive score yields a
copy carrying the score. -/
def scoredLots (currentYear : Int) (lots : List RLot) : List SLot :=
  lots.filterMap
    (fun l => let s := score_lot currentYear l; if 0 < s then some ⟨l, s⟩ else none)

/-- `LotRanker.rank_lots`: score (dropping non-positive scores), deduplicate
by VIN, sort descending by score (Python's stable sort; the claim constrains
only sortedness and multiset content, which any correct sort provides). -/
def rank_lots (currentYear : Int) (lots : List RLot) : List SLot :=
  List.insertionSort (fun a b => b.score ≤ a.score)
    (deduplicate_by_vin (scoredLots currentYear lots))

/-!  A heap-instrumented version of `rank_lots`, used to state the frame
property: dictionaries are heap cells addressed by index, `lot.copy()`
allocates a fresh cell at the end of the heap, and `lot_copy['score'] =
score` writes only into that fresh cell.  The deduplication and the sort
shuffle references (addresses) and never write to the heap. -/

/-- A lot dictionary as a mutable heap cell: the ranker-visible fields plus
an optional `'score'` key (absent on raw input lots). -/
structure HLot where
  lot : RLot
  score : Option ℚ
deriving DecidableEq

abbrev Heap := List HLot

/-- Read `cell['vin']` at an address. -/
def heapVin (h : Heap) (a : Nat) : Str :=
  match h.get? a with
  | some c => c.lot.vin
  | none => []

/-- Read `cell['score']` at an address (present on every scored copy). -/
def heapScore (h : Heap) (a : Nat) : ℚ :=
  match h.get? a with
  | some c => c.score.getD 0
  | none => 0

/-- The scoring loop of `rank_lots`: for each input address, compute the
score and, when positive, allocate a copy carrying the score. -/
def rankHeapStep (currentYear : Int) : Heap × List Nat → Nat → Heap × List Nat :=
  fun hacc a =>
    match hacc.1.get? a with
    | none => hacc
    | some cell =>
      let s := score_lot currentYear cell.lot
      if 0 < s then (hacc.1 ++ [{ lot := cell.lot, score := some s }], hacc.2 ++ [hacc.1.length])
      else hacc

/-- The deduplication loop over addresses, reading vin and score from the
heap. -/
def dedupHeapStep (h : Heap) (m : List (Str × Nat)) (a : Nat) : List (Str × Nat) :=
  if heapVin h a = [] then m
  else
    match List.lookup (heapVin h a) m with
    | none => m ++ [(heapVin h a, a)]
    | some b => if heapScore h b < heapScore h a then setAssoc m (heapVin h a) a else m

/-- `rank_lots` over the heap: returns the final heap and the addresses of
the ranked copies. -/
def rank_lots_heap (currentYear : Int) (heap : Heap) (addrs : List Nat) :
    Heap × List Nat :=
  let hs := addrs.foldl (rankHeapStep currentYear) (heap, [])
  let deduped := ((hs.2.foldl (dedupHeapStep hs.1) []).map Prod.snd) ++
    hs.2.filter (fun a => heapVin hs.1 a = [])
  (hs.1, List.insertionSort (fun a b => heapScore hs.1 b ≤ heapScore hs.1 a) deduped)

/-!  Character-level facts used by the idempotence development: the ASCII
case maps viewed through `Char.toNat`. -/

theorem toNat_ofNat_valid {n : Nat} (h : n < 55296) : (Char.ofNat n).toNat = n := by
  have hv : n.isValidChar := Or.inl (by omega)
  unfold Char.ofNat
  split
  · rfl
  · next hn => exact absurd hv hn

theorem char_eq_of_toNat {c d : Char} (h : c.toNat = d.toNat) : c = d := by
  apply Char.ext
  apply UInt32.ext
  simpa [Char.toNat] using h

theorem char_toNat_lt (c : Char) : c.toNat < 1114112 := by
  rcases c.valid with h | ⟨-, h2⟩
  · simp only [Char.toNat]
    omega
  · simp only [Char.toNat]
    omega

theorem char_le_iff {a b : Char} : a ≤ b ↔ a.toNat ≤ b.toNat := by
  rw [Char.le_def, UInt32.le_def, BitVec.le_def]
  exact Iff.rfl

theorem char_eq_iff {a b : Char} : a = b ↔ a.toNat = b.toNat :=
  ⟨fun h => by rw [h], char_eq_of_toNat⟩

theorem toNat_toLower (c : Char) :
    (Char.toLower c).toNat = if 65 ≤ c.toNat ∧ c.toNat ≤ 90 then c.toNat + 32 else c.toNat := by
  unfold Char.toLower
  split
  · next h => rw [if_pos ⟨h.1, h.2⟩]; exact toNat_ofNat_valid (by omega)
  · next h => rw [if_neg (by omega)]

theorem toNat_toUpper (c : Char) :
    (Char.toUpper c).toNat = if 97 ≤ c.toNat ∧ c.toNat ≤ 122 then c.toNat - 32 else c.toNat := by
  unfold Char.toUpper
  split
  · next h => rw [if_pos ⟨h.1, h.2⟩]; exact toNat_ofNat_valid (by omega)
  · next h => rw [if_neg (by omega)]

theorem isWS_toNat (c : Char) :
    isWS c = true ↔ c.toNat = 32 ∨ c.toNat = 9 ∨ c.toNat = 10 ∨ c.toNat = 13 := by
  unfold isWS Char.isWhitespace
  constructor
  · intro h
    simp only [Bool.or_eq_true, decide_eq_true_eq] at h
    rcases h with ((h | h) | h) | h <;> subst h <;> simp [Char.toNat]
  · intro h
    have he : c = ' ' ∨ c = '\t' ∨ c = '\n' ∨ c = '\r' := by
      rcases h with h | h | h | h
      · exact Or.inl (char_eq_of_toNat (by rw [h]; rfl))
      · exact Or.inr (Or.inl (char_eq_of_toNat (by rw [h]; rfl)))
      · exact Or.inr (Or.inr (Or.inl (char_eq_of_toNat (by rw [h]; rfl))))
      · exact Or.inr (Or.inr (Or.inr (char_eq_of_toNat (by rw [h]; rfl))))
    rcases he with rfl | rfl | rfl | rfl <;> decide

theorem isAlpha_toNat (c : Char) :
    c.isAlpha = true ↔ (65 ≤ c.toNat ∧ c.toNat ≤ 90) ∨ (97 ≤ c.toNat ∧ c.toNat ≤ 122) := by
  unfold Char.isAlpha Char.isUpper Char.isLower
  simp only [Bool.or_eq_true, Bool.and_eq_true, decide_eq_true_eq, char_le_iff]
  constructor
  · intro h
    rcases h with ⟨h1, h2⟩ | ⟨h1, h2⟩
    · exact Or.inl ⟨by simpa using h1, by simpa using h2⟩
    · exact Or.inr ⟨by simpa using h1, by simpa using h2⟩
  · intro h
    rcases h with ⟨h1, h2⟩ | ⟨h1, h2⟩
    · exact Or.inl ⟨by simpa using h1, by simpa using h2⟩
    · exact Or.inr ⟨by simpa using h1, by simpa using h2⟩

theorem isDigit_toNat (c : Char) :
    c.isDigit = true ↔ 48 ≤ c.toNat ∧ c.toNat ≤ 57 := by
  unfold Char.isDigit
  simp only [Bool.and_eq_true, decide_eq_true_eq, char_le_iff]
  constructor
  · intro ⟨h1, h2⟩
    exact ⟨by simpa using h1, by simpa using h2⟩
  · intro ⟨h1, h2⟩
    exact ⟨by simpa using h1, by simpa using h2⟩

theorem isWS_toLower (c : Char) : isWS (Char.toLower c) = isWS c := by
  rw [Bool.eq_iff_iff, isWS_toNat, isWS_toNat, toNat_toLower]
  by_cases h : 65 ≤ c.toNat ∧ c.toNat ≤ 90
  · rw [if_pos h]; omega
  · rw [if_neg h]

theorem isWS_toUpper (c : Char) : isWS (Char.toUpper c) = isWS c := by
  rw [Bool.eq_iff_iff, isWS_toNat, isWS_toNat, toNat_toUpper]
  by_cases h : 97 ≤ c.toNat ∧ c.toNat ≤ 122
  · rw [if_pos h]; omega
  · rw [if_neg h]

theorem isAlpha_toLower (c : Char) : (Char.toLower c).isAlpha = c.isAlpha := by
  rw [Bool.eq_iff_iff, isAlpha_toNat, isAlpha_toNat, toNat_toLower]
  by_cases h : 65 ≤ c.toNat ∧ c.toNat ≤ 90
  · rw [if_pos h]; omega
  · rw [if_neg h]

theorem isAlpha_toUpper (c : Char) : (Char.toUpper c).isAlpha = c.isAlpha := by
  rw [Bool.eq_iff_iff, isAlpha_toNat, isAlpha_toNat, toNat_toUpper]
  by_cases h : 97 ≤ c.toNat ∧ c.toNat ≤ 122
  · rw [if_pos h]; omega
  · rw [if_neg h]

theorem toLower_toLower (c : Char) : Char.toLower (Char.toLower c) = Char.toLower c := by
  apply char_eq_of_toNat
  simp only [toNat_toLower]
  split_ifs <;> omega

theorem toUpper_toUpper (c : Char) : Char.toUpper (Char.toUpper c) = Char.toUpper c := by
  apply char_eq_of_toNat
  simp only [toNat_toUpper]
  split_ifs <;> omega

theorem toLower_toUpper (c : Char) : Char.toLower (Char.toUpper c) = Char.toLower c := by
  apply char_eq_of_toNat
  simp only [toNat_toLower, toNat_toUpper]
  split_ifs <;> omega

theorem toUpper_toLower (c : Char) : Char.toUpper (Char.toLower c) = Char.toUpper c := by
  apply char_eq_of_toNat
  simp only [toNat_toUpper, toNat_toLower]
  split_ifs <;> omega

theorem isDigit_not_isWS {c : Char} (h : c.isDigit = true) : isWS c = false := by
  rw [isDigit_toNat] at h
  rw [← Bool.not_eq_true, isWS_toNat]
  omega

/-!  String-level lemmas for the idempotence development: `stripWS`,
`collapseWS`, `titleAux`, `lowerStr`. -/

/-- A string with no leading and no trailing whitespace. -/
def SNeat (s : Str) : Prop :=
  (∀ c ∈ s.head?, isWS c = false) ∧ (∀ c ∈ s.getLast?, isWS c = false)

theorem dropWhile_eq_self_of_head {p : Char → Bool} {s : Str}
    (h : ∀ c ∈ s.head?, p c = false) : s.dropWhile p = s := by
  cases s with
  | nil => rfl
  | cons c cs =>
    rw [List.dropWhile_cons, h c rfl]
    simp

theorem sneat_stripWS_eq_self {s : Str} (h : SNeat s) : stripWS s = s := by
  unfold stripWS
  rw [dropWhile_eq_self_of_head h.1]
  rw [dropWhile_eq_self_of_head (by
    intro c hc
    rw [List.head?_reverse] at hc
    exact h.2 c hc)]
  exact List.reverse_reverse s

theorem getLast?_dropWhile_ne_nil {p : Char → Bool} {s : Str}
    (h : s.dropWhile p ≠ []) : (s.dropWhile p).getLast? = s.getLast? := by
  induction s with
  | nil => simp at h
  | cons c cs ih =>
    rw [List.dropWhile_cons]
    by_cases hp : p c = true
    · rw [if_pos hp]
      rw [List.dropWhile_cons, if_pos hp] at h
      rw [ih h]
      cases hcs : cs with
      | nil => exact absurd rfl (hcs ▸ h)
      | cons d ds => rw [List.getLast?_cons_cons]
    · rw [if_neg hp]

theorem sneat_stripWS (s : Str) : SNeat (stripWS s) := by
  constructor
  · intro c hc
    unfold stripWS at hc
    rw [List.head?_reverse] at hc
    by_cases hne : ((s.dropWhile isWS).reverse.dropWhile isWS) = []
    · rw [hne] at hc
      cases hc
    · rw [getLast?_dropWhile_ne_nil hne, List.getLast?_reverse] at hc
      have := List.head?_dropWhile_not isWS s
      rw [hc] at this
      simpa using this
  · intro c hc
    unfold stripWS at hc
    rw [List.getLast?_reverse] at hc
    have := List.head?_dropWhile_not isWS (s.dropWhile isWS).reverse
    rw [hc] at this
    simpa using this

theorem stripWS_idem (s : Str) : stripWS (stripWS s) = stripWS s :=
  sneat_stripWS_eq_self (sneat_stripWS s)

theorem mem_of_head? {l : Str} {c : Char} (h : l.head? = some c) : c ∈ l := by
  cases l with
  | nil => cases h
  | cons d ds =>
    injection h with h2
    rw [← h2]
    exact List.mem_cons_self d ds

theorem stripWS_eq_self_of_all {s : Str} (h : ∀ c ∈ s, isWS c = false) : stripWS s = s :=
  sneat_stripWS_eq_self
    ⟨fun c hc => h c (mem_of_head? hc), fun c hc => h c (List.mem_of_mem_getLast? hc)⟩

theorem lowerStr_stripWS (s : Str) : lowerStr (stripWS s) = stripWS (lowerStr s) := by
  unfold lowerStr stripWS
  have hcomp : (isWS ∘ Char.toLower) = isWS := by
    funext c
    exact isWS_toLower c
  rw [List.dropWhile_map, hcomp, ← List.map_reverse, List.dropWhile_map, hcomp,
    ← List.map_reverse]

/-- The whitespace profile of the text is preserved by title-casing. -/
theorem titleAux_map_isWS (b : Bool) (s : Str) :
    (titleAux b s).map isWS = s.map isWS := by
  induction s generalizing b with
  | nil => rfl
  | cons c cs ih =>
    rw [titleAux, List.map_cons, List.map_cons, ih]
    congr 1
    by_cases ha : c.isAlpha = true
    · rw [if_pos ha]
      by_cases hb : b = true
      · rw [if_pos hb]
        exact isWS_toLower c
      · rw [if_neg hb]
        exact isWS_toUpper c
    · rw [if_neg ha]

theorem titleAux_length (b : Bool) (s : Str) : (titleAux b s).length = s.length := by
  have := congrArg List.length (titleAux_map_isWS b s)
  simpa using this

theorem lowerStr_titleAux (b : Bool) (s : Str) : lowerStr (titleAux b s) = lowerStr s := by
  induction s generalizing b with
  | nil => rfl
  | cons c cs ih =>
    rw [titleAux]
    simp only [lowerStr, List.map_cons] at *
    rw [ih]
    congr 1
    by_cases ha : c.isAlpha = true
    · rw [if_pos ha]
      by_cases hb : b = true
      · rw [if_pos hb]
        exact toLower_toLower c
      · rw [if_neg hb]
        exact toLower_toUpper c
    · rw [if_neg ha]

theorem titleAux_idem (b : Bool) (s : Str) : titleAux b (titleAux b s) = titleAux b s := by
  induction s generalizing b with
  | nil => rfl
  | cons c cs ih =>
    rw [titleAux, titleAux]
    by_cases ha : c.isAlpha = true
    · rw [if_pos ha]
      by_cases hb : b = true
      · rw [if_pos hb, if_pos (by rw [isAlpha_toLower]; exact ha), if_pos hb,
          toLower_toLower, isAlpha_toLower, ih]
      · rw [if_neg hb, if_pos (by rw [isAlpha_toUpper]; exact ha), if_neg hb,
          toUpper_toUpper, isAlpha_toUpper, ih]
    · rw [if_neg ha, if_neg ha, ih]

theorem sneat_titleStr {s : Str} (h : SNeat s) : SNeat (titleStr s) := by
  have hprof := titleAux_map_isWS false s
  constructor
  · intro c hc
    have h1 : ((titleStr s).map isWS).head? = (s.map isWS).head? := by
      rw [titleStr] at *
      rw [hprof]
    rw [List.head?_map, List.head?_map, hc] at h1
    cases hs : s.head? with
    | none => rw [hs] at h1; cases h1
    | some d =>
      rw [hs] at h1
      injection h1 with h2
      rw [h2]
      exact h.1 d hs
  · intro c hc
    have h1 : ((titleStr s).map isWS).getLast? = (s.map isWS).getLast? := by
      rw [titleStr] at *
      rw [hprof]
    rw [List.getLast?_map, List.getLast?_map, hc] at h1
    cases hs : s.getLast? with
    | none => rw [hs] at h1; cases h1
    | some d =>
      rw [hs] at h1
      injection h1 with h2
      rw [h2]
      exact h.2 d hs

/-- The shape invariant of collapsed whitespace: no two adjacent whitespace
characters, and every whitespace character is a single space. -/
def CollapsedOK (s : Str) : Prop :=
  List.Chain' (fun a b : Bool => ¬(a = true ∧ b = true)) (s.map isWS) ∧
  ∀ c ∈ s, isWS c = true → c = ' '

theorem collapseAux_ne_nil {s : Str} (h : ∃ c ∈ s, isWS c = false) :
    ∀ b, collapseAux b s ≠ [] := by
  induction s with
  | nil => obtain ⟨c, hc, -⟩ := h; cases hc
  | cons c cs ih =>
    intro b
    rw [collapseAux]
    by_cases hc : isWS c = true
    · rw [if_pos hc]
      have h2 : ∃ d ∈ cs, isWS d = false := by
        obtain ⟨d, hd, hdw⟩ := h
        rcases List.mem_cons.mp hd with rfl | hmem
        · exact absurd hc (by rw [hdw]; simp)
        · exact ⟨d, hmem, hdw⟩
      intro hcon
      exact ih h2 true (List.append_eq_nil.mp hcon).2
    · rw [if_neg hc]
      simp

theorem collapseAux_head_nonWS (s : Str) :
    ∀ c ∈ (collapseAux true s).head?, isWS c = false := by
  induction s with
  | nil => intro c hc; cases hc
  | cons d ds ih =>
    intro c hc
    rw [collapseAux] at hc
    by_cases hd : isWS d = true
    · rw [if_pos hd] at hc
      simp only [if_pos rfl, List.nil_append] at hc
      exact ih c hc
    · rw [if_neg hd] at hc
      injection hc with h2
      rw [← h2]
      simpa using hd

theorem collapseAux_collapsedOK (s : Str) :
    ∀ b, CollapsedOK (collapseAux b s) := by
  induction s with
  | nil => intro b; exact ⟨List.chain'_nil, fun c hc => absurd hc (List.not_mem_nil c)⟩
  | cons c cs ih =>
    intro b
    rw [collapseAux]
    by_cases hc : isWS c = true
    · rw [if_pos hc]
      by_cases hb : b = true
      · rw [if_pos hb, List.nil_append]
        exact ih true
      · rw [if_neg hb]
        obtain ⟨ihc, ihs⟩ := ih true
        refine ⟨?_, ?_⟩
        · rw [List.singleton_append, List.map_cons]
          rw [List.chain'_cons']
          refine ⟨?_, ihc⟩
          intro y hy
          rw [List.head?_map] at hy
          cases hh : (collapseAux true cs).head? with
          | none => rw [hh] at hy; cases hy
          | some d =>
            rw [hh] at hy
            injection hy with hy2
            have := collapseAux_head_nonWS cs d hh
            rw [← hy2]
            simp [this]
        · intro d hd
          rw [List.singleton_append, List.mem_cons] at hd
          rcases hd with rfl | hd2
          · intro _; rfl
          · exact ihs d hd2
    · rw [if_neg hc]
      obtain ⟨ihc, ihs⟩ := ih false
      refine ⟨?_, ?_⟩
      · rw [List.map_cons, List.chain'_cons']
        refine ⟨fun y _ => by simp [hc], ihc⟩
      · intro d hd
        rcases List.mem_cons.mp hd with rfl | hd2
        · intro hdd; exact absurd hdd (by simp [hc])
        · exact ihs d hd2

theorem collapseAux_fixed {s : Str} (h : CollapsedOK s) :
    collapseAux false s = s ∧
      ((∀ c ∈ s.head?, isWS c = false) → collapseAux true s = s) := by
  induction s with
  | nil => exact ⟨rfl, fun _ => rfl⟩
  | cons c cs ih =>
    obtain ⟨hch, hsp⟩ := h
    rw [List.map_cons, List.chain'_cons'] at hch
    have hcs : CollapsedOK cs := ⟨hch.2, fun d hd => hsp d (List.mem_cons.mpr (Or.inr hd))⟩
    have ihcs := ih hcs
    constructor
    · rw [collapseAux]
      by_cases hc : isWS c = true
      · rw [if_pos hc]
        have hcsp : c = ' ' := hsp c (List.mem_cons.mpr (Or.inl rfl)) hc
        have hhead : ∀ d ∈ cs.head?, isWS d = false := by
          intro d hd
          have hthis := hch.1 (isWS d) (by rw [List.head?_map, hd]; rfl)
          by_cases hdw : isWS d = true
          · exact absurd ⟨hc, hdw⟩ hthis
          · simpa using hdw
        rw [ihcs.2 hhead]
        simp [hcsp]
      · rw [if_neg hc, ihcs.1]
    · intro hhd
      rw [collapseAux]
      have hc : isWS c = false := hhd c rfl
      rw [if_neg (by simp [hc]), ihcs.1]

theorem sneat_collapse_getLast {s : Str} (hl : ∀ c ∈ s.getLast?, isWS c = false) :
    ∀ b, ∀ c ∈ (collapseAux b s).getLast?, isWS c = false := by
  induction s with
  | nil => intro b c hc; cases hc
  | cons d ds ih =>
    intro b c hc
    rw [collapseAux] at hc
    cases hds : ds with
    | nil =>
      subst hds
      by_cases hd : isWS d = true
      · exact absurd (hl d rfl) (by simp [hd])
      · rw [if_neg hd] at hc
        injection hc with h2
        rw [← h2] at *
        simpa using hd
    | cons e es =>
      subst hds
      have hl2 : ∀ x ∈ (e :: es).getLast?, isWS x = false := by
        intro x hx
        exact hl x (by rw [List.getLast?_cons_cons]; exact hx)
      obtain ⟨x, hx⟩ : ∃ x, (e :: es).getLast? = some x := by
        cases h2 : (e :: es).getLast? with
        | none => simp at h2
        | some y => exact ⟨y, rfl⟩
      have hxmem : x ∈ (e :: es).getLast? := Option.mem_def.mpr hx
      have hnw : ∃ y ∈ (e :: es), isWS y = false :=
        ⟨x, List.mem_of_mem_getLast? hxmem, hl2 x hxmem⟩
      by_cases hd : isWS d = true
      · rw [if_pos hd] at hc
        have hne : collapseAux true (e :: es) ≠ [] := collapseAux_ne_nil hnw true
        rw [List.getLast?_append] at hc
        cases hcl : (collapseAux true (e :: es)).getLast? with
        | none =>
          exact absurd (List.getLast?_eq_none_iff.mp hcl) hne
        | some y =>
          rw [hcl, Option.or_some] at hc
          injection hc with h2
          subst h2
          exact ih hl2 true _ (Option.mem_def.mpr hcl)
      · rw [if_neg hd] at hc
        have hne : collapseAux false (e :: es) ≠ [] := collapseAux_ne_nil hnw false
        rw [show d :: collapseAux false (e :: es) = [d] ++ collapseAux false (e :: es) from rfl,
          List.getLast?_append] at hc
        cases hcl : (collapseAux false (e :: es)).getLast? with
        | none =>
          exact absurd (List.getLast?_eq_none_iff.mp hcl) hne
        | some y =>
          rw [hcl, Option.or_some] at hc
          injection hc with h2
          subst h2
          exact ih hl2 false _ (Option.mem_def.mpr hcl)

theorem sneat_collapseWS {s : Str} (h : SNeat s) : SNeat (collapseWS s) := by
  constructor
  · intro c hc
    unfold collapseWS at hc
    cases s with
    | nil => cases hc
    | cons d ds =>
      rw [collapseAux] at hc
      have hd : isWS d = false := h.1 d rfl
      rw [if_neg (by simp [hd])] at hc
      injection hc with h2
      rw [← h2]
      exact hd
  · exact sneat_collapse_getLast h.2 false

/-- Every character of a title-cased string is a case variant of a character
of the input. -/
theorem titleAux_mem {b : Bool} {s : Str} {d : Char} (h : d ∈ titleAux b s) :
    ∃ c ∈ s, d = c.toLower ∨ d = c.toUpper ∨ d = c := by
  induction s generalizing b with
  | nil => cases h
  | cons c cs ih =>
    rw [titleAux] at h
    rcases List.mem_cons.mp h with rfl | hmem
    · refine ⟨c, List.mem_cons_self c cs, ?_⟩
      by_cases ha : c.isAlpha = true
      · rw [if_pos ha]
        by_cases hb : b = true
        · rw [if_pos hb]; exact Or.inl rfl
        · rw [if_neg hb]; exact Or.inr (Or.inl rfl)
      · rw [if_neg ha]; exact Or.inr (Or.inr rfl)
    · obtain ⟨c2, hc2, hcase⟩ := ih hmem
      exact ⟨c2, List.mem_cons.mpr (Or.inr hc2), hcase⟩

theorem collapsedOK_titleStr {s : Str} (h : CollapsedOK s) : CollapsedOK (titleStr s) := by
  constructor
  · rw [titleStr, titleAux_map_isWS]
    exact h.1
  · intro d hd hdw
    obtain ⟨c, hc, hcase⟩ := titleAux_mem hd
    have hcw : isWS c = true := by
      rcases hcase with rfl | rfl | rfl
      · rwa [isWS_toLower] at hdw
      · rwa [isWS_toUpper] at hdw
      · exact hdw
    have hsp := h.2 c hc hcw
    subst hsp
    rcases hcase with rfl | rfl | rfl <;> rfl

/-!  C9: structure of `find_matches`. -/

theorem findMatchesAux_eq (text : Str) (cs : List Category) :
    findMatchesAux text cs =
      (cs.filter (fun c => catSearch c.pat text)).map (mkTargetMatch text) := by
  induction cs with
  | nil => rfl
  | cons c rest ih =>
    unfold findMatchesAux
    by_cases hc : catSearch c.pat text = true
    · rw [if_pos hc, ih, List.filter_cons]
      simp [hc]
    · rw [if_neg hc, ih, List.filter_cons]
      simp [hc]

theorem mkTargetMatch_keywords_ne_nil (text : Str) (c : Category) :
    (mkTargetMatch text c).keywords ≠ [] := by
  by_cases h : c.keywords.filter (fun k => decide (List.IsInfix (lowerStr k) (lowerStr text))) = []
  · simp [mkTargetMatch, h]
  · simp [mkTargetMatch, h]

/-- C9: `find_matches` returns, in declaration order, one `TargetMatch` per
category whose regex matches, carrying the category's fixed score, and its
keyword list is never empty: it is the display keywords literally contained
in the lowercased text, or the singleton category name when none are. -/
theorem c9_find_matches_spec (text : Str) :
    find_matches text =
      (categories.filter (fun c => catSearch c.pat text)).map (mkTargetMatch text) ∧
    ∀ m ∈ find_matches text, m.keywords ≠ [] ∧
      ∃ c ∈ categories, catSearch c.pat text = true ∧ m.category = c.name ∧
        m.score = c.score ∧
        m.keywords =
          (if c.keywords.filter
              (fun k => decide (List.IsInfix (lowerStr k) (lowerStr text))) = [] then
            [c.name]
          else
            c.keywords.filter (fun k => decide (List.IsInfix (lowerStr k) (lowerStr text)))) := by
  refine ⟨findMatchesAux_eq text categories, fun m hm => ?_⟩
  rw [find_matches, findMatchesAux_eq] at hm
  simp only [List.mem_map, List.mem_filter] at hm
  obtain ⟨c, ⟨hcmem, hcs⟩, hmk⟩ := hm
  subst hmk
  exact ⟨mkTargetMatch_keywords_ne_nil text c,
    c, hcmem, hcs, rfl, rfl, rfl⟩

/-- Witness for C9 at a concrete text with one matching category and one
literally-present keyword. -/
theorem c9_find_matches_spec_witness :
    TargetMatch.mk ("toyota_trucks".toList) [("tacoma".toList)] (9/10) ∈
      find_matches ("Toyota Tacoma".toList) ∧
    (TargetMatch.mk ("toyota_trucks".toList) [("tacoma".toList)] (9/10)).keywords ≠ [] ∧
    ∃ c ∈ categories, catSearch c.pat ("Toyota Tacoma".toList) = true ∧
      ("toyota_trucks".toList) = c.name ∧ (9/10 : ℚ) = c.score ∧
      [("tacoma".toList)] =
        (if c.keywords.filter
            (fun k => decide (List.IsInfix (lowerStr k) (lowerStr ("Toyota Tacoma".toList)))) = [] then
          [c.name]
        else
          c.keywords.filter
            (fun k => decide (List.IsInfix (lowerStr k) (lowerStr ("Toyota Tacoma".toList))))) := by
  have he : find_matches ("Toyota Tacoma".toList) =
      [TargetMatch.mk ("toyota_trucks".toList) [("tacoma".toList)] (9/10)] := rfl
  have hmem : TargetMatch.mk ("toyota_trucks".toList) [("tacoma".toList)] (9/10) ∈
      find_matches ("Toyota Tacoma".toList) := by
    rw [he]; exact List.mem_singleton_self _
  exact ⟨hmem, (c9_find_matches_spec ("Toyota Tacoma".toList)).2 _ hmem⟩

/-!  C2: the scoring formula. -/

theorem get_title_penalty_eq (ts : Str) :
    get_title_penalty ts =
      (if ts = ("clean".toList) then 0
       else if ts = ("rebuilt".toList) then 1/20
       else if ts = ("salvage".toList) then 1/5
       else if ts = ("parts_only".toList) then 3/5
       else 1/10) := by
  unfold get_title_penalty title_penalties
  by_cases h1 : ts = ("clean".toList)
  · simp [h1, List.lookup]
  by_cases h2 : ts = ("rebuilt".toList)
  · simp [h1, h2, List.lookup]
  by_cases h3 : ts = ("salvage".toList)
  · simp [h1, h2, h3, List.lookup]
  by_cases h4 : ts = ("parts_only".toList)
  · simp [h1, h2, h3, h4, List.lookup]
  by_cases h5 : ts = ("unknown".toList)
  · simp [h1, h2, h3, h4, h5, List.lookup]
  · have b1 : (ts == ['c', 'l', 'e', 'a', 'n']) = false := beq_eq_false_iff_ne.mpr h1
    have b2 : (ts == ['r', 'e', 'b', 'u', 'i', 'l', 't']) = false := beq_eq_false_iff_ne.mpr h2
    have b3 : (ts == ['s', 'a', 'l', 'v', 'a', 'g', 'e']) = false := beq_eq_false_iff_ne.mpr h3
    have b4 : (ts == ['p', 'a', 'r', 't', 's', '_', 'o', 'n', 'l', 'y']) = false :=
      beq_eq_false_iff_ne.mpr h4
    have b5 : (ts == ['u', 'n', 'k', 'n', 'o', 'w', 'n']) = false := beq_eq_false_iff_ne.mpr h5
    have n1 : ¬ts = ['c', 'l', 'e', 'a', 'n'] := h1
    have n2 : ¬ts = ['r', 'e', 'b', 'u', 'i', 'l', 't'] := h2
    have n3 : ¬ts = ['s', 'a', 'l', 'v', 'a', 'g', 'e'] := h3
    have n4 : ¬ts = ['p', 'a', 'r', 't', 's', '_', 'o', 'n', 'l', 'y'] := h4
    simp [List.lookup, b1, b2, b3, b4, b5, n1, n2, n3, n4]

theorem get_age_penalty_eq (cy : Int) (year : Option Int) :
    get_age_penalty cy year =
      (match year with
       | none => 1/10
       | some y =>
         if y = 0 then 1/10
         else if cy ≤ y then 0
         else pyMin (((cy - y : Int) : ℚ) * (1/100)) (3/10)) := by
  cases year with
  | none => rfl
  | some y =>
    by_cases h0 : y = 0
    · simp [get_age_penalty, h0]
    · simp only [get_age_penalty, if_neg h0]
      by_cases hle : cy - y ≤ 0
      · rw [if_pos hle, if_pos (by omega)]
      · rw [if_neg hle, if_neg (by omega)]

/-- C2 counterexample: at year 0 (a year in the past), the code takes the
`if not year` branch and applies the unknown-year penalty 0.1, not the
claimed capped age penalty `min((current_year - year) * 0.01, 0.3) = 0.3`;
the scores differ (0.81 vs the claimed 0.63). -/
theorem c2_score_lot_year_zero :
    score_lot 2025
        { raw_text := ("tacoma".toList), title_status := ("clean".toList), year := some 0 } =
      81/100 ∧
    (81/100 : ℚ) ≠
      pyMax 0 (pyMin 1 ((9/10) * (1 - 0) *
        (1 - pyMin ((((2025 : Int) - 0 : Int) : ℚ) * (1/100)) (3/10)))) := by
  constructor
  · have hbm : get_best_match (searchText
        { raw_text := ("tacoma".toList), title_status := ("clean".toList), year := some 0 }) =
        some (TargetMatch.mk ("toyota_trucks".toList) [("tacoma".toList)] (9/10)) := rfl
    have ht : get_title_penalty ("clean".toList) = 0 := rfl
    have ha : get_age_penalty 2025 (some 0) = 1/10 := rfl
    simp only [score_lot, get_keyword_score, hbm, ht, ha]
    norm_num [pyMax, pyMin]
  · norm_num [pyMax, pyMin]

/-- C2 (amended): `score_lot` returns `base * (1 - title_penalty) *
(1 - age_penalty)` clamped to `[0,1]`, with `base` the best-match score of
the concatenated make/model/raw_text (and result 0 when there is no match);
title penalty clean 0, rebuilt 0.05, salvage 0.2, parts_only 0.6, 0.1
otherwise; age penalty `min((current_year - year) * 0.01, 0.3)` for a
nonzero past year, 0 for a current or future year, and 0.1 when the year is
absent or zero. -/
theorem c2_score_lot_formula (cy : Int) (lot : RLot) :
    score_lot cy lot =
      (if (match get_best_match (searchText lot) with
           | some m => m.score
           | none => 0) = 0 then 0
       else
         pyMax 0 (pyMin 1 ((match get_best_match (searchText lot) with
             | some m => m.score
             | none => 0) *
           (1 - (if lot.title_status = ("clean".toList) then 0
                 else if lot.title_status = ("rebuilt".toList) then 1/20
                 else if lot.title_status = ("salvage".toList) then 1/5
                 else if lot.title_status = ("parts_only".toList) then 3/5
                 else 1/10)) *
           (1 - (match lot.year with
                 | none => 1/10
                 | some y =>
                   if y = 0 then 1/10
                   else if cy ≤ y then 0
                   else pyMin (((cy - y : Int) : ℚ) * (1/100)) (3/10)))))) := by
  rw [score_lot, get_keyword_score, get_title_penalty_eq, get_age_penalty_eq]

/-!  C3: `rank_lots`.  Assoc-list lemmas for the Python-dict model, the fold
invariant of `_deduplicate_by_vin`, and the ranking specification. -/

theorem lookup_none_keys {α : Type} {a : Str} {m : List (Str × α)}
    (h : List.lookup a m = none) : ∀ p ∈ m, p.1 ≠ a := by
  induction m with
  | nil => intro p hp; cases hp
  | cons q rest ih =>
    intro p hp
    rw [List.lookup] at h
    by_cases hq : (a == q.1) = true
    · rw [hq] at h; cases h
    · rw [Bool.not_eq_true] at hq
      rw [hq] at h
      rcases List.mem_cons.mp hp with rfl | hmem
      · intro hc; subst hc; simp at hq
      · exact ih h p hmem

theorem lookup_some_mem {α : Type} {a : Str} {m : List (Str × α)} {v : α}
    (h : List.lookup a m = some v) : (a, v) ∈ m := by
  induction m with
  | nil => cases h
  | cons q rest ih =>
    rw [List.lookup] at h
    by_cases hq : (a == q.1) = true
    · simp only [hq] at h
      injection h with h2
      have ha : a = q.1 := by simpa using hq
      subst ha
      rw [← h2]
      exact List.mem_cons.mpr (Or.inl rfl)
    · rw [Bool.not_eq_true] at hq
      simp only [hq] at h
      exact List.mem_cons.mpr (Or.inr (ih h))

theorem lookup_of_mem_nodup {α : Type} {a : Str} {m : List (Str × α)} {v : α}
    (hn : (m.map Prod.fst).Nodup) (hmem : (a, v) ∈ m) : List.lookup a m = some v := by
  induction m with
  | nil => cases hmem
  | cons q rest ih =>
    rw [List.map_cons, List.nodup_cons] at hn
    rcases List.mem_cons.mp hmem with rfl | hmem2
    · rw [List.lookup]
      simp
    · rw [List.lookup]
      by_cases hq : (a == q.1) = true
      · exfalso
        have ha : a = q.1 := by simpa using hq
        exact hn.1 (List.mem_map.mpr ⟨(a, v), hmem2, ha⟩)
      · rw [Bool.not_eq_true] at hq
        rw [hq]
        exact ih hn.2 hmem2

theorem setAssoc_keys {α : Type} (m : List (Str × α)) (k : Str) (x : α) :
    (setAssoc m k x).map Prod.fst = m.map Prod.fst := by
  induction m with
  | nil => rfl
  | cons q rest ih =>
    rw [setAssoc]
    by_cases hq : q.1 = k
    · rw [if_pos hq]; rfl
    · rw [if_neg hq, List.map_cons, List.map_cons, ih]

theorem mem_setAssoc {α : Type} {p : Str × α} {m : List (Str × α)} {k : Str} {x : α}
    (h : p ∈ setAssoc m k x) : p = (k, x) ∨ p ∈ m := by
  induction m with
  | nil => cases h
  | cons q rest ih =>
    rw [setAssoc] at h
    by_cases hq : q.1 = k
    · rw [if_pos hq] at h
      rcases List.mem_cons.mp h with rfl | hmem
      · exact Or.inl (by rw [hq])
      · exact Or.inr (List.mem_cons.mpr (Or.inr hmem))
    · rw [if_neg hq] at h
      rcases List.mem_cons.mp h with rfl | hmem
      · exact Or.inr (List.mem_cons.mpr (Or.inl rfl))
      · rcases ih hmem with he | hm
        · exact Or.inl he
        · exact Or.inr (List.mem_cons.mpr (Or.inr hm))

theorem mem_setAssoc_of_ne {α : Type} {p : Str × α} {m : List (Str × α)} {k : Str} {x : α}
    (hp : p ∈ m) (hne : p.1 ≠ k) : p ∈ setAssoc m k x := by
  induction m with
  | nil => cases hp
  | cons q rest ih =>
    rw [setAssoc]
    rcases List.mem_cons.mp hp with rfl | hmem
    · rw [if_neg hne]
      exact List.mem_cons.mpr (Or.inl rfl)
    · by_cases hq : q.1 = k
      · rw [if_pos hq]
        exact List.mem_cons.mpr (Or.inr hmem)
      · rw [if_neg hq]
        exact List.mem_cons.mpr (Or.inr (ih hmem))

theorem self_mem_setAssoc {α : Type} {m : List (Str × α)} {k : Str} (x : α)
    (hk : k ∈ m.map Prod.fst) : (k, x) ∈ setAssoc m k x := by
  induction m with
  | nil => cases hk
  | cons q rest ih =>
    rw [setAssoc]
    by_cases hq : q.1 = k
    · rw [if_pos hq]
      exact List.mem_cons.mpr (Or.inl (by rw [hq]))
    · rw [if_neg hq]
      rw [List.map_cons, List.mem_cons] at hk
      rcases hk with rfl | hk2
      · exact absurd rfl hq
      · exact List.mem_cons.mpr (Or.inr (ih hk2))

/-- The invariant of the `vin_to_lot` fold: every entry's value has the
entry's key as vin and comes from the processed lots; keys are distinct; and
every processed lot with a non-empty vin is dominated by the entry at its
vin. -/
def DedupInv (P : List SLot) (m : List (Str × SLot)) : Prop :=
  (∀ p ∈ m, p.2.lot.vin = p.1 ∧ p.1 ≠ [] ∧ p.2 ∈ P) ∧
  (m.map Prod.fst).Nodup ∧
  (∀ sl ∈ P, sl.lot.vin ≠ [] → ∃ p ∈ m, p.1 = sl.lot.vin ∧ sl.score ≤ p.2.score)

theorem dedupInv_step {P : List SLot} {m : List (Str × SLot)} (sl : SLot)
    (h : DedupInv P m) : DedupInv (P ++ [sl]) (dedupStep m sl) := by
  obtain ⟨h1, h2, h3⟩ := h
  unfold dedupStep
  by_cases hv : sl.lot.vin = []
  · rw [if_pos hv]
    refine ⟨fun p hp => ⟨(h1 p hp).1, (h1 p hp).2.1,
      List.mem_append_left _ (h1 p hp).2.2⟩, h2, ?_⟩
    intro q hq hqv
    rcases List.mem_append.mp hq with hq1 | hq2
    · obtain ⟨p, hp, he, hs⟩ := h3 q hq1 hqv
      exact ⟨p, hp, he, hs⟩
    · rw [List.mem_singleton.mp hq2] at hqv
      exact absurd hv hqv
  · rw [if_neg hv]
    cases hlk : List.lookup sl.lot.vin m with
    | none =>
      refine ⟨?_, ?_, ?_⟩
      · intro p hp
        rcases List.mem_append.mp hp with hp1 | hp2
        · exact ⟨(h1 p hp1).1, (h1 p hp1).2.1, List.mem_append_left _ (h1 p hp1).2.2⟩
        · rw [List.mem_singleton.mp hp2]
          exact ⟨rfl, hv, List.mem_append_right _ (List.mem_singleton_self sl)⟩
      · rw [List.map_append, List.nodup_append]
        refine ⟨h2, List.nodup_singleton _, ?_⟩
        intro a ha hb
        rw [List.map_singleton, List.mem_singleton] at hb
        subst hb
        obtain ⟨p, hp, hpe⟩ := List.mem_map.mp ha
        exact lookup_none_keys hlk p hp (by rw [hpe])
      · intro q hq hqv
        rcases List.mem_append.mp hq with hq1 | hq2
        · obtain ⟨p, hp, he, hs⟩ := h3 q hq1 hqv
          exact ⟨p, List.mem_append_left _ hp, he, hs⟩
        · rw [List.mem_singleton.mp hq2]
          exact ⟨(sl.lot.vin, sl), List.mem_append_right _ (List.mem_singleton_self _),
            rfl, le_refl _⟩
    | some ex =>
      show DedupInv (P ++ [sl]) (if ex.score < sl.score then setAssoc m sl.lot.vin sl else m)
      by_cases hex : ex.score < sl.score
      · rw [if_pos hex]
        refine ⟨?_, ?_, ?_⟩
        · intro p hp
          rcases mem_setAssoc hp with rfl | hpm
          · exact ⟨rfl, hv, List.mem_append_right _ (List.mem_singleton_self sl)⟩
          · exact ⟨(h1 p hpm).1, (h1 p hpm).2.1, List.mem_append_left _ (h1 p hpm).2.2⟩
        · rw [setAssoc_keys]
          exact h2
        · intro q hq hqv
          have hkmem : sl.lot.vin ∈ m.map Prod.fst :=
            List.mem_map.mpr ⟨_, lookup_some_mem hlk, rfl⟩
          rcases List.mem_append.mp hq with hq1 | hq2
          · obtain ⟨p, hp, he, hs⟩ := h3 q hq1 hqv
            by_cases hpk : p.1 = sl.lot.vin
            · have hpe : (sl.lot.vin, p.2) = p := by rw [← hpk]
              have hpv : List.lookup sl.lot.vin m = some p.2 :=
                lookup_of_mem_nodup h2 (by rw [hpe]; exact hp)
              rw [hlk] at hpv
              injection hpv with hpv2
              refine ⟨(sl.lot.vin, sl), self_mem_setAssoc sl hkmem,
                (by rw [← hpk]; exact he), ?_⟩
              calc q.score ≤ p.2.score := hs
                _ = ex.score := by rw [hpv2]
                _ ≤ sl.score := le_of_lt hex
            · exact ⟨p, mem_setAssoc_of_ne hp hpk, he, hs⟩
          · rw [List.mem_singleton.mp hq2]
            exact ⟨(sl.lot.vin, sl), self_mem_setAssoc sl hkmem, rfl, le_refl _⟩
      · rw [if_neg hex]
        refine ⟨fun p hp => ⟨(h1 p hp).1, (h1 p hp).2.1,
          List.mem_append_left _ (h1 p hp).2.2⟩, h2, ?_⟩
        intro q hq hqv
        rcases List.mem_append.mp hq with hq1 | hq2
        · obtain ⟨p, hp, he, hs⟩ := h3 q hq1 hqv
          exact ⟨p, hp, he, hs⟩
        · rw [List.mem_singleton.mp hq2]
          exact ⟨(sl.lot.vin, ex), lookup_some_mem hlk, rfl, le_of_not_lt hex⟩

theorem dedupInv_foldl (P : List SLot) : ∀ (P0 : List SLot) (m : List (Str × SLot)),
    DedupInv P0 m → DedupInv (P0 ++ P) (P.foldl dedupStep m) := by
  induction P with
  | nil => intro P0 m h; simpa using h
  | cons sl rest ih =>
    intro P0 m h
    have h2 := dedupInv_step sl h
    have h3 := ih (P0 ++ [sl]) (dedupStep m sl) h2
    rw [List.foldl_cons]
    rw [List.append_assoc] at h3
    simpa using h3

theorem dedupInv_init (P : List SLot) : DedupInv P (P.foldl dedupStep []) := by
  have h0 : DedupInv ([] : List SLot) [] :=
    ⟨fun p hp => absurd hp (List.not_mem_nil p), List.nodup_nil,
      fun q hq => absurd hq (List.not_mem_nil q)⟩
  simpa using dedupInv_foldl P [] [] h0

instance : IsTotal SLot (fun a b => b.score ≤ a.score) :=
  ⟨fun a b => le_total b.score a.score⟩

instance : IsTrans SLot (fun a b => b.score ≤ a.score) :=
  ⟨fun _ _ _ hab hbc => le_trans hbc hab⟩

theorem mem_scoredLots {cy : Int} {lots : List RLot} {sl : SLot} :
    sl ∈ scoredLots cy lots ↔
      ∃ l ∈ lots, 0 < score_lot cy l ∧ sl = ⟨l, score_lot cy l⟩ := by
  simp only [scoredLots, List.mem_filterMap]
  constructor
  · rintro ⟨l, hl, hopt⟩
    by_cases hs : 0 < score_lot cy l
    · rw [if_pos hs] at hopt
      injection hopt with h2
      exact ⟨l, hl, hs, h2.symm⟩
    · rw [if_neg hs] at hopt
      cases hopt
  · rintro ⟨l, hl, hs, rfl⟩
    exact ⟨l, hl, by rw [if_pos hs]⟩

theorem dedup_subset {P : List SLot} {sl : SLot}
    (h : sl ∈ deduplicate_by_vin P) : sl ∈ P := by
  unfold deduplicate_by_vin at h
  rcases List.mem_append.mp h with h1 | h2
  · obtain ⟨p, hp, hpe⟩ := List.mem_map.mp h1
    have := (dedupInv_init P).1 p hp
    rw [← hpe]
    exact this.2.2
  · exact (List.mem_filter.mp h2).1

theorem rank_lots_perm (cy : Int) (lots : List RLot) :
    List.Perm (rank_lots cy lots) (deduplicate_by_vin (scoredLots cy lots)) :=
  List.perm_insertionSort _ _

/-- Members of the deduplicated map part: the entry for `sl`'s vin. -/
theorem dedup_map_part {P : List SLot} {sl : SLot}
    (h : sl ∈ (P.foldl dedupStep []).map Prod.snd) :
    ∃ p ∈ P.foldl dedupStep [], p.2 = sl ∧ p.1 = sl.lot.vin ∧ sl.lot.vin ≠ [] := by
  obtain ⟨p, hp, hpe⟩ := List.mem_map.mp h
  have hi := (dedupInv_init P).1 p hp
  exact ⟨p, hp, hpe, by rw [← hpe]; exact hi.1.symm, by rw [← hpe, hi.1]; exact hi.2.1⟩

/-- At most one entry of the map part carries a given vin. -/
theorem assoc_filter_len {m : List (Str × SLot)}
    (h1 : ∀ p ∈ m, p.2.lot.vin = p.1) (h2 : (m.map Prod.fst).Nodup) (v : Str) :
    ((m.map Prod.snd).filter (fun sl => decide (sl.lot.vin = v))).length ≤ 1 := by
  induction m with
  | nil => simp
  | cons q rest ih =>
    rw [List.map_cons, List.nodup_cons] at h2
    rw [List.map_cons, List.filter_cons]
    by_cases hq : q.2.lot.vin = v
    · rw [if_pos (by simpa using hq)]
      have hrest : (rest.map Prod.snd).filter (fun sl => decide (sl.lot.vin = v)) = [] := by
        rw [List.filter_eq_nil_iff]
        intro a ha
        obtain ⟨p, hp, hpe⟩ := List.mem_map.mp ha
        have hk := h1 p (List.mem_cons.mpr (Or.inr hp))
        simp only [decide_eq_true_eq]
        rw [← hpe, hk]
        intro hc
        have hq1 : q.1 = v := ((h1 q (List.mem_cons.mpr (Or.inl rfl))).symm).trans hq
        exact h2.1 (List.mem_map.mpr ⟨p, hp, hc.trans hq1.symm⟩)
      rw [hrest]
      simp
    · rw [if_neg (by simpa using hq)]
      exact ih (fun p hp => h1 p (List.mem_cons.mpr (Or.inr hp))) h2.2

/-- C3: `rank_lots` returns exactly the positively-scored lots, with at most
one entry per non-empty vin — the kept entry dominating every same-vin input
lot — all no-vin scored lots kept with multiplicity, and the result sorted
in non-increasing score order. -/
theorem c3_rank_lots_spec (cy : Int) (lots : List RLot) :
    List.Sorted (fun a b : SLot => b.score ≤ a.score) (rank_lots cy lots) ∧
    (∀ sl ∈ rank_lots cy lots,
        sl.lot ∈ lots ∧ sl.score = score_lot cy sl.lot ∧ 0 < sl.score) ∧
    (∀ v : Str, v ≠ [] →
        ((rank_lots cy lots).filter (fun sl => decide (sl.lot.vin = v))).length ≤ 1) ∧
    (∀ sl ∈ rank_lots cy lots, sl.lot.vin ≠ [] →
        ∀ l ∈ lots, l.vin = sl.lot.vin → score_lot cy l ≤ sl.score) ∧
    (∀ l ∈ lots, 0 < score_lot cy l →
        ∃ sl ∈ rank_lots cy lots, sl.lot.vin = l.vin ∧ score_lot cy l ≤ sl.score) ∧
    List.Perm ((rank_lots cy lots).filter (fun sl => decide (sl.lot.vin = [])))
      ((scoredLots cy lots).filter (fun sl => decide (sl.lot.vin = []))) := by
  have hperm := rank_lots_perm cy lots
  have hinv := dedupInv_init (scoredLots cy lots)
  obtain ⟨hi1, hi2, hi3⟩ := hinv
  refine ⟨List.sorted_insertionSort _ _, ?_, ?_, ?_, ?_, ?_⟩
  · intro sl hsl
    have hsc : sl ∈ scoredLots cy lots := dedup_subset (hperm.mem_iff.mp hsl)
    obtain ⟨l, hl, hs, rfl⟩ := mem_scoredLots.mp hsc
    exact ⟨hl, rfl, hs⟩
  · intro v hv
    have hpf := hperm.filter (fun sl => decide (sl.lot.vin = v))
    rw [hpf.length_eq]
    unfold deduplicate_by_vin
    rw [List.filter_append, List.length_append]
    have hlen1 := assoc_filter_len (fun p hp => (hi1 p hp).1) hi2 v
    have hlen2 : (((scoredLots cy lots).filter (fun sl => sl.lot.vin = [])).filter
        (fun sl => decide (sl.lot.vin = v))).length = 0 := by
      rw [List.length_eq_zero, List.filter_eq_nil_iff]
      intro a ha
      have := (List.mem_filter.mp ha).2
      simp only [decide_eq_true_eq] at this ⊢
      rw [this]
      exact fun hc => hv hc.symm
    omega
  · intro sl hsl hvne l hl hlv
    have hsl2 : sl ∈ deduplicate_by_vin (scoredLots cy lots) := hperm.mem_iff.mp hsl
    have hpos : 0 < sl.score := by
      obtain ⟨l2, _, hs2, he2⟩ := mem_scoredLots.mp (dedup_subset hsl2)
      rw [he2]
      exact hs2
    by_cases hls : 0 < score_lot cy l
    · -- the scored copy of l is dominated by the entry at its vin, which is sl
      have hmem : (⟨l, score_lot cy l⟩ : SLot) ∈ scoredLots cy lots :=
        mem_scoredLots.mpr ⟨l, hl, hls, rfl⟩
      obtain ⟨q, hq, hqk, hqs⟩ := hi3 _ hmem (by simpa [hlv] using hvne)
      -- locate sl in the map part
      unfold deduplicate_by_vin at hsl2
      rcases List.mem_append.mp hsl2 with hmap | hfil
      · obtain ⟨p, hp, hpe, hpk, -⟩ := dedup_map_part hmap
        have hqq : List.lookup q.1 (List.foldl dedupStep [] (scoredLots cy lots)) = some q.2 :=
          lookup_of_mem_nodup hi2 (by rw [Prod.mk.eta]; exact hq)
        have hpp : List.lookup p.1 (List.foldl dedupStep [] (scoredLots cy lots)) = some p.2 :=
          lookup_of_mem_nodup hi2 (by rw [Prod.mk.eta]; exact hp)
        have hkeq : q.1 = p.1 := by
          rw [hqk, hpk]
          exact hlv
        rw [hkeq, hpp] at hqq
        injection hqq with hqq2
        calc score_lot cy l ≤ q.2.score := by simpa using hqs
          _ = p.2.score := by rw [hqq2]
          _ = sl.score := by rw [hpe]
      · exact absurd (List.mem_filter.mp hfil).2 (by simpa using hvne)
    · exact le_trans (le_of_not_lt hls) (le_of_lt hpos)
  · intro l hl hls
    have hmem : (⟨l, score_lot cy l⟩ : SLot) ∈ scoredLots cy lots :=
      mem_scoredLots.mpr ⟨l, hl, hls, rfl⟩
    by_cases hv : l.vin = []
    · refine ⟨⟨l, score_lot cy l⟩, ?_, rfl, le_refl _⟩
      apply hperm.mem_iff.mpr
      unfold deduplicate_by_vin
      exact List.mem_append_right _ (List.mem_filter.mpr ⟨hmem, by simpa using hv⟩)
    · obtain ⟨q, hq, hqk, hqs⟩ := hi3 _ hmem (by simpa using hv)
      refine ⟨q.2, ?_, ?_, by simpa using hqs⟩
      · apply hperm.mem_iff.mpr
        unfold deduplicate_by_vin
        exact List.mem_append_left _ (List.mem_map.mpr ⟨q, hq, rfl⟩)
      · rw [(hi1 q hq).1, hqk]
  · have hpf := hperm.filter (fun sl => decide (sl.lot.vin = []))
    refine hpf.trans ?_
    unfold deduplicate_by_vin
    rw [List.filter_append]
    have hmapnil : ((List.foldl dedupStep [] (scoredLots cy lots)).map Prod.snd).filter
        (fun sl => decide (sl.lot.vin = [])) = [] := by
      rw [List.filter_eq_nil_iff]
      intro a ha
      obtain ⟨p, hp, hpe⟩ := List.mem_map.mp ha
      have hi := hi1 p hp
      simp only [decide_eq_true_eq]
      rw [← hpe, hi.1]
      exact hi.2.1
    have hfil2 : ((scoredLots cy lots).filter (fun sl => sl.lot.vin = [])).filter
        (fun sl => decide (sl.lot.vin = [])) =
        (scoredLots cy lots).filter (fun sl => decide (sl.lot.vin = [])) := by
      rw [List.filter_filter]
      apply List.filter_congr
      intro a _
      simp
    rw [hmapnil, hfil2, List.nil_append]

/-- Three demo lots: two sharing a vin, one without. -/
def demoLots : List RLot :=
  [{ vin := ("1ABCD23EFGH456789".toList), raw_text := ("tacoma".toList),
     title_status := ("clean".toList) },
   { vin := ("1ABCD23EFGH456789".toList), raw_text := ("tacoma".toList),
     title_status := ("salvage".toList) },
   { raw_text := ("4runner".toList), title_status := ("clean".toList) }]

/-- Witness for C3 at a concrete list: sortedness plus the dedup bound for
the shared vin. -/
theorem c3_rank_lots_spec_witness :
    List.Sorted (fun a b : SLot => b.score ≤ a.score) (rank_lots 2025 demoLots) ∧
    ((rank_lots 2025 demoLots).filter
      (fun sl => decide (sl.lot.vin = ("1ABCD23EFGH456789".toList)))).length ≤ 1 :=
  ⟨(c3_rank_lots_spec 2025 demoLots).1,
    (c3_rank_lots_spec 2025 demoLots).2.2.1 _ (by decide)⟩

/-!  C10: the frame property of `rank_lots` over the heap model. -/

theorem rank_heap_foldl_extends (cy : Int) (addrs : List Nat) :
    ∀ (h : Heap) (acc : List Nat),
      ∃ ext, (addrs.foldl (rankHeapStep cy) (h, acc)).1 = h ++ ext := by
  induction addrs with
  | nil => intro h acc; exact ⟨[], (List.append_nil h).symm⟩
  | cons a rest ih =>
    intro h acc
    rw [List.foldl_cons]
    unfold rankHeapStep
    cases hga : h.get? a with
    | none => exact ih h acc
    | some cell =>
      show ∃ ext, (rest.foldl (rankHeapStep cy)
          (if 0 < score_lot cy cell.lot then
            (h ++ [{ lot := cell.lot, score := some (score_lot cy cell.lot) }],
              acc ++ [h.length])
          else (h, acc))).1 = h ++ ext
      by_cases hs : 0 < score_lot cy cell.lot
      · rw [if_pos hs]
        obtain ⟨ext2, hext2⟩ :=
          ih (h ++ [{ lot := cell.lot, score := some (score_lot cy cell.lot) }])
            (acc ++ [h.length])
        exact ⟨_, by rw [hext2, List.append_assoc]⟩
      · rw [if_neg hs]
        exact ih h acc

/-- C10: `rank_lots` does not modify its input lots.  In the heap model —
where `lot.copy()` allocates a fresh cell and `lot_copy['score'] = score`
writes only there — every input address still holds its original dictionary
after the call; in particular no `'score'` key is added to any input lot. -/
theorem c10_rank_lots_heap_frame (cy : Int) (heap : Heap) (addrs : List Nat)
    (a : Nat) (ha : a < heap.length) :
    ((rank_lots_heap cy heap addrs).1)[a]? = heap[a]? := by
  obtain ⟨ext, hext⟩ := rank_heap_foldl_extends cy addrs heap []
  show (addrs.foldl (rankHeapStep cy) (heap, [])).1[a]? = heap[a]?
  rw [hext]
  exact List.getElem?_append_left ha

/-- A one-cell heap whose lot has no score key. -/
def demoHeap : Heap :=
  [{ lot := { raw_text := ("tacoma".toList), title_status := ("clean".toList) }, score := none }]

/-- Witness for C10: the input cell is unchanged (and so still has no score
key) after ranking. -/
theorem c10_rank_lots_heap_frame_witness :
    ((rank_lots_heap 2025 demoHeap [0]).1)[0]? = demoHeap[0]? :=
  c10_rank_lots_heap_frame 2025 demoHeap [0] 0 (by decide)

/-!  Helper lemmas. -/

theorem bind_ok_inv {ε α β : Type} {x : Except ε α} {f : α → Except ε β} {b : β}
    (h : (x >>= f) = .ok b) : ∃ a, x = .ok a ∧ f a = .ok b := by
  cases x with
  | ok a => exact ⟨a, rfl, h⟩
  | error e => exact absurd h (by simp [Bind.bind, Except.bind])

theorem bind_ok_eq {ε α β : Type} {x : Except ε α} {f : α → Except ε β} {a : α}
    (h : x = .ok a) : (x >>= f) = f a := by
  subst h; rfl

/-- A fully explicit characterization of a successful `normalize_lot` run:
the base record built from the per-field normalizers, followed by the
raw-text extraction when `raw_text` is a non-empty string. -/
theorem normalize_lot_ok_cases {pd : Str → Option Str} {raw : RawLot} {n : NormalizedLot}
    (h : normalize_lot pd raw = .ok n) :
    ∃ b : NormalizedLot,
      getS raw.source = .ok b.source ∧
      b.source_lot_id = stripWS (pyStr (getD raw.source_lot_id (Value.vStr []))) ∧
      getS raw.lot_url = .ok b.lot_url ∧
      b.sale_date_utc = normalize_datetime pd (getD raw.sale_date_utc Value.vNone) ∧
      getS raw.sale_local_time = .ok b.sale_local_time ∧
      b.tz_name = getD raw.tz_name (Value.vStr ("America/New_York".toList)) ∧
      getS raw.location_name = .ok b.location_name ∧
      getS raw.location_city = .ok b.location_city ∧
      getS raw.location_state = .ok b.location_state ∧
      (∃ vin0, getS raw.vin = .ok vin0 ∧ b.vin = normalize_vin vin0) ∧
      b.year = normalize_year (getD raw.year Value.vNone) ∧
      (∃ make0, getS raw.make = .ok make0 ∧ b.make = normalize_make make0) ∧
      (∃ model0, getS raw.model = .ok model0 ∧ b.model = normalize_model model0) ∧
      getS raw.trim = .ok b.trim ∧
      getS raw.drivetrain = .ok b.drivetrain ∧
      b.odometer = normalize_odometer (getD raw.odometer Value.vNone) ∧
      b.title_status = normalize_title_status (getD raw.title_status (Value.vStr []))
        (getD raw.raw_text (Value.vStr [])) ∧
      getS raw.condition_notes = .ok b.condition_notes ∧
      getS raw.raw_text = .ok b.raw_text ∧
      ((∃ s, raw.raw_text = Value.vStr s ∧ s ≠ [] ∧ extract_from_raw_text b s = .ok n) ∨
        (n = b ∧ (raw.raw_text = Value.vAbsent ∨ raw.raw_text = Value.vStr []))) := by
  unfold normalize_lot at h
  obtain ⟨src, hsrc, h⟩ := bind_ok_inv h
  obtain ⟨lurl, hurl, h⟩ := bind_ok_inv h
  obtain ⟨slt, hslt, h⟩ := bind_ok_inv h
  obtain ⟨lname, hlname, h⟩ := bind_ok_inv h
  obtain ⟨lcity, hlcity, h⟩ := bind_ok_inv h
  obtain ⟨lstate, hlstate, h⟩ := bind_ok_inv h
  obtain ⟨vin0, hvin0, h⟩ := bind_ok_inv h
  obtain ⟨make0, hmake0, h⟩ := bind_ok_inv h
  obtain ⟨model0, hmodel0, h⟩ := bind_ok_inv h
  obtain ⟨trim0, htrim0, h⟩ := bind_ok_inv h
  obtain ⟨dt0, hdt0, h⟩ := bind_ok_inv h
  obtain ⟨cn0, hcn0, h⟩ := bind_ok_inv h
  obtain ⟨rt0, hrt0, h⟩ := bind_ok_inv h
  refine ⟨⟨src, stripWS (pyStr (getD raw.source_lot_id (Value.vStr []))), lurl,
      normalize_datetime pd (getD raw.sale_date_utc Value.vNone), slt,
      getD raw.tz_name (Value.vStr ("America/New_York".toList)), lname, lcity, lstate,
      normalize_vin vin0, normalize_year (getD raw.year Value.vNone),
      normalize_make make0, normalize_model model0, trim0, dt0,
      normalize_odometer (getD raw.odometer Value.vNone),
      normalize_title_status (getD raw.title_status (Value.vStr []))
        (getD raw.raw_text (Value.vStr [])), cn0, rt0⟩,
    hsrc, rfl, hurl, rfl, hslt, rfl, hlname, hlcity, hlstate,
    ⟨vin0, hvin0, rfl⟩, rfl, ⟨make0, hmake0, rfl⟩, ⟨model0, hmodel0, rfl⟩,
    htrim0, hdt0, rfl, rfl, hcn0, hrt0, ?_⟩
  cases hraw : raw.raw_text with
  | vAbsent =>
    rw [hraw] at h
    rw [if_neg (show ¬(pyTruthy Value.vAbsent = true) by decide)] at h
    injection h with h2
    exact Or.inr ⟨h2.symm, Or.inl rfl⟩
  | vNone =>
    rw [hraw] at hrt0
    exact absurd hrt0 (by simp [getS, getD, pyStrip])
  | vInt k =>
    rw [hraw] at hrt0
    exact absurd hrt0 (by simp [getS, getD, pyStrip])
  | vStr s =>
    rw [hraw] at h
    by_cases hs : s = []
    · subst hs
      rw [if_neg (show ¬(pyTruthy (Value.vStr []) = true) by decide)] at h
      injection h with h2
      exact Or.inr ⟨h2.symm, Or.inr rfl⟩
    · rw [if_pos (show pyTruthy (Value.vStr s) = true from decide_eq_true hs)] at h
      exact Or.inl ⟨s, rfl, hs, h⟩

/-!  C4: VIN normalization. -/

/-- C4: for every string, if uppercasing and removing every character outside
`A-H J-N P R-Z 0-9` leaves exactly 17 characters, `_normalize_vin` returns
that filtered uppercase string; for any other filtered length it returns the
empty string. -/
theorem c4_normalize_vin_filter (s : Str) :
    (((upperStr s).filter isVinUpper).length = 17 →
      normalize_vin s = (upperStr s).filter isVinUpper) ∧
    (((upperStr s).filter isVinUpper).length ≠ 17 → normalize_vin s = []) := by
  by_cases hs : s = []
  · subst hs
    exact ⟨fun h => absurd h (by decide), fun _ => rfl⟩
  · constructor
    · intro h
      simp only [normalize_vin, if_neg hs, if_pos h]
    · intro h
      simp only [normalize_vin, if_neg hs, if_neg h]

/-- Witness for C4 at a concrete lowercase dashed input. -/
theorem c4_normalize_vin_filter_witness :
    ((upperStr ("1abcd-23efgh-456789".toList)).filter isVinUpper).length = 17 ∧
    normalize_vin ("1abcd-23efgh-456789".toList) =
      (upperStr ("1abcd-23efgh-456789".toList)).filter isVinUpper :=
  ⟨by decide, (c4_normalize_vin_filter _).1 (by decide)⟩

/-!  C8: title-status priority. -/

/-- C8: title-status normalization searches the lowercased concatenation
`f"{title_status} {raw_text}"` against clean, rebuilt, salvage, parts_only in
that priority order, returning the first matching category and "unknown" when
none matches (so a text matching both clean and salvage yields "clean"). -/
theorem c8_title_status_priority (ts rt : Str) :
    titleSearchStr (Value.vStr ts) (Value.vStr rt) = lowerStr (ts ++ [' '] ++ rt) ∧
    (catSearch cleanPat (titleSearchStr (Value.vStr ts) (Value.vStr rt)) = true →
      normalize_title_status (Value.vStr ts) (Value.vStr rt) = ("clean".toList)) ∧
    (catSearch cleanPat (titleSearchStr (Value.vStr ts) (Value.vStr rt)) = false →
      catSearch rebuiltPat (titleSearchStr (Value.vStr ts) (Value.vStr rt)) = true →
      normalize_title_status (Value.vStr ts) (Value.vStr rt) = ("rebuilt".toList)) ∧
    (catSearch cleanPat (titleSearchStr (Value.vStr ts) (Value.vStr rt)) = false →
      catSearch rebuiltPat (titleSearchStr (Value.vStr ts) (Value.vStr rt)) = false →
      catSearch salvagePat (titleSearchStr (Value.vStr ts) (Value.vStr rt)) = true →
      normalize_title_status (Value.vStr ts) (Value.vStr rt) = ("salvage".toList)) ∧
    (catSearch cleanPat (titleSearchStr (Value.vStr ts) (Value.vStr rt)) = false →
      catSearch rebuiltPat (titleSearchStr (Value.vStr ts) (Value.vStr rt)) = false →
      catSearch salvagePat (titleSearchStr (Value.vStr ts) (Value.vStr rt)) = false →
      catSearch partsOnlyPat (titleSearchStr (Value.vStr ts) (Value.vStr rt)) = true →
      normalize_title_status (Value.vStr ts) (Value.vStr rt) = ("parts_only".toList)) ∧
    (catSearch cleanPat (titleSearchStr (Value.vStr ts) (Value.vStr rt)) = false →
      catSearch rebuiltPat (titleSearchStr (Value.vStr ts) (Value.vStr rt)) = false →
      catSearch salvagePat (titleSearchStr (Value.vStr ts) (Value.vStr rt)) = false →
      catSearch partsOnlyPat (titleSearchStr (Value.vStr ts) (Value.vStr rt)) = false →
      normalize_title_status (Value.vStr ts) (Value.vStr rt) = ("unknown".toList)) := by
  refine ⟨rfl, fun h1 => ?_, fun h1 h2 => ?_, fun h1 h2 h3 => ?_, fun h1 h2 h3 h4 => ?_,
    fun h1 h2 h3 h4 => ?_⟩
  · simp only [normalize_title_status, h1, if_true]
  · simp only [normalize_title_status, h1, h2, if_true, Bool.false_eq_true, if_false]
  · simp only [normalize_title_status, h1, h2, h3, if_true, Bool.false_eq_true, if_false]
  · simp only [normalize_title_status, h1, h2, h3, h4, if_true, Bool.false_eq_true, if_false]
  · simp only [normalize_title_status, h1, h2, h3, h4, Bool.false_eq_true, if_false]

/-- Witness for C8: a text matching both the clean and the salvage patterns
is classified "clean". -/
theorem c8_title_status_priority_witness :
    catSearch salvagePat (titleSearchStr (Value.vStr ("Clean".toList))
      (Value.vStr ("salvage history".toList))) = true ∧
    normalize_title_status (Value.vStr ("Clean".toList)) (Value.vStr ("salvage history".toList)) =
      ("clean".toList) :=
  ⟨by decide, (c8_title_status_priority _ _).2.1 (by decide)⟩

/-!  C6: the year-extraction capture-group bug. -/

/-- C6 (code bug): `year_pattern.findall` returns the capture group of
`\b(19|20)\d{2}\b` — the century digits — so on raw text "Sold in 2015" with
no year field the code stores year 20, not the four-digit 2015 the spec (and
the repo's own test `test_extract_from_raw_text`) expects. -/
theorem c6_year_fallback_eval :
    yearFindall ("Sold in 2015".toList) = [("20".toList)] ∧
    (normalize_lot (fun _ => none)
        { raw_text := Value.vStr ("Sold in 2015".toList) }).map NormalizedLot.year =
      .ok (some 20) :=
  ⟨by decide, by decide⟩

/-!  C1: exception behaviour of `normalize_lot`. -/

/-- C1 counterexample: `normalize_lot` does raise.  A non-string `vin` value
hits `.strip()` and raises `AttributeError`; and even with every field a
string, a raw text in which the make/model pattern matches with a
pure-whitespace model group ("toyota" followed by two spaces) raises
`IndexError` in `model.split()[0]`. -/
theorem c1_normalize_lot_raises :
    normalize_lot (fun _ => none) { vin := Value.vInt 5 } = .error .attributeError ∧
    normalize_lot (fun _ => none) { raw_text := Value.vStr ("toyota  ".toList) } =
      .error .indexError :=
  ⟨by decide, by decide⟩

/-- Is this raw value a string or an absent key (so that `.get(k, '').strip()`
cannot raise)? -/
def isStrOrAbsent (v : Value) : Bool :=
  match v with
  | Value.vAbsent => true
  | Value.vStr _ => true
  | _ => false

/-- The fields of the raw dictionary on which `normalize_lot` calls
`.strip()` directly. -/
def strFieldsOK (raw : RawLot) : Bool :=
  isStrOrAbsent raw.source && isStrOrAbsent raw.lot_url &&
  isStrOrAbsent raw.sale_local_time && isStrOrAbsent raw.location_name &&
  isStrOrAbsent raw.location_city && isStrOrAbsent raw.location_state &&
  isStrOrAbsent raw.vin && isStrOrAbsent raw.make && isStrOrAbsent raw.model &&
  isStrOrAbsent raw.trim && isStrOrAbsent raw.drivetrain &&
  isStrOrAbsent raw.condition_notes && isStrOrAbsent raw.raw_text

/-- The make/model fallback extraction on the raw text does not hit the
`IndexError` of `model.split()[0]` (a pure-whitespace model group). -/
def mmSafe (raw : RawLot) : Bool :=
  match raw.raw_text with
  | Value.vStr s => (extract_make_model s).isOk
  | _ => true

theorem getS_ok {v : Value} (h : isStrOrAbsent v = true) : ∃ s, getS v = .ok s := by
  cases v with
  | vAbsent => exact ⟨[], rfl⟩
  | vStr s => exact ⟨stripWS s, rfl⟩
  | vNone => exact absurd h (by decide)
  | vInt k => exact absurd h (by simp [isStrOrAbsent])

theorem extractMM_ok (lot : NormalizedLot) (rt : Str)
    (h : ∃ r, extract_make_model rt = .ok r) :
    ∃ n, extractMM lot rt = .ok n := by
  obtain ⟨r, hr⟩ := h
  unfold extractMM
  split
  · rw [bind_ok_eq hr]
    exact ⟨_, rfl⟩
  · exact ⟨_, rfl⟩

theorem extract_from_raw_text_ok (lot : NormalizedLot) (rt : Str)
    (h : ∃ r, extract_make_model rt = .ok r) :
    ∃ n, extract_from_raw_text lot rt = .ok n :=
  extractMM_ok _ _ h

/-- C1 (amended): `normalize_lot` returns a `NormalizedLot` without raising
provided the plain string fields hold strings or are absent and the raw-text
make/model extraction does not produce a pure-whitespace model token;
`year`, `odometer`, `sale_date_utc`, `title_status`, `tz_name` and
`source_lot_id` may hold any value and degrade to `None`/neutral values on
failure. -/
theorem c1_normalize_lot_total (pd : Str → Option Str) (raw : RawLot)
    (h1 : strFieldsOK raw = true) (h2 : mmSafe raw = true) :
    ∃ n, normalize_lot pd raw = .ok n := by
  simp only [strFieldsOK, Bool.and_eq_true] at h1
  obtain ⟨⟨⟨⟨⟨⟨⟨⟨⟨⟨⟨⟨hsrc, hurl⟩, hslt⟩, hlname⟩, hlcity⟩, hlstate⟩, hvin⟩,
    hmake⟩, hmodel⟩, htrim⟩, hdt⟩, hcn⟩, hrt⟩ := h1
  obtain ⟨s1, e1⟩ := getS_ok hsrc
  obtain ⟨s2, e2⟩ := getS_ok hurl
  obtain ⟨s3, e3⟩ := getS_ok hslt
  obtain ⟨s4, e4⟩ := getS_ok hlname
  obtain ⟨s5, e5⟩ := getS_ok hlcity
  obtain ⟨s6, e6⟩ := getS_ok hlstate
  obtain ⟨s7, e7⟩ := getS_ok hvin
  obtain ⟨s8, e8⟩ := getS_ok hmake
  obtain ⟨s9, e9⟩ := getS_ok hmodel
  obtain ⟨s10, e10⟩ := getS_ok htrim
  obtain ⟨s11, e11⟩ := getS_ok hdt
  obtain ⟨s12, e12⟩ := getS_ok hcn
  obtain ⟨s13, e13⟩ := getS_ok hrt
  unfold normalize_lot
  rw [bind_ok_eq e1, bind_ok_eq e2, bind_ok_eq e3, bind_ok_eq e4, bind_ok_eq e5,
    bind_ok_eq e6, bind_ok_eq e7, bind_ok_eq e8, bind_ok_eq e9, bind_ok_eq e10,
    bind_ok_eq e11, bind_ok_eq e12, bind_ok_eq e13]
  cases hraw : raw.raw_text with
  | vAbsent => exact ⟨_, by rw [if_neg (by decide)]⟩
  | vNone => exact absurd (hraw ▸ hrt) (by decide)
  | vInt k => exact absurd (hraw ▸ hrt) (by simp [isStrOrAbsent])
  | vStr s =>
    by_cases hs : s = []
    · subst hs
      exact ⟨_, by rw [if_neg (by decide)]⟩
    · rw [if_pos (show pyTruthy (Value.vStr s) = true from decide_eq_true hs)]
      apply extract_from_raw_text_ok
      have h2s : (extract_make_model s).isOk = true := by
        have := h2
        simp only [mmSafe, hraw] at this
        exact this
      cases hmm : extract_make_model s with
      | ok r => exact ⟨r, rfl⟩
      | error e =>
        rw [hmm] at h2s
        exact absurd h2s (by simp [Except.isOk, Except.toBool])

/-!  C5: the vin field of a normalized lot. -/

/-- A character of the uppercase VIN alphabet is fixed by `toUpper`. -/
theorem toUpper_fixed_of_vinUpper {c : Char} (h : isVinUpper c = true) : c.toUpper = c := by
  simp only [isVinUpper, Bool.or_eq_true, Bool.and_eq_true, decide_eq_true_eq] at h
  have hb : ¬(c.toNat ≥ 97 ∧ c.toNat ≤ 122) := by
    rcases h with ((((⟨h1, h2⟩ | ⟨h1, h2⟩) | h1) | ⟨h1, h2⟩) | ⟨h1, h2⟩)
    · simp only [Char.le_def, UInt32.le_def, BitVec.le_def] at h1 h2
      have e1 : ('A').val.toBitVec.toNat = 65 := rfl
      have e2 : ('H').val.toBitVec.toNat = 72 := rfl
      simp only [Char.toNat, UInt32.toNat] at *
      omega
    · simp only [Char.le_def, UInt32.le_def, BitVec.le_def] at h1 h2
      have e1 : ('J').val.toBitVec.toNat = 74 := rfl
      have e2 : ('N').val.toBitVec.toNat = 78 := rfl
      simp only [Char.toNat, UInt32.toNat] at *
      omega
    · subst h1; decide
    · simp only [Char.le_def, UInt32.le_def, BitVec.le_def] at h1 h2
      have e1 : ('R').val.toBitVec.toNat = 82 := rfl
      have e2 : ('Z').val.toBitVec.toNat = 90 := rfl
      simp only [Char.toNat, UInt32.toNat] at *
      omega
    · simp only [Char.le_def, UInt32.le_def, BitVec.le_def] at h1 h2
      have e1 : ('0').val.toBitVec.toNat = 48 := rfl
      have e2 : ('9').val.toBitVec.toNat = 57 := rfl
      simp only [Char.toNat, UInt32.toNat] at *
      omega
  unfold Char.toUpper
  simp only [if_neg hb]

theorem isVinCI_of_isVinUpper {c : Char} (h : isVinUpper c = true) : isVinCI c = true := by
  unfold isVinCI
  rw [toUpper_fixed_of_vinUpper h]
  exact h

/-- `_normalize_vin` returns the empty string or 17 characters of the VIN
alphabet. -/
theorem normalize_vin_valid (s : Str) :
    normalize_vin s = [] ∨
      ((normalize_vin s).length = 17 ∧ (normalize_vin s).all isVinCI = true) := by
  unfold normalize_vin
  by_cases hs : s = []
  · exact Or.inl (by simp [hs])
  · rw [if_neg hs]
    by_cases hl : ((upperStr s).filter isVinUpper).length = 17
    · refine Or.inr ⟨by rw [if_pos hl]; exact hl, ?_⟩
      rw [if_pos hl, List.all_eq_true]
      intro c hc
      exact isVinCI_of_isVinUpper (List.of_mem_filter hc)
    · exact Or.inl (by rw [if_neg hl])

theorem vinSearchAux_valid (s : Str) : ∀ (b : Bool) (v : Str),
    vinSearchAux b s = some v → v.length = 17 ∧ v.all isVinCI = true := by
  induction s with
  | nil => intro b v h; exact absurd h (by simp [vinSearchAux])
  | cons c cs ih =>
    intro b v h
    simp only [vinSearchAux] at h
    by_cases hb : (!b && vinHere (c :: cs)) = true
    · rw [if_pos hb] at h
      injection h with h2
      subst h2
      simp only [Bool.and_eq_true] at hb
      have hv := hb.2
      unfold vinHere at hv
      simp only [Bool.and_eq_true, decide_eq_true_eq] at hv
      exact ⟨hv.1.1, hv.1.2⟩
    · rw [if_neg hb] at h
      exact ih _ _ h

/-- A successful `vin_pattern.search` returns 17 characters of the VIN
alphabet (in whatever case they appear in the text). -/
theorem vinSearch_valid {s v : Str} (h : vinSearch s = some v) :
    v.length = 17 ∧ v.all isVinCI = true :=
  vinSearchAux_valid s false v h

/-- The year and make/model extraction blocks do not change the vin field. -/
theorem extractYear_vin (lot : NormalizedLot) (rt : Str) :
    (extractYear lot rt).vin = lot.vin := by
  unfold extractYear
  split
  · split <;> rfl
  · rfl

theorem extractMM_vin {lot : NormalizedLot} {rt : Str} {n : NormalizedLot}
    (h : extractMM lot rt = .ok n) : n.vin = lot.vin := by
  unfold extractMM at h
  split at h
  · obtain ⟨mm, hmm, h⟩ := bind_ok_inv h
    simp only at h
    injection h with h2
    subst h2
    cases hm1 : mm.1 <;> cases hm2 : mm.2 <;> simp only [hm1, hm2] <;>
      (try split) <;> (try split) <;> rfl
  · injection h with h2
    subst h2
    rfl

theorem extractVin_cases (lot : NormalizedLot) (rt : Str) :
    (extractVin lot rt).vin = lot.vin ∨
      ∃ v, vinSearch rt = some v ∧ (extractVin lot rt).vin = v := by
  unfold extractVin
  split
  · cases hv : vinSearch rt with
    | some v => exact Or.inr ⟨v, rfl, rfl⟩
    | none => exact Or.inl rfl
  · exact Or.inl rfl

/-- C5 counterexample: with vin absent and a lowercase 17-character token in
the raw text, the fallback stores the match verbatim — lowercase, outside
the claimed uppercase alphabet. -/
theorem c5_vin_not_uppercase :
    (normalize_lot (fun _ => none)
        { raw_text := Value.vStr ("vin bcdefghjkmnprstuv here".toList) }).map
      NormalizedLot.vin = .ok ("bcdefghjkmnprstuv".toList) ∧
    ("bcdefghjkmnprstuv".toList).length = 17 ∧
    ("bcdefghjkmnprstuv".toList).all isVinUpper = false :=
  ⟨by decide, by decide, by decide⟩

/-- C5 (amended): for every raw input, the vin of a successful
`normalize_lot` is either empty or exactly 17 characters of the VIN alphabet
`A-HJ-NPR-Z0-9` up to case — uppercase when it came through
`_normalize_vin`, but in the raw text's original casing when filled by
fallback extraction. -/
theorem c5_vin_alphabet (pd : Str → Option Str) (raw : RawLot) (n : NormalizedLot)
    (h : normalize_lot pd raw = .ok n) :
    n.vin = [] ∨ (n.vin.length = 17 ∧ n.vin.all isVinCI = true) := by
  obtain ⟨b, -, -, -, -, -, -, -, -, -, ⟨vin0, -, hbv⟩, -, -, -, -, -, -, -, -, -, hfin⟩ :=
    normalize_lot_ok_cases h
  rcases hfin with ⟨s, -, -, hex⟩ | ⟨hnb, -⟩
  · unfold extract_from_raw_text at hex
    have hv2 : n.vin = (extractVin b s).vin := by
      rw [extractMM_vin hex, extractYear_vin]
    rcases extractVin_cases b s with hc | ⟨v, hvs, hc⟩
    · rw [hv2, hc, hbv]
      exact normalize_vin_valid vin0
    · rw [hv2, hc]
      exact Or.inr (vinSearch_valid hvs)
  · rw [hnb, hbv]
    exact normalize_vin_valid vin0

/-- The normalized form of a minimal raw lot carrying only a valid vin. -/
def c5demoNorm : NormalizedLot :=
  { source := [], source_lot_id := [], lot_url := [], sale_date_utc := none,
    sale_local_time := [], tz_name := Value.vStr ("America/New_York".toList),
    location_name := [], location_city := [], location_state := [],
    vin := ("1ABCD23EFGH456789".toList), year := none, make := [], model := [],
    trim := [], drivetrain := [], odometer := none,
    title_status := ("unknown".toList), condition_notes := [], raw_text := [] }

/-- Witness for C5 (amended) at a concrete input. -/
theorem c5_vin_alphabet_witness :
    c5demoNorm.vin = [] ∨
      (c5demoNorm.vin.length = 17 ∧ c5demoNorm.vin.all isVinCI = true) :=
  c5_vin_alphabet (fun _ => none) { vin := Value.vStr ("1abcd23efgh456789".toList) }
    c5demoNorm (by decide)

/-- A raw lot mixing string, absent and non-string fields. -/
def c1demoRaw : RawLot :=
  { source := Value.vStr ("x".toList), year := Value.vInt 50000,
    odometer := Value.vNone, title_status := Value.vInt 7,
    raw_text := Value.vStr ("toyota tacoma 1999".toList) }

/-- Witness for C1 (amended): a raw lot with string, absent and non-string
fields normalizes successfully. -/
theorem c1_normalize_lot_total_witness :
    strFieldsOK c1demoRaw = true ∧ mmSafe c1demoRaw = true ∧
    ∃ n, normalize_lot (fun _ => none) c1demoRaw = .ok n :=
  ⟨by decide, by decide,
    c1_normalize_lot_total (fun _ => none) c1demoRaw (by decide) (by decide)⟩


/-!  C7: idempotence of `normalize_lot`.  Stage 1: generic list toolkit and
stability of the per-field normalizers on their own output. -/

theorem isWS_not_wordChar {c : Char} (h : isWS c = true) : isWordChar c = false := by
  have hn := (isWS_toNat c).mp h
  have ha : c.isAlpha = false := by
    rw [← Bool.not_eq_true, isAlpha_toNat]; omega
  have hd : c.isDigit = false := by
    rw [← Bool.not_eq_true, isDigit_toNat]; omega
  have hu : c ≠ '_' := by
    intro hh; subst hh; exact absurd h (by decide)
  unfold isWordChar Char.isAlphanum
  rw [ha, hd]
  simp [hu]

theorem getS_stripped {v : Value} {s : Str} (h : getS v = .ok s) : stripWS s = s := by
  cases v with
  | vAbsent =>
    simp only [getS, getD, pyStrip] at h
    injection h with h2
    rw [← h2]
    exact stripWS_idem []
  | vNone =>
    simp only [getS, getD, pyStrip] at h
    exact Except.noConfusion h
  | vInt k =>
    simp only [getS, getD, pyStrip] at h
    exact Except.noConfusion h
  | vStr t =>
    simp only [getS, getD, pyStrip] at h
    injection h with h2
    rw [← h2]
    exact stripWS_idem t

theorem getD_getD (v : Value) (d : Str) :
    getD (getD v (Value.vStr d)) (Value.vStr d) = getD v (Value.vStr d) := by
  cases v <;> rfl

theorem normalize_year_mem {v : Value} {n : Int} (h : normalize_year v = some n) :
    1900 ≤ n ∧ n ≤ 2030 := by
  cases v with
  | vInt k =>
    simp only [normalize_year] at h
    split at h
    · next hk =>
      injection h with h2
      subst h2
      simpa using hk
    · exact Option.noConfusion h
  | vStr s =>
    simp only [normalize_year] at h
    split at h
    · exact Option.noConfusion h
    · split at h
      · next hk =>
        injection h with h2
        subst h2
        simpa using hk
      · exact Option.noConfusion h
  | vAbsent =>
    simp only [normalize_year] at h
    exact Option.noConfusion h
  | vNone =>
    simp only [normalize_year] at h
    exact Option.noConfusion h

theorem normalize_odometer_mem {v : Value} {n : Int} (h : normalize_odometer v = some n) :
    0 ≤ n ∧ n ≤ 1000000 := by
  cases v with
  | vInt k =>
    simp only [normalize_odometer] at h
    split at h
    · next hk =>
      injection h with h2
      subst h2
      simpa using hk
    · exact Option.noConfusion h
  | vStr s =>
    simp only [normalize_odometer] at h
    cases hfd : firstDigitRun s with
    | none =>
      rw [hfd] at h
      exact Option.noConfusion h
    | some ds =>
      rw [hfd] at h
      split at h
      · next hk => exact Option.noConfusion hk
      · next ds2 hk =>
        injection hk with hds
        subst hds
        split at h
        · next hcond =>
          injection h with h2
          subst h2
          simpa using hcond
        · exact Option.noConfusion h
  | vAbsent =>
    simp only [normalize_odometer] at h
    exact Option.noConfusion h
  | vNone =>
    simp only [normalize_odometer] at h
    exact Option.noConfusion h

theorem normalize_datetime_roundtrip {pd : Str → Option Str}
    (hpd : ∀ s t, pd s = some t → t ≠ [] ∧ pd t = some t)
    {v : Value} {s : Str} (h : normalize_datetime pd v = some s) :
    normalize_datetime pd (Value.vStr s) = some s := by
  cases v with
  | vStr t =>
    simp only [normalize_datetime] at h ⊢
    split at h
    · cases h
    · obtain ⟨hne, hrt⟩ := hpd t s h
      rw [if_neg hne]
      exact hrt
  | vAbsent =>
    simp only [normalize_datetime] at h
    exact Option.noConfusion h
  | vNone =>
    simp only [normalize_datetime] at h
    exact Option.noConfusion h
  | vInt k =>
    simp only [normalize_datetime] at h
    exact Option.noConfusion h

theorem lookup_mem {α : Type} [BEq α] {l : List (α × Str)} {k : α} {v : Str}
    (h : List.lookup k l = some v) : ∃ p ∈ l, p.2 = v := by
  induction l with
  | nil => cases h
  | cons p t ih =>
    obtain ⟨a, b⟩ := p
    rw [List.lookup] at h
    split at h
    · injection h with h2
      exact ⟨(a, b), List.mem_cons_self (a, b) t, h2⟩
    · obtain ⟨q, hq, hv⟩ := ih h
      exact ⟨q, List.mem_cons.mpr (Or.inr hq), hv⟩

theorem normalize_make_table : ∀ p ∈ make_mappings, normalize_make p.2 = p.2 := by decide

theorem normalize_make_stab (m : Str) :
    normalize_make (normalize_make m) = normalize_make m := by
  by_cases hm : m = []
  · subst hm; rfl
  · cases hlk : List.lookup (stripWS (lowerStr m)) make_mappings with
    | some v =>
      have h1 : normalize_make m = v := by
        unfold normalize_make
        rw [if_neg hm, hlk]
      obtain ⟨p, hp, hv⟩ := lookup_mem hlk
      rw [h1, ← hv]
      exact normalize_make_table p hp
    | none =>
      have h1 : normalize_make m = titleStr m := by
        unfold normalize_make
        rw [if_neg hm, hlk]
      rw [h1]
      have hne : titleStr m ≠ [] := by
        intro hh
        have hlen := titleAux_length false m
        rw [show titleAux false m = titleStr m from rfl, hh] at hlen
        have h0 : m.length = 0 := by simpa using hlen.symm
        exact hm (List.eq_nil_of_length_eq_zero h0)
      unfold normalize_make
      rw [if_neg hne]
      have hkey : stripWS (lowerStr (titleStr m)) = stripWS (lowerStr m) := by
        rw [titleStr, lowerStr_titleAux]
      rw [hkey, hlk]
      show titleStr (titleStr m) = titleStr m
      simp only [titleStr]
      exact titleAux_idem false m

theorem collapseAux_no_ws {l : Str} (h : ∀ c ∈ l, isWS c = false) :
    collapseAux false l = l := by
  induction l with
  | nil => rfl
  | cons c t ih =>
    rw [collapseAux, if_neg (by simp [h c (List.mem_cons_self c t)]),
      ih (fun d hd => h d (List.mem_cons.mpr (Or.inr hd)))]

theorem normalize_model_stab (m : Str) :
    normalize_model (normalize_model m) = normalize_model m := by
  by_cases hm : m = []
  · subst hm; rfl
  · have h1 : normalize_model m = titleStr (collapseWS (stripWS m)) := by
      unfold normalize_model; rw [if_neg hm]
    rw [h1]
    by_cases ht : titleStr (collapseWS (stripWS m)) = []
    · rw [ht]; rfl
    · unfold normalize_model
      rw [if_neg ht]
      have hsneat : SNeat (titleStr (collapseWS (stripWS m))) :=
        sneat_titleStr (sneat_collapseWS (sneat_stripWS m))
      have hcol : CollapsedOK (titleStr (collapseWS (stripWS m))) :=
        collapsedOK_titleStr (collapseAux_collapsedOK (stripWS m) false)
      rw [sneat_stripWS_eq_self hsneat]
      rw [show collapseWS (titleStr (collapseWS (stripWS m))) =
        titleStr (collapseWS (stripWS m)) from (collapseAux_fixed hcol).1]
      simp only [titleStr]
      exact titleAux_idem false _

theorem no_ws_titleStr {s : Str} (h : ∀ c ∈ s, isWS c = false) :
    ∀ c ∈ titleStr s, isWS c = false := by
  intro c hc
  obtain ⟨d, hd, hcase⟩ := titleAux_mem hc
  have hdw := h d hd
  rcases hcase with he | he | he <;> rw [he]
  · rw [isWS_toLower]; exact hdw
  · rw [isWS_toUpper]; exact hdw
  · exact hdw

theorem normalize_model_title_word {w : Str} (hne : w ≠ [])
    (hnw : ∀ c ∈ w, isWS c = false) :
    normalize_model (titleStr w) = titleStr w := by
  have htne : titleStr w ≠ [] := by
    intro hh
    have hlen := titleAux_length false w
    rw [show titleAux false w = titleStr w from rfl, hh] at hlen
    exact hne (List.eq_nil_of_length_eq_zero (by simpa using hlen.symm))
  have htw : ∀ c ∈ titleStr w, isWS c = false := no_ws_titleStr hnw
  unfold normalize_model
  rw [if_neg htne, stripWS_eq_self_of_all htw]
  rw [show collapseWS (titleStr w) = titleStr w from collapseAux_no_ws htw]
  simp only [titleStr]
  exact titleAux_idem false w

theorem firstWord_some {s w : Str} (h : firstWord s = some w) :
    w ≠ [] ∧ ∀ c ∈ w, isWS c = false := by
  simp only [firstWord] at h
  split at h
  · cases h
  · next hne =>
    injection h with h2
    subst h2
    refine ⟨hne, ?_⟩
    intro c hc
    have := List.mem_takeWhile_imp hc
    simpa using this

theorem stripWS_decomp (s : Str) :
    ∃ w1 w2, (∀ c ∈ w1, isWS c = true) ∧ (∀ c ∈ w2, isWS c = true) ∧
      s = w1 ++ stripWS s ++ w2 := by
  refine ⟨s.takeWhile isWS, ((s.dropWhile isWS).reverse.takeWhile isWS).reverse,
    ?_, ?_, ?_⟩
  · intro c hc; exact List.mem_takeWhile_imp hc
  · intro c hc
    rw [List.mem_reverse] at hc
    exact List.mem_takeWhile_imp hc
  · rw [List.append_assoc]
    conv_lhs => rw [← List.takeWhile_append_dropWhile isWS s]
    congr 1
    conv_lhs => rw [← List.reverse_reverse (s.dropWhile isWS),
      ← List.takeWhile_append_dropWhile isWS (s.dropWhile isWS).reverse]
    rw [List.reverse_append]
    rfl

theorem stripWS_eq_nil {s : Str} (h : stripWS s = []) : ∀ c ∈ s, isWS c = true := by
  obtain ⟨w1, w2, h1, h2, hdec⟩ := stripWS_decomp s
  rw [h] at hdec
  intro c hc
  rw [hdec] at hc
  have hm : c ∈ w1 ∨ c ∈ w2 := by simpa using hc
  rcases hm with hm | hm
  · exact h1 c hm
  · exact h2 c hm

theorem takeWhile_append_not_all {p : Char → Bool} {l : Str} (m : Str)
    (h : l.dropWhile p ≠ []) : (l ++ m).takeWhile p = l.takeWhile p := by
  induction l with
  | nil => exact absurd rfl h
  | cons c t ih =>
    rw [List.dropWhile_cons] at h
    rw [List.cons_append, List.takeWhile_cons, List.takeWhile_cons]
    by_cases hc : p c = true
    · rw [if_pos hc] at h
      rw [if_pos hc, if_pos hc, ih h]
    · rw [if_neg (by simp [hc]), if_neg (by simp [hc])]

theorem dropWhile_append_not_all {p : Char → Bool} {l : Str} (m : Str)
    (h : l.dropWhile p ≠ []) : (l ++ m).dropWhile p = l.dropWhile p ++ m := by
  induction l with
  | nil => exact absurd rfl h
  | cons c t ih =>
    rw [List.dropWhile_cons] at h
    rw [List.cons_append, List.dropWhile_cons, List.dropWhile_cons]
    by_cases hc : p c = true
    · rw [if_pos hc] at h
      rw [if_pos hc, if_pos hc, ih h]
    · rw [if_neg (by simp [hc]), if_neg (by simp [hc]), List.cons_append]

theorem takeWhile_append_all {p : Char → Bool} {l : Str} (m : Str)
    (h : ∀ c ∈ l, p c = true) : (l ++ m).takeWhile p = l ++ m.takeWhile p := by
  induction l with
  | nil => rfl
  | cons c t ih =>
    rw [List.cons_append, List.takeWhile_cons, if_pos (h c (List.mem_cons_self c t)),
      ih (fun d hd => h d (List.mem_cons.mpr (Or.inr hd))), List.cons_append]

theorem dropWhile_all {p : Char → Bool} {l : Str} (h : ∀ c ∈ l, p c = true) :
    l.dropWhile p = [] := by
  induction l with
  | nil => rfl
  | cons c t ih =>
    rw [List.dropWhile_cons, if_pos (h c (List.mem_cons_self c t))]
    exact ih (fun d hd => h d (List.mem_cons.mpr (Or.inr hd)))

theorem dropWhile_head_false {p : Char → Bool} {l : Str} {c : Char} {t : Str}
    (h : l.dropWhile p = c :: t) : p c = false := by
  induction l with
  | nil => cases h
  | cons a l2 ih =>
    rw [List.dropWhile_cons] at h
    split at h
    · exact ih h
    · next hp =>
      injection h with h1 h2
      subst h1
      simpa using hp

theorem drop_length_takeWhile (p : Char → Bool) (l : Str) :
    l.drop (l.takeWhile p).length = l.dropWhile p := by
  have h := List.drop_left (l.takeWhile p) (l.dropWhile p)
  rwa [List.takeWhile_append_dropWhile] at h


/-!  C7 stage 2: the VIN search is invariant under whitespace stripping of
the text, and `_normalize_vin` is stable on its own output. -/

theorem isWS_char_cases {c : Char} (h : isWS c = true) :
    c = ' ' ∨ c = '\t' ∨ c = '\n' ∨ c = '\r' := by
  have hn := (isWS_toNat c).mp h
  rcases hn with h1 | h1 | h1 | h1
  · exact Or.inl (char_eq_of_toNat (h1.trans (by decide)))
  · exact Or.inr (Or.inl (char_eq_of_toNat (h1.trans (by decide))))
  · exact Or.inr (Or.inr (Or.inl (char_eq_of_toNat (h1.trans (by decide)))))
  · exact Or.inr (Or.inr (Or.inr (char_eq_of_toNat (h1.trans (by decide)))))

theorem isVinCI_ws {c : Char} (h : isWS c = true) : isVinCI c = false := by
  rcases isWS_char_cases h with rfl | rfl | rfl | rfl <;> decide

theorem boundaryAfter_append_ws {w : Str} (hw : ∀ c ∈ w, isWS c = true) (y : Str) :
    boundaryAfter (y ++ w) = boundaryAfter y := by
  cases y with
  | nil =>
    rw [List.nil_append]
    cases w with
    | nil => rfl
    | cons c t =>
      show (!isWordChar c) = true
      rw [isWS_not_wordChar (hw c (List.mem_cons_self c t))]
      rfl
  | cons c t => rfl

theorem vinHere_append_ws {w : Str} (hw : ∀ c ∈ w, isWS c = true) (x : Str) :
    vinHere (x ++ w) = vinHere x ∧
      (vinHere x = true → (x ++ w).take 17 = x.take 17) := by
  cases hw0 : w with
  | nil => rw [List.append_nil]; exact ⟨rfl, fun _ => rfl⟩
  | cons c0 t0 =>
    rw [← hw0]
    by_cases hlen : 17 ≤ x.length
    · have htake : (x ++ w).take 17 = x.take 17 := List.take_append_of_le_length hlen
      have hdrop : (x ++ w).drop 17 = x.drop 17 ++ w := List.drop_append_of_le_length hlen
      refine ⟨?_, fun _ => htake⟩
      unfold vinHere
      rw [htake, hdrop, boundaryAfter_append_ws hw]
    · have hxlen : x.length < 17 := Nat.lt_of_not_le hlen
      have hxtake : x.take 17 = x := List.take_of_length_le (Nat.le_of_lt hxlen)
      have hxr : vinHere x = false := by
        unfold vinHere
        rw [hxtake]
        have hne : x.length ≠ 17 := by omega
        simp [hne]
      obtain ⟨k, hk⟩ : ∃ k, 17 - x.length = k + 1 :=
        Nat.exists_eq_succ_of_ne_zero (by omega)
      have hmem : c0 ∈ (x ++ w).take 17 := by
        rw [List.take_append_eq_append_take, hk, hw0, List.take_succ_cons]
        exact List.mem_append.mpr (Or.inr (List.mem_cons_self c0 _))
      have hcws : isWS c0 = true := hw c0 (by rw [hw0]; exact List.mem_cons_self c0 t0)
      have hall : ((x ++ w).take 17).all isVinCI = false :=
        List.all_eq_false.mpr ⟨c0, hmem, by simp [isVinCI_ws hcws]⟩
      have hlw : vinHere (x ++ w) = false := by
        unfold vinHere
        rw [hall]
        simp
      rw [hxr, hlw]
      exact ⟨rfl, fun hh => Bool.noConfusion hh⟩

theorem vinHere_ws_head {c : Char} {cs : Str} (h : isWS c = true) :
    vinHere (c :: cs) = false := by
  unfold vinHere
  rw [show (c :: cs).take 17 = c :: cs.take 16 from List.take_succ_cons]
  rw [show (c :: cs.take 16).all isVinCI = false from by
    rw [List.all_cons, isVinCI_ws h]; rfl]
  simp

theorem vinSearchAux_ws_cons {c : Char} (h : isWS c = true) (b : Bool) (t : Str) :
    vinSearchAux b (c :: t) = vinSearchAux false t := by
  rw [vinSearchAux, vinHere_ws_head h, isWS_not_wordChar h]
  simp

theorem vinSearchAux_ws_nil {w : Str} (hw : ∀ c ∈ w, isWS c = true) (b : Bool) :
    vinSearchAux b w = none := by
  induction w generalizing b with
  | nil => rfl
  | cons c t ih =>
    rw [vinSearchAux_ws_cons (hw c (List.mem_cons_self c t))]
    exact ih (fun d hd => hw d (List.mem_cons.mpr (Or.inr hd))) false

theorem vinSearchAux_ws_left {w : Str} (hw : ∀ c ∈ w, isWS c = true) (s : Str) :
    vinSearchAux false (w ++ s) = vinSearchAux false s := by
  induction w with
  | nil => rfl
  | cons c t ih =>
    rw [List.cons_append, vinSearchAux_ws_cons (hw c (List.mem_cons_self c t))]
    exact ih (fun d hd => hw d (List.mem_cons.mpr (Or.inr hd)))

theorem vinSearchAux_ws_right {w : Str} (hw : ∀ c ∈ w, isWS c = true) :
    ∀ (s : Str) (b : Bool), vinSearchAux b (s ++ w) = vinSearchAux b s := by
  intro s
  induction s with
  | nil =>
    intro b
    rw [List.nil_append]
    exact vinSearchAux_ws_nil hw b
  | cons c t ih =>
    intro b
    obtain ⟨hv, ht⟩ := vinHere_append_ws hw (c :: t)
    rw [List.cons_append] at hv ht
    rw [List.cons_append, vinSearchAux, vinSearchAux, hv]
    by_cases hb : (!b && vinHere (c :: t)) = true
    · have hvx : vinHere (c :: t) = true := by
        have hb2 := hb
        simp only [Bool.and_eq_true] at hb2
        exact hb2.2
      rw [if_pos hb, if_pos hb, ht hvx]
    · rw [if_neg hb, if_neg hb]
      exact ih (isWordChar c)

theorem vinSearch_stripWS (s : Str) : vinSearch (stripWS s) = vinSearch s := by
  obtain ⟨w1, w2, h1, h2, hdec⟩ := stripWS_decomp s
  conv_rhs => rw [hdec]
  show vinSearchAux false (stripWS s) = vinSearchAux false (w1 ++ stripWS s ++ w2)
  rw [vinSearchAux_ws_right h2 (w1 ++ stripWS s) false, vinSearchAux_ws_left h1]

theorem isVinUpper_toNat (c : Char) :
    isVinUpper c = true ↔ (65 ≤ c.toNat ∧ c.toNat ≤ 72) ∨ (74 ≤ c.toNat ∧ c.toNat ≤ 78) ∨
      c.toNat = 80 ∨ (82 ≤ c.toNat ∧ c.toNat ≤ 90) ∨ (48 ≤ c.toNat ∧ c.toNat ≤ 57) := by
  unfold isVinUpper
  simp only [Bool.or_eq_true, Bool.and_eq_true, decide_eq_true_eq, char_le_iff, char_eq_iff]
  rw [show ('A').toNat = 65 from rfl, show ('H').toNat = 72 from rfl,
    show ('J').toNat = 74 from rfl, show ('N').toNat = 78 from rfl,
    show ('P').toNat = 80 from rfl, show ('R').toNat = 82 from rfl,
    show ('Z').toNat = 90 from rfl, show ('0').toNat = 48 from rfl,
    show ('9').toNat = 57 from rfl]
  tauto

theorem isVinUpper_upper_fixed {c : Char} (h : isVinUpper c = true) : c.toUpper = c := by
  have hn := (isVinUpper_toNat c).mp h
  apply char_eq_of_toNat
  rw [toNat_toUpper, if_neg (by omega)]

theorem normalize_vin_of_upper {v : Str} (hv : ∀ c ∈ v, isVinUpper c = true)
    (hlen : v.length = 17) : normalize_vin v = v := by
  have hne : v ≠ [] := by intro hh; rw [hh] at hlen; cases hlen
  have hup : upperStr v = v := by
    unfold upperStr
    have hid : v.map Char.toUpper = v.map id :=
      List.map_congr_left (fun c hc => isVinUpper_upper_fixed (hv c hc))
    rw [hid, List.map_id]
  simp only [normalize_vin]
  rw [if_neg hne, hup, List.filter_eq_self.mpr (fun c hc => hv c hc), if_pos hlen]

theorem normalize_vin_shape (s : Str) :
    normalize_vin s = [] ∨
      ((normalize_vin s).length = 17 ∧ ∀ c ∈ normalize_vin s, isVinUpper c = true) := by
  by_cases hs : s = []
  · subst hs; exact Or.inl rfl
  · simp only [normalize_vin]
    rw [if_neg hs]
    by_cases hl : ((upperStr s).filter isVinUpper).length = 17
    · rw [if_pos hl]
      exact Or.inr ⟨hl, fun c hc => List.of_mem_filter hc⟩
    · rw [if_neg hl]; exact Or.inl rfl

theorem normalize_vin_idem (s : Str) :
    normalize_vin (normalize_vin s) = normalize_vin s := by
  rcases normalize_vin_shape s with h | ⟨hlen, hall⟩
  · rw [h]; rfl
  · exact normalize_vin_of_upper hall hlen

theorem vinCI_upper_fixed {c : Char} (h1 : isVinCI c = true) (h2 : c.toUpper = c) :
    isVinUpper c = true := by
  unfold isVinCI at h1
  rwa [h2] at h1


/-!  C7 stage 3: `year_pattern.findall` is invariant under whitespace
stripping of the text. -/

theorem yearFindAux_quad (b : Bool) (c d e f : Char) (r : Str) :
    yearFindAux b (c :: d :: e :: f :: r) =
      if !b && ((c = '1' && d = '9') || (c = '2' && d = '0')) && e.isDigit && f.isDigit &&
          boundaryAfter r then
        [c, d] :: yearFindAux true r
      else yearFindAux (isWordChar c) (d :: e :: f :: r) := rfl

theorem isWS_not_digit {c : Char} (h : isWS c = true) : c.isDigit = false := by
  have := (isWS_toNat c).mp h
  rw [← Bool.not_eq_true, isDigit_toNat]
  omega

theorem yearFindAux_peel {c : Char} {t : Str} (b : Bool)
    (h : ∀ d e f r, t = d :: e :: f :: r →
      (isWS d = true ∨ e.isDigit = false ∨ f.isDigit = false)) :
    yearFindAux b (c :: t) = yearFindAux (isWordChar c) t := by
  match t with
  | [] => rfl
  | [d] => rfl
  | [d, e] => rfl
  | d :: e :: f :: r =>
    rw [yearFindAux_quad]
    rcases h d e f r rfl with hd | he | hf
    · have h9 : d ≠ '9' := by intro hh; subst hh; exact absurd hd (by decide)
      have h0 : d ≠ '0' := by intro hh; subst hh; exact absurd hd (by decide)
      rw [decide_eq_false h9, decide_eq_false h0]
      simp
    · rw [he]; simp
    · rw [hf]; simp

theorem yearFindAux_ws_step {c : Char} (hc : isWS c = true) (b : Bool) (t : Str) :
    yearFindAux b (c :: t) = yearFindAux false t := by
  have hne1 : c ≠ '1' := by intro hh; subst hh; exact absurd hc (by decide)
  have hne2 : c ≠ '2' := by intro hh; subst hh; exact absurd hc (by decide)
  have hwc := isWS_not_wordChar hc
  match t with
  | [] => rfl
  | [d] => rfl
  | [d, e] => rfl
  | d :: e :: f :: r =>
    rw [yearFindAux_quad, decide_eq_false hne1, decide_eq_false hne2, hwc]
    simp

theorem yearFindAux_ws_nil {w : Str} (hw : ∀ c ∈ w, isWS c = true) (b : Bool) :
    yearFindAux b w = [] := by
  induction w generalizing b with
  | nil => rfl
  | cons c t ih =>
    rw [yearFindAux_ws_step (hw c (List.mem_cons_self c t))]
    exact ih (fun d hd => hw d (List.mem_cons.mpr (Or.inr hd))) false

theorem yearFindAux_ws_left {w : Str} (hw : ∀ c ∈ w, isWS c = true) (s : Str) :
    yearFindAux false (w ++ s) = yearFindAux false s := by
  induction w with
  | nil => rfl
  | cons c t ih =>
    rw [List.cons_append, yearFindAux_ws_step (hw c (List.mem_cons_self c t))]
    exact ih (fun d hd => hw d (List.mem_cons.mpr (Or.inr hd)))

theorem yearFindAux_ws_right {w : Str} (hw : ∀ c ∈ w, isWS c = true) :
    ∀ (s : Str) (b : Bool), yearFindAux b (s ++ w) = yearFindAux b s := by
  have key : ∀ (n : Nat) (s : Str), s.length ≤ n → ∀ b,
      yearFindAux b (s ++ w) = yearFindAux b s := by
    intro n
    induction n with
    | zero =>
      intro s hs b
      have h0 : s = [] := List.eq_nil_of_length_eq_zero (Nat.le_zero.mp hs)
      subst h0
      exact yearFindAux_ws_nil hw b
    | succ n ihn =>
      intro s hs b
      cases s with
      | nil => exact yearFindAux_ws_nil hw b
      | cons c t1 =>
        cases t1 with
        | nil =>
          rw [List.cons_append, List.nil_append,
            yearFindAux_peel b (fun d e f r hd =>
              Or.inl (hw d (by rw [hd]; exact List.mem_cons_self d _))),
            yearFindAux_ws_nil hw]
          rfl
        | cons d t2 =>
          cases t2 with
          | nil =>
            rw [List.cons_append, List.cons_append, List.nil_append]
            rw [yearFindAux_peel b (fun d2 e f r hd => by
              injection hd with h1 h2
              exact Or.inr (Or.inl (isWS_not_digit
                (hw e (by rw [h2]; exact List.mem_cons_self e _)))))]
            rw [yearFindAux_peel (isWordChar c) (fun d2 e f r hd =>
              Or.inl (hw d2 (by rw [hd]; exact List.mem_cons_self d2 _)))]
            rw [yearFindAux_ws_nil hw]
            rfl
          | cons e t3 =>
            cases t3 with
            | nil =>
              rw [List.cons_append, List.cons_append, List.cons_append, List.nil_append]
              rw [yearFindAux_peel b (fun d2 e2 f r hd => by
                injection hd with h1 h2
                injection h2 with h3 h4
                exact Or.inr (Or.inr (isWS_not_digit
                  (hw f (by rw [h4]; exact List.mem_cons_self f _)))))]
              rw [yearFindAux_peel (isWordChar c) (fun d2 e2 f r hd => by
                injection hd with h1 h2
                exact Or.inr (Or.inl (isWS_not_digit
                  (hw e2 (by rw [h2]; exact List.mem_cons_self e2 _)))))]
              rw [yearFindAux_peel (isWordChar d) (fun d2 e2 f r hd =>
                Or.inl (hw d2 (by rw [hd]; exact List.mem_cons_self d2 _)))]
              rw [yearFindAux_ws_nil hw]
              rfl
            | cons f r =>
              rw [List.cons_append, List.cons_append, List.cons_append, List.cons_append,
                yearFindAux_quad, yearFindAux_quad, boundaryAfter_append_ws hw]
              have hlen : r.length + 4 ≤ n + 1 := by simpa using hs
              by_cases hcond : (!b && ((c = '1' && d = '9') || (c = '2' && d = '0')) &&
                  e.isDigit && f.isDigit && boundaryAfter r) = true
              · rw [if_pos hcond, if_pos hcond]
                congr 1
                exact ihn r (by omega) true
              · rw [if_neg hcond, if_neg hcond]
                exact ihn (d :: e :: f :: r) (by simp; omega) (isWordChar c)
  intro s b
  exact key s.length s (le_refl _) b

theorem yearFindall_stripWS (s : Str) : yearFindall (stripWS s) = yearFindall s := by
  obtain ⟨w1, w2, h1, h2, hdec⟩ := stripWS_decomp s
  conv_rhs => rw [hdec]
  show yearFindAux false (stripWS s) = yearFindAux false (w1 ++ stripWS s ++ w2)
  rw [yearFindAux_ws_right h2 (w1 ++ stripWS s) false, yearFindAux_ws_left h1]


/-!  C7 stage 4: the make/model extraction.  A successful extraction either
found no match (and returns `(none, none)`) or fills both groups with
non-empty normalized values; a match inside the stripped text lifts to a
match in the full text, so a matchless text stays matchless after
stripping. -/

theorem findSome?_isSome_of {α β : Type} {f : α → Option β} {l : List α} {a : α}
    (ha : a ∈ l) (h : (f a).isSome = true) : (List.findSome? f l).isSome = true := by
  induction l with
  | nil => cases ha
  | cons b t ih =>
    rw [List.findSome?]
    cases hfb : f b with
    | some r => rfl
    | none =>
      rcases List.mem_cons.mp ha with rfl | hmem
      · rw [hfb] at h; cases h
      · exact ih hmem

theorem mmMakes_facts : ∀ m ∈ mmMakes, m ≠ [] ∧ (∀ c ∈ m, isWS c = false) ∧
    pyIsdigit m = false ∧ normalize_make m ≠ [] := by decide

theorem mmAfterMake_some_ne_nil {rem g : Str} (h : mmAfterMake rem = some g) : g ≠ [] := by
  simp only [mmAfterMake] at h
  split at h
  · cases h
  · next hws =>
    split at h
    · next hrun =>
      injection h with h2
      subst h2
      exact hrun
    · next hrun =>
      split at h
      · next hlen =>
        injection h with h2
        subst h2
        intro hh
        have hlen2 : ((rem.drop ((rem.takeWhile isWS).length - 1)).take 1).length = 0 := by
          rw [hh]; rfl
        rw [List.length_take, List.length_drop] at hlen2
        have hle : (rem.takeWhile isWS).length ≤ rem.length :=
          List.Sublist.length_le (List.takeWhile_sublist _)
        omega
      · cases h

theorem mmAfterMake_mono {w : Str} (hw : ∀ c ∈ w, isWS c = true) {rem g : Str}
    (h : mmAfterMake rem = some g) : ∃ g2, mmAfterMake (rem ++ w) = some g2 := by
  cases hwnil : w with
  | nil => rw [List.append_nil]; exact ⟨g, h⟩
  | cons w0 wt =>
    rw [← hwnil]
    have hwne : w ≠ [] := by rw [hwnil]; exact List.cons_ne_nil w0 wt
    have hwtake : w.takeWhile isWS = w := by
      have h2 := List.takeWhile_append_dropWhile isWS w
      rw [dropWhile_all hw, List.append_nil] at h2
      exact h2
    simp only [mmAfterMake] at h ⊢
    have hremne : rem ≠ [] := by
      intro hh
      subst hh
      simp at h
    by_cases hall : rem.dropWhile isWS = []
    · -- the remainder is pure whitespace: the appended run backtracks as well
      have hremtake : rem.takeWhile isWS = rem := by
        have h2 := List.takeWhile_append_dropWhile isWS rem
        rw [hall, List.append_nil] at h2
        exact h2
      have hremws : ∀ c ∈ rem, isWS c = true := by
        intro c hc
        rw [← hremtake] at hc
        exact List.mem_takeWhile_imp hc
      have htakeall : (rem ++ w).takeWhile isWS = rem ++ w := by
        rw [takeWhile_append_all w hremws, hwtake]
      rw [htakeall]
      rw [if_neg (show ¬(rem ++ w = []) by simp [hremne])]
      rw [List.drop_length (rem ++ w)]
      rw [if_neg (show ¬(([] : Str).takeWhile mmClass ≠ []) by simp)]
      rw [if_pos (show 2 ≤ (rem ++ w).length by
        rw [List.length_append]
        have hr1 := List.length_pos.mpr hremne
        have hr2 := List.length_pos.mpr hwne
        omega)]
      exact ⟨_, rfl⟩
    · -- the remainder has a non-whitespace character
      obtain ⟨r0, rest, hdw⟩ : ∃ r0 rest, rem.dropWhile isWS = r0 :: rest := by
        cases hd : rem.dropWhile isWS with
        | nil => exact absurd hd hall
        | cons a b2 => exact ⟨a, b2, rfl⟩
      have htake : (rem ++ w).takeWhile isWS = rem.takeWhile isWS :=
        takeWhile_append_not_all w hall
      have hdrop2 : (rem ++ w).drop (rem.takeWhile isWS).length =
          rem.drop (rem.takeWhile isWS).length ++ w :=
        List.drop_append_of_le_length (List.Sublist.length_le (List.takeWhile_sublist _))
      by_cases hws : rem.takeWhile isWS = []
      · rw [if_pos hws] at h
        cases h
      · rw [if_neg hws] at h
        rw [htake, if_neg hws, hdrop2, drop_length_takeWhile, hdw, List.cons_append,
          List.takeWhile_cons]
        rw [drop_length_takeWhile, hdw, List.takeWhile_cons] at h
        by_cases hm0 : mmClass r0 = true
        · rw [if_pos hm0]
          rw [if_pos (show (r0 :: (rest ++ w).takeWhile mmClass) ≠ [] from
            List.cons_ne_nil _ _)]
          exact ⟨_, rfl⟩
        · rw [if_neg hm0] at h
          rw [if_neg hm0]
          rw [if_neg (show ¬(([] : Str) ≠ []) by simp)] at h ⊢
          split at h
          · next hlen2 =>
            rw [if_pos hlen2]
            exact ⟨_, rfl⟩
          · cases h

theorem isPrefixOf_append {alt x : Str} (w : Str) (h : alt.isPrefixOf x = true) :
    alt.isPrefixOf (x ++ w) = true := by
  rw [List.isPrefixOf_iff_prefix] at h ⊢
  exact h.trans (List.prefix_append x w)

theorem isPrefixOf_ws_head {alt : Str} (haltne : alt ≠ [])
    (halt : ∀ c ∈ alt, isWS c = false) {c : Char} (hc : isWS c = true) (t : Str) :
    alt.isPrefixOf (c :: t) = false := by
  cases alt with
  | nil => exact absurd rfl haltne
  | cons a alt2 =>
    show (a == c && alt2.isPrefixOf t) = false
    have hne : a ≠ c := by
      intro hh
      rw [← hh] at hc
      rw [halt a (List.mem_cons_self a alt2)] at hc
      cases hc
    rw [beq_eq_false_iff_ne.mpr hne]
    rfl

theorem mmTryHere_ws_head {c : Char} (hc : isWS c = true) (t : Str) :
    mmTryHere (c :: t) = none := by
  refine List.findSome?_eq_none_iff.mpr ?_
  intro alt halt
  obtain ⟨hne, hnw, -, -⟩ := mmMakes_facts alt halt
  rw [if_neg (by simp [isPrefixOf_ws_head hne hnw hc])]

theorem mmTry2Here_ws_head {c : Char} (hc : isWS c = true) (t : Str) :
    mmTry2Here (c :: t) = none := by
  simp only [mmTry2Here]
  rw [show (c :: t).take 4 = c :: t.take 3 from List.take_succ_cons]
  rw [List.all_cons, isWS_not_digit hc]
  simp

theorem mmTryHere_mono {w : Str} (hw : ∀ c ∈ w, isWS c = true) {x : Str} {r : Str × Str}
    (h : mmTryHere x = some r) : ∃ r2, mmTryHere (x ++ w) = some r2 := by
  obtain ⟨alt, halt, hf⟩ := List.exists_of_findSome?_eq_some h
  split at hf
  · next hpre =>
    cases hmm : mmAfterMake (x.drop alt.length) with
    | none => rw [hmm] at hf; cases hf
    | some g =>
      obtain ⟨g2, hg2⟩ := mmAfterMake_mono hw hmm
      have hpre2 := isPrefixOf_append w hpre
      have hdrop : (x ++ w).drop alt.length = x.drop alt.length ++ w :=
        List.drop_append_of_le_length (List.isPrefixOf_iff_prefix.mp hpre).length_le
      have hres : (if alt.isPrefixOf (x ++ w) then
          (mmAfterMake ((x ++ w).drop alt.length)).map (fun g => (alt, g)) else none) =
          some (alt, g2) := by
        rw [if_pos hpre2, hdrop, hg2]
        rfl
      have hsome : (List.findSome? (fun alt => if alt.isPrefixOf (x ++ w) then
          (mmAfterMake ((x ++ w).drop alt.length)).map (fun g => (alt, g)) else none)
          mmMakes).isSome = true :=
        findSome?_isSome_of halt (by rw [hres]; rfl)
      obtain ⟨r2, hr2⟩ := Option.isSome_iff_exists.mp hsome
      exact ⟨r2, hr2⟩
  · cases hf

theorem mmSearch1Aux_ws_cons {c : Char} (hc : isWS c = true) (b : Bool) (t : Str) :
    mmSearch1Aux b (c :: t) = mmSearch1Aux false t := by
  cases b with
  | true =>
    show mmSearch1Aux (isWordChar c) t = mmSearch1Aux false t
    rw [isWS_not_wordChar hc]
  | false =>
    rw [show mmSearch1Aux false (c :: t) =
      (match mmTryHere (c :: t) with
        | some r => some r
        | none => mmSearch1Aux (isWordChar c) t) from rfl]
    rw [mmTryHere_ws_head hc]
    show mmSearch1Aux (isWordChar c) t = mmSearch1Aux false t
    rw [isWS_not_wordChar hc]

theorem mmSearch1Aux_ws_nil {w : Str} (hw : ∀ c ∈ w, isWS c = true) (b : Bool) :
    mmSearch1Aux b w = none := by
  induction w generalizing b with
  | nil => rfl
  | cons c t ih =>
    rw [mmSearch1Aux_ws_cons (hw c (List.mem_cons_self c t))]
    exact ih (fun d hd => hw d (List.mem_cons.mpr (Or.inr hd))) false

theorem mmSearch1Aux_ws_left {w : Str} (hw : ∀ c ∈ w, isWS c = true) (s : Str) :
    mmSearch1Aux false (w ++ s) = mmSearch1Aux false s := by
  induction w with
  | nil => rfl
  | cons c t ih =>
    rw [List.cons_append, mmSearch1Aux_ws_cons (hw c (List.mem_cons_self c t))]
    exact ih (fun d hd => hw d (List.mem_cons.mpr (Or.inr hd)))

theorem mmSearch1Aux_mono {w : Str} (hw : ∀ c ∈ w, isWS c = true) :
    ∀ (s : Str) (b : Bool), mmSearch1Aux b (s ++ w) = none → mmSearch1Aux b s = none := by
  intro s
  induction s with
  | nil => intro b h; rfl
  | cons c t ih =>
    intro b h
    rw [List.cons_append] at h
    cases b with
    | true =>
      have h2 : mmSearch1Aux (isWordChar c) (t ++ w) = none := h
      show mmSearch1Aux (isWordChar c) t = none
      exact ih (isWordChar c) h2
    | false =>
      cases hm : mmTryHere (c :: (t ++ w)) with
      | some r =>
        rw [show mmSearch1Aux false (c :: (t ++ w)) =
          (match mmTryHere (c :: (t ++ w)) with
            | some r => some r
            | none => mmSearch1Aux (isWordChar c) (t ++ w)) from rfl, hm] at h
        exact Option.noConfusion h
      | none =>
        rw [show mmSearch1Aux false (c :: (t ++ w)) =
          (match mmTryHere (c :: (t ++ w)) with
            | some r => some r
            | none => mmSearch1Aux (isWordChar c) (t ++ w)) from rfl, hm] at h
        have h2 : mmSearch1Aux (isWordChar c) t = none := ih (isWordChar c) h
        cases hm2 : mmTryHere (c :: t) with
        | some r =>
          obtain ⟨r2, hr2⟩ := mmTryHere_mono hw hm2
          rw [List.cons_append] at hr2
          rw [hr2] at hm
          exact Option.noConfusion hm
        | none =>
          rw [show mmSearch1Aux false (c :: t) =
            (match mmTryHere (c :: t) with
              | some r => some r
              | none => mmSearch1Aux (isWordChar c) t) from rfl, hm2]
          exact h2

theorem mmTry2Here_mono {w : Str} (hw : ∀ c ∈ w, isWS c = true) {x : Str}
    {r : Str × Str × Str} (h : mmTry2Here x = some r) :
    ∃ r2, mmTry2Here (x ++ w) = some r2 := by
  simp only [mmTry2Here] at h ⊢
  split at h
  case isFalse => cases h
  case isTrue hdig =>
    have h4 : 4 ≤ x.length := by
      simp only [Bool.and_eq_true, decide_eq_true_eq] at hdig
      have hl := hdig.1
      rw [List.length_take] at hl
      omega
    have htake4 : (x ++ w).take 4 = x.take 4 := List.take_append_of_le_length h4
    have hdrop4 : (x ++ w).drop 4 = x.drop 4 ++ w := List.drop_append_of_le_length h4
    rw [htake4, hdrop4, if_pos hdig]
    split at h
    · cases h
    · next hws =>
      obtain ⟨alt, halt, hf⟩ := List.exists_of_findSome?_eq_some h
      split at hf
      · next hpre =>
        -- the matched make word sits inside the non-whitespace remainder
        have haltfacts := mmMakes_facts alt halt
        have hdwne : (x.drop 4).dropWhile isWS ≠ [] := by
          intro hh
          rw [← drop_length_takeWhile isWS (x.drop 4)] at hh
          rw [hh] at hpre
          cases alt with
          | nil => exact haltfacts.1 rfl
          | cons a as => exact Bool.noConfusion hpre
        have htake : (x.drop 4 ++ w).takeWhile isWS = (x.drop 4).takeWhile isWS :=
          takeWhile_append_not_all w hdwne
        have hdropw : (x.drop 4 ++ w).drop ((x.drop 4).takeWhile isWS).length =
            (x.drop 4).drop ((x.drop 4).takeWhile isWS).length ++ w :=
          List.drop_append_of_le_length (List.Sublist.length_le (List.takeWhile_sublist _))
        rw [htake, if_neg hws]
        cases hmm : mmAfterMake (((x.drop 4).drop ((x.drop 4).takeWhile isWS).length).drop
            alt.length) with
        | none => rw [hmm] at hf; cases hf
        | some g =>
          obtain ⟨g2, hg2⟩ := mmAfterMake_mono hw hmm
          have hpre2 : alt.isPrefixOf ((x.drop 4).drop ((x.drop 4).takeWhile isWS).length
              ++ w) = true := isPrefixOf_append w hpre
          have hdropalt : ((x.drop 4).drop ((x.drop 4).takeWhile isWS).length ++ w).drop
              alt.length =
              ((x.drop 4).drop ((x.drop 4).takeWhile isWS).length).drop alt.length ++ w :=
            List.drop_append_of_le_length (List.isPrefixOf_iff_prefix.mp hpre).length_le
          have hres : (if alt.isPrefixOf ((x.drop 4).drop ((x.drop 4).takeWhile isWS).length
              ++ w) then
              (mmAfterMake (((x.drop 4).drop ((x.drop 4).takeWhile isWS).length ++ w).drop
                alt.length)).map (fun g => (x.take 4, alt, g))
            else none) = some (x.take 4, alt, g2) := by
            rw [if_pos hpre2, hdropalt, hg2]
            rfl
          have hsome : (List.findSome? (fun alt =>
              if alt.isPrefixOf ((x.drop 4).drop ((x.drop 4).takeWhile isWS).length ++ w) then
                (mmAfterMake (((x.drop 4).drop ((x.drop 4).takeWhile isWS).length ++ w).drop
                  alt.length)).map (fun g => (x.take 4, alt, g))
              else none) mmMakes).isSome = true :=
            findSome?_isSome_of halt (by rw [hres]; rfl)
          obtain ⟨r2, hr2⟩ := Option.isSome_iff_exists.mp hsome
          rw [hdropw]
          exact ⟨r2, hr2⟩
      · cases hf

theorem mmSearch2Aux_ws_cons {c : Char} (hc : isWS c = true) (b : Bool) (t : Str) :
    mmSearch2Aux b (c :: t) = mmSearch2Aux false t := by
  cases b with
  | true =>
    show mmSearch2Aux (isWordChar c) t = mmSearch2Aux false t
    rw [isWS_not_wordChar hc]
  | false =>
    rw [show mmSearch2Aux false (c :: t) =
      (match mmTry2Here (c :: t) with
        | some r => some r
        | none => mmSearch2Aux (isWordChar c) t) from rfl]
    rw [mmTry2Here_ws_head hc]
    show mmSearch2Aux (isWordChar c) t = mmSearch2Aux false t
    rw [isWS_not_wordChar hc]

theorem mmSearch2Aux_ws_nil {w : Str} (hw : ∀ c ∈ w, isWS c = true) (b : Bool) :
    mmSearch2Aux b w = none := by
  induction w generalizing b with
  | nil => rfl
  | cons c t ih =>
    rw [mmSearch2Aux_ws_cons (hw c (List.mem_cons_self c t))]
    exact ih (fun d hd => hw d (List.mem_cons.mpr (Or.inr hd))) false

theorem mmSearch2Aux_ws_left {w : Str} (hw : ∀ c ∈ w, isWS c = true) (s : Str) :
    mmSearch2Aux false (w ++ s) = mmSearch2Aux false s := by
  induction w with
  | nil => rfl
  | cons c t ih =>
    rw [List.cons_append, mmSearch2Aux_ws_cons (hw c (List.mem_cons_self c t))]
    exact ih (fun d hd => hw d (List.mem_cons.mpr (Or.inr hd)))

theorem mmSearch2Aux_mono {w : Str} (hw : ∀ c ∈ w, isWS c = true) :
    ∀ (s : Str) (b : Bool), mmSearch2Aux b (s ++ w) = none → mmSearch2Aux b s = none := by
  intro s
  induction s with
  | nil => intro b h; rfl
  | cons c t ih =>
    intro b h
    rw [List.cons_append] at h
    cases b with
    | true =>
      have h2 : mmSearch2Aux (isWordChar c) (t ++ w) = none := h
      show mmSearch2Aux (isWordChar c) t = none
      exact ih (isWordChar c) h2
    | false =>
      cases hm : mmTry2Here (c :: (t ++ w)) with
      | some r =>
        rw [show mmSearch2Aux false (c :: (t ++ w)) =
          (match mmTry2Here (c :: (t ++ w)) with
            | some r => some r
            | none => mmSearch2Aux (isWordChar c) (t ++ w)) from rfl, hm] at h
        exact Option.noConfusion h
      | none =>
        rw [show mmSearch2Aux false (c :: (t ++ w)) =
          (match mmTry2Here (c :: (t ++ w)) with
            | some r => some r
            | none => mmSearch2Aux (isWordChar c) (t ++ w)) from rfl, hm] at h
        have h2 : mmSearch2Aux (isWordChar c) t = none := ih (isWordChar c) h
        cases hm2 : mmTry2Here (c :: t) with
        | some r =>
          obtain ⟨r2, hr2⟩ := mmTry2Here_mono hw hm2
          rw [List.cons_append] at hr2
          rw [hr2] at hm
          exact Option.noConfusion hm
        | none =>
          rw [show mmSearch2Aux false (c :: t) =
            (match mmTry2Here (c :: t) with
              | some r => some r
              | none => mmSearch2Aux (isWordChar c) t) from rfl, hm2]
          exact h2

theorem mmSearch1_strip_none {t : Str} (h : mmSearch1Aux false (lowerStr t) = none) :
    mmSearch1Aux false (lowerStr (stripWS t)) = none := by
  rw [lowerStr_stripWS]
  obtain ⟨w1, w2, h1, h2, hdec⟩ := stripWS_decomp (lowerStr t)
  rw [hdec] at h
  have h3 := mmSearch1Aux_mono h2 (w1 ++ stripWS (lowerStr t)) false h
  rw [mmSearch1Aux_ws_left h1] at h3
  exact h3

theorem mmSearch2_strip_none {t : Str} (h : mmSearch2Aux false (lowerStr t) = none) :
    mmSearch2Aux false (lowerStr (stripWS t)) = none := by
  rw [lowerStr_stripWS]
  obtain ⟨w1, w2, h1, h2, hdec⟩ := stripWS_decomp (lowerStr t)
  rw [hdec] at h
  have h3 := mmSearch2Aux_mono h2 (w1 ++ stripWS (lowerStr t)) false h
  rw [mmSearch2Aux_ws_left h1] at h3
  exact h3

theorem extract_make_model_strip_none {t : Str}
    (h1 : mmSearch1Aux false (lowerStr t) = none)
    (h2 : mmSearch2Aux false (lowerStr t) = none) :
    extract_make_model (stripWS t) = .ok (none, none) := by
  simp only [extract_make_model]
  rw [mmSearch1_strip_none h1, mmSearch2_strip_none h2]


/-!  C7 stage 5: inverting a successful make/model match, and the shape of a
successful `_extract_make_model` result. -/

theorem mmTryHere_inv {x : Str} {r : Str × Str} (h : mmTryHere x = some r) :
    ∃ alt g, r = (alt, g) ∧ alt ∈ mmMakes ∧ ∃ rem, mmAfterMake rem = some g := by
  obtain ⟨alt, halt, hf⟩ := List.exists_of_findSome?_eq_some h
  split at hf
  · next hpre =>
    cases hmm : mmAfterMake (x.drop alt.length) with
    | none => rw [hmm] at hf; cases hf
    | some g =>
      rw [hmm] at hf
      have h3 : ((alt, g) : Str × Str) = r :=
        Option.some.inj (show (some (alt, g) : Option (Str × Str)) = some r from hf)
      exact ⟨alt, g, h3.symm, halt, _, hmm⟩
  · cases hf

theorem mmSearch1Aux_inv : ∀ (s : Str) (b : Bool) (r : Str × Str),
    mmSearch1Aux b s = some r →
    ∃ alt g, r = (alt, g) ∧ alt ∈ mmMakes ∧ ∃ rem, mmAfterMake rem = some g := by
  intro s
  induction s with
  | nil => intro b r h; exact Option.noConfusion h
  | cons c t ih =>
    intro b r h
    cases b with
    | true => exact ih (isWordChar c) r h
    | false =>
      cases hm : mmTryHere (c :: t) with
      | none =>
        rw [show mmSearch1Aux false (c :: t) =
          (match mmTryHere (c :: t) with
            | some r => some r
            | none => mmSearch1Aux (isWordChar c) t) from rfl, hm] at h
        exact ih (isWordChar c) r h
      | some r0 =>
        rw [show mmSearch1Aux false (c :: t) =
          (match mmTryHere (c :: t) with
            | some r => some r
            | none => mmSearch1Aux (isWordChar c) t) from rfl, hm] at h
        have hr : r0 = r := Option.some.inj h
        subst hr
        exact mmTryHere_inv hm

theorem mmTry2Here_inv {x : Str} {r : Str × Str × Str} (h : mmTry2Here x = some r) :
    ∃ d alt g, r = (d, alt, g) ∧ pyIsdigit d = true ∧ alt ∈ mmMakes ∧
      ∃ rem, mmAfterMake rem = some g := by
  simp only [mmTry2Here] at h
  split at h
  case isFalse => cases h
  case isTrue hdig =>
    split at h
    · cases h
    · next hws =>
      obtain ⟨alt, halt, hf⟩ := List.exists_of_findSome?_eq_some h
      split at hf
      · next hpre =>
        cases hmm : mmAfterMake (((x.drop 4).drop ((x.drop 4).takeWhile isWS).length).drop
            alt.length) with
        | none => rw [hmm] at hf; cases hf
        | some g =>
          rw [hmm] at hf
          have h3 : ((x.take 4, alt, g) : Str × Str × Str) = r :=
            Option.some.inj (show (some (x.take 4, alt, g) : Option (Str × Str × Str)) =
              some r from hf)
          refine ⟨x.take 4, alt, g, h3.symm, ?_, halt, _, hmm⟩
          simp only [Bool.and_eq_true, decide_eq_true_eq] at hdig
          unfold pyIsdigit
          rw [hdig.2]
          have hne : x.take 4 ≠ [] := by
            intro hh
            have := hdig.1
            rw [hh] at this
            cases this
          simp [hne]
      · cases hf

theorem mmSearch2Aux_inv : ∀ (s : Str) (b : Bool) (r : Str × Str × Str),
    mmSearch2Aux b s = some r →
    ∃ d alt g, r = (d, alt, g) ∧ pyIsdigit d = true ∧ alt ∈ mmMakes ∧
      ∃ rem, mmAfterMake rem = some g := by
  intro s
  induction s with
  | nil => intro b r h; exact Option.noConfusion h
  | cons c t ih =>
    intro b r h
    cases b with
    | true => exact ih (isWordChar c) r h
    | false =>
      cases hm : mmTry2Here (c :: t) with
      | none =>
        rw [show mmSearch2Aux false (c :: t) =
          (match mmTry2Here (c :: t) with
            | some r => some r
            | none => mmSearch2Aux (isWordChar c) t) from rfl, hm] at h
        exact ih (isWordChar c) r h
      | some r0 =>
        rw [show mmSearch2Aux false (c :: t) =
          (match mmTry2Here (c :: t) with
            | some r => some r
            | none => mmSearch2Aux (isWordChar c) t) from rfl, hm] at h
        have hr : r0 = r := Option.some.inj h
        subst hr
        exact mmTry2Here_inv hm

theorem mmProcess_word {g0 g1 : Str} (g2 : Option Str) (hd : pyIsdigit g0 = false)
    (h0 : g0 ≠ []) (h1 : g1 ≠ []) :
    mmProcess g0 g1 g2 =
      match firstWord g1 with
      | some w => .ok (some (normalize_make g0), some (titleStr w))
      | none => .error .indexError := by
  cases hfw : firstWord g1 with
  | some w => simp [mmProcess, hd, h0, h1, hfw]
  | none => simp [mmProcess, hd, h0, h1, hfw]

theorem mmProcess_digit {g0 g1 g : Str} (hd : pyIsdigit g0 = true)
    (h1 : g1 ≠ []) (hg : g ≠ []) :
    mmProcess g0 g1 (some g) =
      match firstWord g with
      | some w => .ok (some (normalize_make g1), some (titleStr w))
      | none => .error .indexError := by
  cases hfw : firstWord g with
  | some w => simp [mmProcess, hd, h1, hg, hfw]
  | none => simp [mmProcess, hd, h1, hg, hfw]

theorem titleStr_ne_nil {w : Str} (hw : w ≠ []) : titleStr w ≠ [] := by
  intro hh
  have hlen := titleAux_length false w
  rw [show titleAux false w = titleStr w from rfl, hh] at hlen
  exact hw (List.eq_nil_of_length_eq_zero (by simpa using hlen.symm))

theorem make_table_stripped : ∀ p ∈ make_mappings, stripWS p.2 = p.2 := by decide

theorem stripWS_normalize_make {m : Str} (hm : stripWS m = m) :
    stripWS (normalize_make m) = normalize_make m := by
  by_cases hmn : m = []
  · subst hmn; rfl
  · cases hlk : List.lookup (stripWS (lowerStr m)) make_mappings with
    | some v =>
      have h1 : normalize_make m = v := by
        unfold normalize_make
        rw [if_neg hmn, hlk]
      obtain ⟨p, hp, hv⟩ := lookup_mem hlk
      rw [h1, ← hv]
      exact make_table_stripped p hp
    | none =>
      have h1 : normalize_make m = titleStr m := by
        unfold normalize_make
        rw [if_neg hmn, hlk]
      rw [h1]
      have hsn : SNeat m := by
        rw [← hm]
        exact sneat_stripWS m
      exact sneat_stripWS_eq_self (sneat_titleStr hsn)

theorem stripWS_normalize_model (m : Str) :
    stripWS (normalize_model m) = normalize_model m := by
  by_cases hmn : m = []
  · subst hmn; rfl
  · have h1 : normalize_model m = titleStr (collapseWS (stripWS m)) := by
      unfold normalize_model
      rw [if_neg hmn]
    rw [h1]
    exact sneat_stripWS_eq_self (sneat_titleStr (sneat_collapseWS (sneat_stripWS m)))

theorem extract_make_model_shape {t : Str} {r : Option Str × Option Str}
    (h : extract_make_model t = .ok r) :
    (mmSearch1Aux false (lowerStr t) = none ∧ mmSearch2Aux false (lowerStr t) = none ∧
      r = (none, none)) ∨
    (∃ mk md, r = (some mk, some md) ∧ mk ≠ [] ∧ md ≠ [] ∧
      stripWS mk = mk ∧ normalize_make mk = mk ∧
      stripWS md = md ∧ normalize_model md = md) := by
  simp only [extract_make_model] at h
  cases h1 : mmSearch1Aux false (lowerStr t) with
  | some p =>
    rw [h1] at h
    obtain ⟨alt, g, hpr, halt, rem, hmm⟩ := mmSearch1Aux_inv _ _ _ h1
    obtain ⟨haltne, haltnw, hpyd, hmkne⟩ := mmMakes_facts alt halt
    have hgne : g ≠ [] := mmAfterMake_some_ne_nil hmm
    rw [hpr] at h
    have h3 : mmProcess alt g none = .ok r := h
    rw [mmProcess_word none hpyd haltne hgne] at h3
    cases hfw : firstWord g with
    | none =>
      rw [hfw] at h3
      exact Except.noConfusion (show (Except.error PyErr.indexError :
        Except PyErr (Option Str × Option Str)) = .ok r from h3)
    | some wd =>
      rw [hfw] at h3
      obtain ⟨hwdne, hwdnw⟩ := firstWord_some hfw
      have hr : (some (normalize_make alt), some (titleStr wd)) = r :=
        Except.ok.inj (show (Except.ok (some (normalize_make alt), some (titleStr wd)) :
          Except PyErr (Option Str × Option Str)) = .ok r from h3)
      refine Or.inr ⟨normalize_make alt, titleStr wd, hr.symm, hmkne, titleStr_ne_nil hwdne,
        stripWS_normalize_make (stripWS_eq_self_of_all haltnw),
        normalize_make_stab alt,
        stripWS_eq_self_of_all (no_ws_titleStr hwdnw),
        normalize_model_title_word hwdne hwdnw⟩
  | none =>
    rw [h1] at h
    cases h2 : mmSearch2Aux false (lowerStr t) with
    | some p =>
      rw [h2] at h
      obtain ⟨d, alt, g, hpr, hpyd, halt, rem, hmm⟩ := mmSearch2Aux_inv _ _ _ h2
      obtain ⟨haltne, haltnw, -, hmkne⟩ := mmMakes_facts alt halt
      have hgne : g ≠ [] := mmAfterMake_some_ne_nil hmm
      rw [hpr] at h
      have h3 : mmProcess d alt (some g) = .ok r := h
      rw [mmProcess_digit hpyd haltne hgne] at h3
      cases hfw : firstWord g with
      | none =>
        rw [hfw] at h3
        exact Except.noConfusion (show (Except.error PyErr.indexError :
          Except PyErr (Option Str × Option Str)) = .ok r from h3)
      | some wd =>
        rw [hfw] at h3
        obtain ⟨hwdne, hwdnw⟩ := firstWord_some hfw
        have hr : (some (normalize_make alt), some (titleStr wd)) = r :=
          Except.ok.inj (show (Except.ok (some (normalize_make alt), some (titleStr wd)) :
            Except PyErr (Option Str × Option Str)) = .ok r from h3)
        refine Or.inr ⟨normalize_make alt, titleStr wd, hr.symm, hmkne, titleStr_ne_nil hwdne,
          stripWS_normalize_make (stripWS_eq_self_of_all haltnw),
          normalize_make_stab alt,
          stripWS_eq_self_of_all (no_ws_titleStr hwdnw),
          normalize_model_title_word hwdne hwdnw⟩
    | none =>
      rw [h2] at h
      have hr : ((none, none) : Option Str × Option Str) = r :=
        Except.ok.inj (show (Except.ok ((none, none) : Option Str × Option Str) :
          Except PyErr (Option Str × Option Str)) = .ok r from h)
      exact Or.inl ⟨rfl, rfl, hr.symm⟩


/-!  C7 stage 6: feeding a normalized lot back into `normalize_lot`.  `toRaw`
is the raw dictionary a normalized lot presents on a second pass (each field
read back with `dict.get`), and `pass2Base` is the record the second pass
builds before raw-text extraction. -/

def toRaw (n : NormalizedLot) : RawLot :=
  { source := Value.vStr n.source
    source_lot_id := Value.vStr n.source_lot_id
    lot_url := Value.vStr n.lot_url
    sale_date_utc :=
      match n.sale_date_utc with
      | some s => Value.vStr s
      | none => Value.vNone
    sale_local_time := Value.vStr n.sale_local_time
    tz_name := n.tz_name
    location_name := Value.vStr n.location_name
    location_city := Value.vStr n.location_city
    location_state := Value.vStr n.location_state
    vin := Value.vStr n.vin
    year :=
      match n.year with
      | some k => Value.vInt k
      | none => Value.vNone
    make := Value.vStr n.make
    model := Value.vStr n.model
    trim := Value.vStr n.trim
    drivetrain := Value.vStr n.drivetrain
    odometer :=
      match n.odometer with
      | some k => Value.vInt k
      | none => Value.vNone
    title_status := Value.vStr n.title_status
    condition_notes := Value.vStr n.condition_notes
    raw_text := Value.vStr n.raw_text }

def pass2Base (pd : Str → Option Str) (n : NormalizedLot) : NormalizedLot :=
  { source := stripWS n.source
    source_lot_id := stripWS n.source_lot_id
    lot_url := stripWS n.lot_url
    sale_date_utc := normalize_datetime pd (getD ((toRaw n).sale_date_utc) Value.vNone)
    sale_local_time := stripWS n.sale_local_time
    tz_name := getD n.tz_name (Value.vStr ("America/New_York".toList))
    location_name := stripWS n.location_name
    location_city := stripWS n.location_city
    location_state := stripWS n.location_state
    vin := normalize_vin (stripWS n.vin)
    year := normalize_year (getD ((toRaw n).year) Value.vNone)
    make := normalize_make (stripWS n.make)
    model := normalize_model (stripWS n.model)
    trim := stripWS n.trim
    drivetrain := stripWS n.drivetrain
    odometer := normalize_odometer (getD ((toRaw n).odometer) Value.vNone)
    title_status := normalize_title_status (Value.vStr n.title_status)
      (Value.vStr n.raw_text)
    condition_notes := stripWS n.condition_notes
    raw_text := stripWS n.raw_text }

theorem normalize_lot_toRaw (pd : Str → Option Str) (n : NormalizedLot) :
    normalize_lot pd (toRaw n) =
      if pyTruthy (Value.vStr n.raw_text) then
        extract_from_raw_text (pass2Base pd n) n.raw_text
      else .ok (pass2Base pd n) := by
  rfl

theorem nlot_ext {a b : NormalizedLot}
    (h1 : a.source = b.source) (h2 : a.source_lot_id = b.source_lot_id)
    (h3 : a.lot_url = b.lot_url) (h4 : a.sale_date_utc = b.sale_date_utc)
    (h5 : a.sale_local_time = b.sale_local_time) (h6 : a.tz_name = b.tz_name)
    (h7 : a.location_name = b.location_name) (h8 : a.location_city = b.location_city)
    (h9 : a.location_state = b.location_state) (h10 : a.vin = b.vin)
    (h11 : a.year = b.year) (h12 : a.make = b.make) (h13 : a.model = b.model)
    (h14 : a.trim = b.trim) (h15 : a.drivetrain = b.drivetrain)
    (h16 : a.odometer = b.odometer) (h17 : a.title_status = b.title_status)
    (h18 : a.condition_notes = b.condition_notes) (h19 : a.raw_text = b.raw_text) :
    a = b := by
  cases a
  cases b
  simp only at h1 h2 h3 h4 h5 h6 h7 h8 h9 h10 h11 h12 h13 h14 h15 h16 h17 h18 h19
  subst h1 h2 h3 h4 h5 h6 h7 h8 h9 h10 h11 h12 h13 h14 h15 h16 h17 h18 h19
  rfl

theorem extractVin_shape (l : NormalizedLot) (t : Str) :
    ∃ v, extractVin l t = { l with vin := v } ∧
      ((v = l.vin ∧ (l.vin ≠ [] ∨ vinSearch t = none)) ∨
        (l.vin = [] ∧ vinSearch t = some v)) := by
  unfold extractVin
  split
  · next hv =>
    cases hvs : vinSearch t with
    | some v => exact ⟨v, rfl, Or.inr ⟨hv, rfl⟩⟩
    | none => exact ⟨l.vin, rfl, Or.inl ⟨rfl, Or.inr rfl⟩⟩
  · next hv => exact ⟨l.vin, rfl, Or.inl ⟨rfl, Or.inl hv⟩⟩

theorem extractYear_shape (l : NormalizedLot) (t : Str) :
    ∃ y, extractYear l t = { l with year := y } ∧
      ((y = l.year ∧ ((l.year ≠ none ∧ l.year ≠ some 0) ∨ (yearFindall t).getLast? = none)) ∨
        ((l.year = none ∨ l.year = some 0) ∧
          ∃ g, (yearFindall t).getLast? = some g ∧ y = some (digitsToInt g))) := by
  unfold extractYear
  split
  · next hy =>
    cases hg : (yearFindall t).getLast? with
    | some g =>
      refine ⟨some (digitsToInt g), rfl, Or.inr ⟨?_, g, rfl, rfl⟩⟩
      cases hly : l.year with
      | none => exact Or.inl rfl
      | some k =>
        rw [hly] at hy
        have hk : k = 0 := of_decide_eq_true hy
        exact Or.inr (by rw [hk])
    | none => exact ⟨l.year, rfl, Or.inl ⟨rfl, Or.inr rfl⟩⟩
  · next hy =>
    refine ⟨l.year, rfl, Or.inl ⟨rfl, Or.inl ⟨?_, ?_⟩⟩⟩
    · intro hh
      rw [hh] at hy
      exact hy rfl
    · intro hh
      rw [hh] at hy
      exact hy rfl

def mmFill1 (l : NormalizedLot) (m : Option Str) : NormalizedLot :=
  match m with
  | some m => if m ≠ [] && l.make = [] then { l with make := m } else l
  | none => l

def mmFill2 (l : NormalizedLot) (m : Option Str) : NormalizedLot :=
  match m with
  | some m => if m ≠ [] && l.model = [] then { l with model := m } else l
  | none => l

theorem extractMM_eq (l : NormalizedLot) (t : Str) :
    extractMM l t =
      if l.make = [] || l.model = [] then
        match extract_make_model t with
        | .error e => .error e
        | .ok mm => .ok (mmFill2 (mmFill1 l mm.1) mm.2)
      else .ok l := by
  unfold extractMM
  split
  · cases extract_make_model t with
    | error e => rfl
    | ok mm => rfl
  · rfl

theorem mmFill1_shape (l : NormalizedLot) (m : Option Str) :
    ∃ mk, mmFill1 l m = { l with make := mk } ∧
      ((mk = l.make ∧ (l.make ≠ [] ∨ m = none ∨ m = some [])) ∨
        (l.make = [] ∧ m = some mk ∧ mk ≠ [])) := by
  cases m with
  | none => exact ⟨l.make, rfl, Or.inl ⟨rfl, Or.inr (Or.inl rfl)⟩⟩
  | some v =>
    rw [show mmFill1 l (some v) =
      if v ≠ [] && l.make = [] then { l with make := v } else l from rfl]
    by_cases hc : (v ≠ [] && l.make = []) = true
    · rw [if_pos hc]
      simp only [Bool.and_eq_true, decide_eq_true_eq] at hc
      exact ⟨v, rfl, Or.inr ⟨hc.2, rfl, hc.1⟩⟩
    · rw [if_neg hc]
      refine ⟨l.make, rfl, Or.inl ⟨rfl, ?_⟩⟩
      by_cases hv : v = []
      · exact Or.inr (Or.inr (by rw [hv]))
      · refine Or.inl ?_
        intro hh
        exact hc (by rw [decide_eq_true hv, decide_eq_true hh]; rfl)

theorem mmFill2_shape (l : NormalizedLot) (m : Option Str) :
    ∃ md, mmFill2 l m = { l with model := md } ∧
      ((md = l.model ∧ (l.model ≠ [] ∨ m = none ∨ m = some [])) ∨
        (l.model = [] ∧ m = some md ∧ md ≠ [])) := by
  cases m with
  | none => exact ⟨l.model, rfl, Or.inl ⟨rfl, Or.inr (Or.inl rfl)⟩⟩
  | some v =>
    rw [show mmFill2 l (some v) =
      if v ≠ [] && l.model = [] then { l with model := v } else l from rfl]
    by_cases hc : (v ≠ [] && l.model = []) = true
    · rw [if_pos hc]
      simp only [Bool.and_eq_true, decide_eq_true_eq] at hc
      exact ⟨v, rfl, Or.inr ⟨hc.2, rfl, hc.1⟩⟩
    · rw [if_neg hc]
      refine ⟨l.model, rfl, Or.inl ⟨rfl, ?_⟩⟩
      by_cases hv : v = []
      · exact Or.inr (Or.inr (by rw [hv]))
      · refine Or.inl ?_
        intro hh
        exact hc (by rw [decide_eq_true hv, decide_eq_true hh]; rfl)

theorem extractMM_shape {l : NormalizedLot} {t : Str} {n : NormalizedLot}
    (h : extractMM l t = .ok n) :
    (n = l ∧ ¬(l.make = [] ∨ l.model = [])) ∨
    (∃ r, extract_make_model t = .ok r ∧ (l.make = [] ∨ l.model = []) ∧
      ∃ mk md, n = { l with make := mk, model := md } ∧
        ((mk = l.make ∧ (l.make ≠ [] ∨ r.1 = none ∨ r.1 = some [])) ∨
          (l.make = [] ∧ r.1 = some mk ∧ mk ≠ [])) ∧
        ((md = l.model ∧ (l.model ≠ [] ∨ r.2 = none ∨ r.2 = some [])) ∨
          (l.model = [] ∧ r.2 = some md ∧ md ≠ []))) := by
  rw [extractMM_eq] at h
  by_cases hcond : l.make = [] ∨ l.model = []
  · rw [if_pos (by simpa using hcond)] at h
    cases hmm : extract_make_model t with
    | error e =>
      rw [hmm] at h
      exact Except.noConfusion h
    | ok mm =>
      rw [hmm] at h
      have hn : mmFill2 (mmFill1 l mm.1) mm.2 = n := Except.ok.inj h
      obtain ⟨mk, hf1, hmk⟩ := mmFill1_shape l mm.1
      obtain ⟨md, hf2, hmd⟩ := mmFill2_shape { l with make := mk } mm.2
      rw [hf1, hf2] at hn
      refine Or.inr ⟨mm, rfl, hcond, mk, md, hn.symm, hmk, hmd⟩
  · rw [if_neg (by simpa using hcond)] at h
    exact Or.inl ⟨(Except.ok.inj h).symm, hcond⟩


/-!  C7 stage 7: stability of the second pass.  `c7_finish` packages the
facts about a first-pass output that make the second pass reproduce it. -/

theorem isVinUpper_no_ws {c : Char} (h : isVinUpper c = true) : isWS c = false := by
  have := (isVinUpper_toNat c).mp h
  rw [← Bool.not_eq_true, isWS_toNat]
  omega

theorem normalize_vin_stab (s : Str) :
    normalize_vin (stripWS (normalize_vin s)) = normalize_vin s := by
  rcases normalize_vin_shape s with h | ⟨hlen, hall⟩
  · rw [h]; rfl
  · have hnw : ∀ c ∈ normalize_vin s, isWS c = false :=
      fun c hc => isVinUpper_no_ws (hall c hc)
    rw [stripWS_eq_self_of_all hnw]
    exact normalize_vin_of_upper hall hlen

theorem normalize_make_stab2 {m : Str} (hm : stripWS m = m) :
    normalize_make (stripWS (normalize_make m)) = normalize_make m := by
  rw [stripWS_normalize_make hm]
  exact normalize_make_stab m

theorem normalize_model_stab2 (m : Str) :
    normalize_model (stripWS (normalize_model m)) = normalize_model m := by
  rw [stripWS_normalize_model m]
  exact normalize_model_stab m

theorem normalize_year_int_in {k : Int} (h1 : 1900 ≤ k) (h2 : k ≤ 2030) :
    normalize_year (Value.vInt k) = some k := by
  simp only [normalize_year]
  rw [if_pos (by rw [decide_eq_true h1, decide_eq_true h2]; rfl)]

theorem normalize_year_int_out {k : Int} (h : ¬(1900 ≤ k ∧ k ≤ 2030)) :
    normalize_year (Value.vInt k) = none := by
  simp only [normalize_year]
  rw [if_neg (show ¬((decide (1900 ≤ k) && decide (k ≤ 2030)) = true) from by
    intro hh
    simp only [Bool.and_eq_true, decide_eq_true_eq] at hh
    exact h hh)]

theorem normalize_odometer_int_in {k : Int} (h1 : 0 ≤ k) (h2 : k ≤ 1000000) :
    normalize_odometer (Value.vInt k) = some k := by
  simp only [normalize_odometer]
  rw [if_pos (by rw [decide_eq_true h1, decide_eq_true h2]; rfl)]

theorem yearFindAux_groups : ∀ (s : Str) (b : Bool) (g : Str), g ∈ yearFindAux b s →
    g = ['1', '9'] ∨ g = ['2', '0'] := by
  have key : ∀ (m : Nat) (s : Str), s.length ≤ m → ∀ b g, g ∈ yearFindAux b s →
      g = ['1', '9'] ∨ g = ['2', '0'] := by
    intro m
    induction m with
    | zero =>
      intro s hs b g hg
      have h0 : s = [] := List.eq_nil_of_length_eq_zero (Nat.le_zero.mp hs)
      subst h0
      cases hg
    | succ m ihm =>
      intro s hs b g hg
      cases s with
      | nil => cases hg
      | cons c t1 =>
        cases t1 with
        | nil =>
          rw [show yearFindAux b [c] = [] from rfl] at hg
          cases hg
        | cons d t2 =>
          cases t2 with
          | nil =>
            rw [show yearFindAux b [c, d] = [] from rfl] at hg
            cases hg
          | cons e t3 =>
            cases t3 with
            | nil =>
              rw [show yearFindAux b [c, d, e] = [] from rfl] at hg
              cases hg
            | cons f r =>
              rw [yearFindAux_quad] at hg
              have hlen : r.length + 4 ≤ m + 1 := by simpa using hs
              split at hg
              · next hcond =>
                rcases List.mem_cons.mp hg with rfl | hmem
                · simp only [Bool.and_eq_true, Bool.or_eq_true, decide_eq_true_eq] at hcond
                  obtain ⟨⟨⟨⟨-, hA⟩, -⟩, -⟩, -⟩ := hcond
                  rcases hA with ⟨h1, h2⟩ | ⟨h1, h2⟩
                  · subst h1; subst h2; exact Or.inl rfl
                  · subst h1; subst h2; exact Or.inr rfl
                · exact ihm r (by omega) true g hmem
              · exact ihm (d :: e :: f :: r) (by simp; omega) (isWordChar c) g hg
  intro s b g hg
  exact key s.length s (le_refl _) b g hg

theorem lowerStr_ws {s : Str} (h : ∀ c ∈ s, isWS c = true) :
    ∀ c ∈ lowerStr s, isWS c = true := by
  intro c hc
  obtain ⟨d, hd, hcd⟩ := List.mem_map.mp hc
  rw [← hcd, isWS_toLower]
  exact h d hd

def yearFalsy (y : Option Int) : Bool :=
  match y with
  | none => true
  | some n => n = 0

theorem extractYear_eq (l : NormalizedLot) (t : Str) :
    extractYear l t =
      if yearFalsy l.year then
        match (yearFindall t).getLast? with
        | some g => { l with year := some (digitsToInt g) }
        | none => l
      else l := rfl

theorem toRaw_year_roundtrip {raw : RawLot} {b n : NormalizedLot}
    (hby : b.year = normalize_year (getD raw.year Value.vNone)) (hn : n.year = b.year) :
    normalize_year (getD ((toRaw n).year) Value.vNone) = n.year ∧
      (∀ k, n.year = some k → ¬k = 0) := by
  cases hy : n.year with
  | none =>
    refine ⟨?_, ?_⟩
    · rw [show (toRaw n).year = (match n.year with
        | some k => Value.vInt k
        | none => Value.vNone) from rfl, hy]
      rfl
    · intro k hk
      exact absurd hk (by simp)
  | some k =>
    have hmem := normalize_year_mem (show normalize_year (getD raw.year Value.vNone) = some k
      from by rw [← hby, ← hn]; exact hy)
    refine ⟨?_, ?_⟩
    · rw [show (toRaw n).year = (match n.year with
        | some k => Value.vInt k
        | none => Value.vNone) from rfl, hy]
      show normalize_year (Value.vInt k) = some k
      exact normalize_year_int_in hmem.1 hmem.2
    · intro k2 hk2
      injection hk2 with hkk
      subst hkk
      omega

theorem pass2Base_fields {pd : Str → Option Str} {raw : RawLot} {b n : NormalizedLot}
    (hpd : ∀ s t, pd s = some t → t ≠ [] ∧ pd t = some t)
    (hsrc : getS raw.source = .ok b.source)
    (hslid : b.source_lot_id = stripWS (pyStr (getD raw.source_lot_id (Value.vStr []))))
    (hurl : getS raw.lot_url = .ok b.lot_url)
    (hsdu : b.sale_date_utc = normalize_datetime pd (getD raw.sale_date_utc Value.vNone))
    (hslt : getS raw.sale_local_time = .ok b.sale_local_time)
    (htz : b.tz_name = getD raw.tz_name (Value.vStr ("America/New_York".toList)))
    (hln : getS raw.location_name = .ok b.location_name)
    (hlc : getS raw.location_city = .ok b.location_city)
    (hls : getS raw.location_state = .ok b.location_state)
    (htrim : getS raw.trim = .ok b.trim)
    (hdrv : getS raw.drivetrain = .ok b.drivetrain)
    (hbodo : b.odometer = normalize_odometer (getD raw.odometer Value.vNone))
    (hcn : getS raw.condition_notes = .ok b.condition_notes)
    (hrt : getS raw.raw_text = .ok b.raw_text)
    (hns : n.source = b.source) (hnsl : n.source_lot_id = b.source_lot_id)
    (hnu : n.lot_url = b.lot_url) (hnsd : n.sale_date_utc = b.sale_date_utc)
    (hnst : n.sale_local_time = b.sale_local_time) (hntz : n.tz_name = b.tz_name)
    (hnln : n.location_name = b.location_name) (hnlc : n.location_city = b.location_city)
    (hnls : n.location_state = b.location_state) (hntr : n.trim = b.trim)
    (hndr : n.drivetrain = b.drivetrain) (hnod : n.odometer = b.odometer)
    (hncn : n.condition_notes = b.condition_notes) (hnrt : n.raw_text = b.raw_text)
    (hts : normalize_title_status (Value.vStr n.title_status) (Value.vStr n.raw_text) =
      n.title_status)
    (hv : normalize_vin (stripWS n.vin) = n.vin)
    (hm : normalize_make (stripWS n.make) = n.make)
    (hmo : normalize_model (stripWS n.model) = n.model) :
    pass2Base pd n = { n with year := normalize_year (getD ((toRaw n).year) Value.vNone) } := by
  refine nlot_ext ?_ ?_ ?_ ?_ ?_ ?_ ?_ ?_ ?_ ?_ ?_ ?_ ?_ ?_ ?_ ?_ ?_ ?_ ?_
  · show stripWS n.source = n.source
    rw [hns]
    exact getS_stripped hsrc
  · show stripWS n.source_lot_id = n.source_lot_id
    rw [hnsl, hslid]
    exact stripWS_idem _
  · show stripWS n.lot_url = n.lot_url
    rw [hnu]
    exact getS_stripped hurl
  · show normalize_datetime pd (getD ((toRaw n).sale_date_utc) Value.vNone) = n.sale_date_utc
    cases hsd : n.sale_date_utc with
    | none =>
      rw [show (toRaw n).sale_date_utc = (match n.sale_date_utc with
        | some s => Value.vStr s
        | none => Value.vNone) from rfl, hsd]
      rfl
    | some s0 =>
      rw [show (toRaw n).sale_date_utc = (match n.sale_date_utc with
        | some s => Value.vStr s
        | none => Value.vNone) from rfl, hsd]
      show normalize_datetime pd (Value.vStr s0) = some s0
      have hprev : normalize_datetime pd (getD raw.sale_date_utc Value.vNone) = some s0 := by
        rw [← hsdu, ← hnsd]
        exact hsd
      exact normalize_datetime_roundtrip hpd hprev
  · show stripWS n.sale_local_time = n.sale_local_time
    rw [hnst]
    exact getS_stripped hslt
  · show getD n.tz_name (Value.vStr ("America/New_York".toList)) = n.tz_name
    rw [hntz, htz]
    exact getD_getD raw.tz_name _
  · show stripWS n.location_name = n.location_name
    rw [hnln]
    exact getS_stripped hln
  · show stripWS n.location_city = n.location_city
    rw [hnlc]
    exact getS_stripped hlc
  · show stripWS n.location_state = n.location_state
    rw [hnls]
    exact getS_stripped hls
  · exact hv
  · rfl
  · exact hm
  · exact hmo
  · show stripWS n.trim = n.trim
    rw [hntr]
    exact getS_stripped htrim
  · show stripWS n.drivetrain = n.drivetrain
    rw [hndr]
    exact getS_stripped hdrv
  · show normalize_odometer (getD ((toRaw n).odometer) Value.vNone) = n.odometer
    cases hod : n.odometer with
    | none =>
      rw [show (toRaw n).odometer = (match n.odometer with
        | some k => Value.vInt k
        | none => Value.vNone) from rfl, hod]
      rfl
    | some k =>
      rw [show (toRaw n).odometer = (match n.odometer with
        | some k => Value.vInt k
        | none => Value.vNone) from rfl, hod]
      show normalize_odometer (Value.vInt k) = some k
      have hk := normalize_odometer_mem (show normalize_odometer
          (getD raw.odometer Value.vNone) = some k from by rw [← hbodo, ← hnod]; exact hod)
      exact normalize_odometer_int_in hk.1 hk.2
  · exact hts
  · show stripWS n.condition_notes = n.condition_notes
    rw [hncn]
    exact getS_stripped hcn
  · show stripWS n.raw_text = n.raw_text
    rw [hnrt]
    exact getS_stripped hrt

theorem c7_finish {pd : Str → Option Str} {raw : RawLot} {b n : NormalizedLot} {s : Str}
    (hpd : ∀ s t, pd s = some t → t ≠ [] ∧ pd t = some t)
    (hsrc : getS raw.source = .ok b.source)
    (hslid : b.source_lot_id = stripWS (pyStr (getD raw.source_lot_id (Value.vStr []))))
    (hurl : getS raw.lot_url = .ok b.lot_url)
    (hsdu : b.sale_date_utc = normalize_datetime pd (getD raw.sale_date_utc Value.vNone))
    (hslt : getS raw.sale_local_time = .ok b.sale_local_time)
    (htz : b.tz_name = getD raw.tz_name (Value.vStr ("America/New_York".toList)))
    (hln : getS raw.location_name = .ok b.location_name)
    (hlc : getS raw.location_city = .ok b.location_city)
    (hls : getS raw.location_state = .ok b.location_state)
    (htrim : getS raw.trim = .ok b.trim)
    (hdrv : getS raw.drivetrain = .ok b.drivetrain)
    (hbodo : b.odometer = normalize_odometer (getD raw.odometer Value.vNone))
    (hcn : getS raw.condition_notes = .ok b.condition_notes)
    (hrt : getS raw.raw_text = .ok b.raw_text)
    (hbrt : b.raw_text = stripWS s)
    (hns : n.source = b.source) (hnsl : n.source_lot_id = b.source_lot_id)
    (hnu : n.lot_url = b.lot_url) (hnsd : n.sale_date_utc = b.sale_date_utc)
    (hnst : n.sale_local_time = b.sale_local_time) (hntz : n.tz_name = b.tz_name)
    (hnln : n.location_name = b.location_name) (hnlc : n.location_city = b.location_city)
    (hnls : n.location_state = b.location_state) (hntr : n.trim = b.trim)
    (hndr : n.drivetrain = b.drivetrain) (hnod : n.odometer = b.odometer)
    (hncn : n.condition_notes = b.condition_notes) (hnrt : n.raw_text = b.raw_text)
    (hts : normalize_title_status (Value.vStr n.title_status) (Value.vStr n.raw_text) =
      n.title_status)
    (hv : normalize_vin (stripWS n.vin) = n.vin)
    (hm : normalize_make (stripWS n.make) = n.make)
    (hmo : normalize_model (stripWS n.model) = n.model)
    (hvinP2 : n.vin = [] → vinSearch s = none)
    (hyearP2 : (normalize_year (getD ((toRaw n).year) Value.vNone) = n.year ∧
        (∀ k, n.year = some k → ¬k = 0) ∧
        (n.year = none → (yearFindall s).getLast? = none)) ∨
      (normalize_year (getD ((toRaw n).year) Value.vNone) = none ∧
        ∃ g, (yearFindall s).getLast? = some g ∧ n.year = some (digitsToInt g)))
    (hmmP2 : (n.make ≠ [] ∧ n.model ≠ []) ∨
      (mmSearch1Aux false (lowerStr s) = none ∧ mmSearch2Aux false (lowerStr s) = none)) :
    normalize_lot pd (toRaw n) = .ok n := by
  have hP2 := pass2Base_fields hpd hsrc hslid hurl hsdu hslt htz hln hlc hls htrim hdrv
    hbodo hcn hrt hns hnsl hnu hnsd hnst hntz hnln hnlc hnls hntr hndr hnod hncn hnrt
    hts hv hm hmo
  rw [normalize_lot_toRaw]
  by_cases hcore : n.raw_text = []
  · rw [if_neg (show ¬(pyTruthy (Value.vStr n.raw_text) = true) from by
      rw [hcore]; decide)]
    have hY : normalize_year (getD ((toRaw n).year) Value.vNone) = n.year := by
      rcases hyearP2 with ⟨h1, -, -⟩ | ⟨h1, g, hg, hgy⟩
      · exact h1
      · have hsws : ∀ c ∈ s, isWS c = true :=
          stripWS_eq_nil (by rw [← hbrt, ← hnrt]; exact hcore)
        rw [show yearFindall s = yearFindAux false s from rfl,
          yearFindAux_ws_nil hsws] at hg
        cases hg
    rw [hP2, hY]
  · rw [if_pos (show pyTruthy (Value.vStr n.raw_text) = true from decide_eq_true hcore)]
    rw [hP2]
    -- shared second-pass facts
    have hEVgen : ∀ m : NormalizedLot, m.vin = n.vin → extractVin m n.raw_text = m := by
      intro m hmv
      unfold extractVin
      by_cases hvn : n.vin = []
      · rw [if_pos (by rw [hmv]; exact hvn)]
        have hvs : vinSearch n.raw_text = none := by
          rw [hnrt, hbrt, vinSearch_stripWS]
          exact hvinP2 hvn
        rw [hvs]
      · rw [if_neg (by rw [hmv]; exact hvn)]
    have hEMM : extractMM n n.raw_text = .ok n := by
      rcases hmmP2 with ⟨hmk, hmd⟩ | ⟨hs1, hs2⟩
      · rw [extractMM_eq, if_neg (show ¬((n.make = [] || n.model = []) = true) from by
          simp [hmk, hmd])]
      · rw [extractMM_eq]
        have hmmres : extract_make_model n.raw_text = .ok (none, none) := by
          rw [hnrt, hbrt]
          exact extract_make_model_strip_none hs1 hs2
        rw [hmmres]
        split <;> rfl
    rcases hyearP2 with ⟨hY, hknz, hnone⟩ | ⟨hYnone, g, hglast, hgy⟩
    · rw [hY]
      show extractMM (extractYear (extractVin n n.raw_text) n.raw_text) n.raw_text = .ok n
      rw [hEVgen n rfl]
      have hEY : extractYear n n.raw_text = n := by
        rw [extractYear_eq]
        cases hy : n.year with
        | some k =>
          rw [if_neg (show ¬(yearFalsy (some k) = true) from by
            rw [show yearFalsy (some k) = decide (k = 0) from rfl]
            simp [hknz k hy])]
        | none =>
          rw [if_pos (show yearFalsy (none : Option Int) = true from rfl)]
          have hgl : (yearFindall n.raw_text).getLast? = none := by
            rw [hnrt, hbrt, yearFindall_stripWS]
            exact hnone hy
          rw [hgl]
      rw [hEY, hEMM]
    · rw [hYnone]
      show extractMM (extractYear (extractVin { n with year := none } n.raw_text)
        n.raw_text) n.raw_text = .ok n
      rw [hEVgen { n with year := none } rfl]
      have hEY : extractYear { n with year := none } n.raw_text = n := by
        rw [extractYear_eq]
        rw [if_pos (show yearFalsy (({ n with year := none } :
          NormalizedLot).year) = true from rfl)]
        have hgl : (yearFindall n.raw_text).getLast? = some g := by
          rw [hnrt, hbrt, yearFindall_stripWS]
          exact hglast
        rw [hgl]
        show ({ n with year := some (digitsToInt g) } : NormalizedLot) = n
        rw [← hgy]
      rw [hEY, hEMM]

/-!  C7: the idempotence claim itself. -/

/-- C7 counterexamples: `normalize_lot` is not idempotent.  A lot whose
title_status normalizes to "parts_only" re-normalizes to "unknown" (the
underscore breaks the `parts\s+only` pattern), and a lowercase
fallback-extracted vin is uppercased and length-checked on the second pass. -/
theorem c7_normalize_not_idempotent :
    ((normalize_lot (fun _ => none) { title_status := Value.vStr ("parts only".toList) }).bind
        (fun m => normalize_lot (fun _ => none) (toRaw m)) ≠
      normalize_lot (fun _ => none) { title_status := Value.vStr ("parts only".toList) }) ∧
    ((normalize_lot (fun _ => none)
          { raw_text := Value.vStr ("vin bcdefghjkmnprstuv here".toList) }).bind
        (fun m => normalize_lot (fun _ => none) (toRaw m)) ≠
      normalize_lot (fun _ => none)
        { raw_text := Value.vStr ("vin bcdefghjkmnprstuv here".toList) }) :=
  ⟨by decide, by decide⟩

/-- C7 (amended): `normalize_lot` is idempotent on every successful output
whose vin is already upper-case-fixed and whose title_status survives
re-classification, provided the datetime parser is a retraction (parsing an
isoformat string it produced returns that same non-empty string).  The two
hypotheses are exactly the failure modes exhibited by the counterexamples:
a lowercase fallback vin, and a title_status label that the four patterns
classify differently from the raw text that produced it. -/
theorem c7_normalize_idempotent (pd : Str → Option Str) (raw : RawLot) (n : NormalizedLot)
    (hpd : ∀ s t, pd s = some t → t ≠ [] ∧ pd t = some t)
    (h : normalize_lot pd raw = .ok n)
    (hvin : ∀ c ∈ n.vin, c.toUpper = c)
    (hts : normalize_title_status (Value.vStr n.title_status) (Value.vStr n.raw_text) =
      n.title_status) :
    normalize_lot pd (toRaw n) = .ok n := by
  obtain ⟨b, hsrc, hslid, hurl, hsdu, hslt, htz, hln, hlc, hls, ⟨vin0, hvin0, hbvin⟩, hby,
    ⟨make0, hmake0, hbmake⟩, ⟨model0, hmodel0, hbmodel⟩, htrim, hdrv, hbodo, hbts, hcn, hrt,
    hext⟩ := normalize_lot_ok_cases h
  rcases hext with ⟨s, hraws, hsne, hex⟩ | ⟨hnb, hrabs⟩
  · -- the first pass ran the raw-text extraction on s
    have hbrt : b.raw_text = stripWS s := by
      rw [hraws] at hrt
      exact (Except.ok.inj (show (Except.ok (stripWS s) : Except PyErr Str) =
        .ok b.raw_text from hrt)).symm
    unfold extract_from_raw_text at hex
    obtain ⟨v1, hev, hvcase⟩ := extractVin_shape b s
    rw [hev] at hex
    obtain ⟨y1, hey, hycase⟩ := extractYear_shape { b with vin := v1 } s
    rw [hey] at hex
    have hexmm : extractMM { b with vin := v1, year := y1 } s = .ok n := hex
    have hvc2 : (v1 = b.vin ∧ (b.vin ≠ [] ∨ vinSearch s = none)) ∨
        (b.vin = [] ∧ vinSearch s = some v1) := hvcase
    have hyc2 : (y1 = b.year ∧ ((b.year ≠ none ∧ b.year ≠ some 0) ∨
          (yearFindall s).getLast? = none)) ∨
        ((b.year = none ∨ b.year = some 0) ∧
          ∃ g, (yearFindall s).getLast? = some g ∧ y1 = some (digitsToInt g)) := hycase
    have hmm3 : ∃ mk md, n = { b with vin := v1, year := y1, make := mk, model := md } ∧
        ((mk = b.make ∧ md = b.model ∧ b.make ≠ [] ∧ b.model ≠ []) ∨
         (mk = b.make ∧ md = b.model ∧
           mmSearch1Aux false (lowerStr s) = none ∧ mmSearch2Aux false (lowerStr s) = none) ∨
         (mk ≠ [] ∧ md ≠ [] ∧ stripWS mk = mk ∧ normalize_make mk = mk ∧
           stripWS md = md ∧ normalize_model md = md)) := by
      rcases extractMM_shape hexmm with ⟨hn0, hcondF⟩ |
        ⟨r, hrmm, hcondT, mk, md, hn0, hmkc, hmdc⟩
      · obtain ⟨hbmk, hbmd⟩ := not_or.mp hcondF
        exact ⟨b.make, b.model, hn0, Or.inl ⟨rfl, rfl, hbmk, hbmd⟩⟩
      · rcases extract_make_model_shape hrmm with ⟨hs1, hs2, hrnn⟩ |
          ⟨mk0, md0, hr12, hmk0ne, hmd0ne, hmk0s, hmk0n, hmd0s, hmd0n⟩
        · have hmkb : mk = b.make := by
            rcases hmkc with ⟨he, -⟩ | ⟨-, hr1, -⟩
            · exact he
            · rw [hrnn] at hr1
              exact absurd hr1 (by simp)
          have hmdb : md = b.model := by
            rcases hmdc with ⟨he, -⟩ | ⟨-, hr2, -⟩
            · exact he
            · rw [hrnn] at hr2
              exact absurd hr2 (by simp)
          exact ⟨mk, md, hn0, Or.inr (Or.inl ⟨hmkb, hmdb, hs1, hs2⟩)⟩
        · have hmkres : mk ≠ [] ∧ stripWS mk = mk ∧ normalize_make mk = mk := by
            rcases hmkc with ⟨he, hreason⟩ | ⟨-, hr1, hne⟩
            · have hbne : b.make ≠ [] := by
                rcases hreason with h1 | h1 | h1
                · exact h1
                · rw [hr12] at h1
                  exact absurd h1 (by simp)
                · rw [hr12] at h1
                  have hmk0nil : mk0 = [] :=
                    Option.some.inj (show (some mk0 : Option Str) = some [] from h1)
                  exact absurd hmk0nil hmk0ne
              refine ⟨by rw [he]; exact hbne, ?_, ?_⟩
              · rw [he, hbmake]
                exact stripWS_normalize_make (getS_stripped hmake0)
              · rw [he, hbmake]
                exact normalize_make_stab make0
            · rw [hr12] at hr1
              have hmk' : mk0 = mk :=
                Option.some.inj (show (some mk0 : Option Str) = some mk from hr1)
              subst hmk'
              exact ⟨hne, hmk0s, hmk0n⟩
          have hmdres : md ≠ [] ∧ stripWS md = md ∧ normalize_model md = md := by
            rcases hmdc with ⟨he, hreason⟩ | ⟨-, hr2, hne⟩
            · have hbne : b.model ≠ [] := by
                rcases hreason with h1 | h1 | h1
                · exact h1
                · rw [hr12] at h1
                  exact absurd h1 (by simp)
                · rw [hr12] at h1
                  have hmd0nil : md0 = [] :=
                    Option.some.inj (show (some md0 : Option Str) = some [] from h1)
                  exact absurd hmd0nil hmd0ne
              refine ⟨by rw [he]; exact hbne, ?_, ?_⟩
              · rw [he, hbmodel]
                exact stripWS_normalize_model model0
              · rw [he, hbmodel]
                exact normalize_model_stab model0
            · rw [hr12] at hr2
              have hmd' : md0 = md :=
                Option.some.inj (show (some md0 : Option Str) = some md from hr2)
              subst hmd'
              exact ⟨hne, hmd0s, hmd0n⟩
          exact ⟨mk, md, hn0, Or.inr (Or.inr ⟨hmkres.1, hmdres.1, hmkres.2.1, hmkres.2.2,
            hmdres.2.1, hmdres.2.2⟩)⟩
    obtain ⟨mk, md, hn, hmmfact⟩ := hmm3
    have hnv : n.vin = v1 := by rw [hn]
    have hny : n.year = y1 := by rw [hn]
    have hnmk : n.make = mk := by rw [hn]
    have hnmd : n.model = md := by rw [hn]
    have hv : normalize_vin (stripWS n.vin) = n.vin := by
      rcases hvc2 with ⟨he, -⟩ | ⟨hbv, hvs⟩
      · rw [hnv, he, hbvin]
        exact normalize_vin_stab vin0
      · obtain ⟨hlen, hci⟩ := vinSearch_valid hvs
        have hup : ∀ c ∈ v1, isVinUpper c = true := by
          intro c hc
          exact vinCI_upper_fixed (List.all_eq_true.mp hci c hc)
            (hvin c (by rw [hnv]; exact hc))
        have hnw : ∀ c ∈ v1, isWS c = false := fun c hc => isVinUpper_no_ws (hup c hc)
        rw [hnv, stripWS_eq_self_of_all hnw]
        exact normalize_vin_of_upper hup hlen
    have hvinP2 : n.vin = [] → vinSearch s = none := by
      intro hvn
      rw [hnv] at hvn
      rcases hvc2 with ⟨he, hreason⟩ | ⟨hbv, hvs⟩
      · rcases hreason with hbne | hnone
        · exact absurd (by rw [← he]; exact hvn) hbne
        · exact hnone
      · obtain ⟨hlen, -⟩ := vinSearch_valid hvs
        rw [hvn] at hlen
        exact absurd hlen (by decide)
    have hm : normalize_make (stripWS n.make) = n.make := by
      rcases hmmfact with ⟨hmk1, -, -, -⟩ | ⟨hmk1, -, -, -⟩ | ⟨-, -, hmks, hmkn, -, -⟩
      · rw [hnmk, hmk1, hbmake]
        exact normalize_make_stab2 (getS_stripped hmake0)
      · rw [hnmk, hmk1, hbmake]
        exact normalize_make_stab2 (getS_stripped hmake0)
      · rw [hnmk, hmks]
        exact hmkn
    have hmo : normalize_model (stripWS n.model) = n.model := by
      rcases hmmfact with ⟨-, hmd1, -, -⟩ | ⟨-, hmd1, -, -⟩ | ⟨-, -, -, -, hmds, hmdn⟩
      · rw [hnmd, hmd1, hbmodel]
        exact normalize_model_stab2 model0
      · rw [hnmd, hmd1, hbmodel]
        exact normalize_model_stab2 model0
      · rw [hnmd, hmds]
        exact hmdn
    have hmmP2 : (n.make ≠ [] ∧ n.model ≠ []) ∨
        (mmSearch1Aux false (lowerStr s) = none ∧ mmSearch2Aux false (lowerStr s) = none) := by
      rcases hmmfact with ⟨hmk1, hmd1, hbm, hbm2⟩ | ⟨-, -, hs1, hs2⟩ |
        ⟨hne1, hne2, -, -, -, -⟩
      · exact Or.inl ⟨by rw [hnmk, hmk1]; exact hbm, by rw [hnmd, hmd1]; exact hbm2⟩
      · exact Or.inr ⟨hs1, hs2⟩
      · exact Or.inl ⟨by rw [hnmk]; exact hne1, by rw [hnmd]; exact hne2⟩
    have hyearP2 : (normalize_year (getD ((toRaw n).year) Value.vNone) = n.year ∧
        (∀ k, n.year = some k → ¬k = 0) ∧
        (n.year = none → (yearFindall s).getLast? = none)) ∨
      (normalize_year (getD ((toRaw n).year) Value.vNone) = none ∧
        ∃ g, (yearFindall s).getLast? = some g ∧ n.year = some (digitsToInt g)) := by
      rcases hyc2 with ⟨he, hreason⟩ | ⟨hb0, g, hglast, hgy⟩
      · have hnyb : n.year = b.year := by rw [hny, he]
        obtain ⟨h1, h2⟩ := toRaw_year_roundtrip hby hnyb
        refine Or.inl ⟨h1, h2, ?_⟩
        intro hnone
        rcases hreason with ⟨hne0, -⟩ | hlast
        · exact absurd (by rw [← hnyb]; exact hnone) hne0
        · exact hlast
      · have hy2 : n.year = some (digitsToInt g) := by rw [hny, hgy]
        have hgd : digitsToInt g = 19 ∨ digitsToInt g = 20 := by
          have hmemg : g ∈ yearFindall s :=
            List.mem_of_mem_getLast? (Option.mem_def.mpr hglast)
          rcases yearFindAux_groups s false g hmemg with h1 | h1
          · rw [h1]; exact Or.inl (by decide)
          · rw [h1]; exact Or.inr (by decide)
        refine Or.inr ⟨?_, g, hglast, hy2⟩
        rw [show (toRaw n).year = (match n.year with
          | some k => Value.vInt k
          | none => Value.vNone) from rfl, hy2]
        show normalize_year (Value.vInt (digitsToInt g)) = none
        refine normalize_year_int_out ?_
        rcases hgd with h1 | h1 <;> rw [h1] <;> decide
    exact c7_finish hpd hsrc hslid hurl hsdu hslt htz hln hlc hls htrim hdrv hbodo hcn hrt
      hbrt (by rw [hn]) (by rw [hn]) (by rw [hn]) (by rw [hn]) (by rw [hn]) (by rw [hn])
      (by rw [hn]) (by rw [hn]) (by rw [hn]) (by rw [hn]) (by rw [hn]) (by rw [hn])
      (by rw [hn]) (by rw [hn]) hts hv hm hmo hvinP2 hyearP2 hmmP2
  · -- raw_text was absent or empty: the first pass did not extract
    have hbraw : b.raw_text = [] := by
      rcases hrabs with h1 | h1 <;> rw [h1] at hrt <;>
        exact (Except.ok.inj (show (Except.ok ([] : Str) : Except PyErr Str) =
          .ok b.raw_text from hrt)).symm
    refine c7_finish hpd hsrc hslid hurl hsdu hslt htz hln hlc hls htrim hdrv hbodo
      hcn hrt (show b.raw_text = stripWS ([] : Str) from by rw [hbraw]; rfl)
      (by rw [hnb]) (by rw [hnb]) (by rw [hnb]) (by rw [hnb]) (by rw [hnb]) (by rw [hnb])
      (by rw [hnb]) (by rw [hnb]) (by rw [hnb]) (by rw [hnb]) (by rw [hnb]) (by rw [hnb])
      (by rw [hnb]) (by rw [hnb]) hts ?_ ?_ ?_ (fun _ => rfl) ?_ (Or.inr ⟨rfl, rfl⟩)
    · rw [hnb, hbvin]
      exact normalize_vin_stab vin0
    · rw [hnb, hbmake]
      exact normalize_make_stab2 (getS_stripped hmake0)
    · rw [hnb, hbmodel]
      exact normalize_model_stab2 model0
    · obtain ⟨h1, h2⟩ := toRaw_year_roundtrip hby (show n.year = b.year from by rw [hnb])
      exact Or.inl ⟨h1, h2, fun _ => rfl⟩

/-- The raw lot and the normalized lot of the C7 witness. -/
def c7demoRaw : RawLot :=
  { make := Value.vStr ("Toyota".toList), raw_text := Value.vStr ("pickup".toList) }

def c7demoNorm : NormalizedLot :=
  { source := [], source_lot_id := [], lot_url := [], sale_date_utc := none,
    sale_local_time := [], tz_name := Value.vStr ("America/New_York".toList),
    location_name := [], location_city := [], location_state := [],
    vin := [], year := none, make := ("Toyota".toList), model := [],
    trim := [], drivetrain := [], odometer := none,
    title_status := ("unknown".toList), condition_notes := [], raw_text := ("pickup".toList) }

/-- Witness for C7 (amended): a concrete lot for which the second pass
reproduces the first pass output. -/
theorem c7_normalize_idempotent_witness :
    normalize_lot (fun _ => none) c7demoRaw = .ok c7demoNorm ∧
    normalize_lot (fun _ => none) (toRaw c7demoNorm) = .ok c7demoNorm :=
  ⟨by decide,
    c7_normalize_idempotent (fun _ => none) c7demoRaw c7demoNorm
      (fun s t ht => Option.noConfusion ht) (by decide) (by decide) (by decide)⟩

end AuctionRadar
